import Mathlib

/-! # SHMC synthesis engine: Patch VM (layer 0) and Voice VM (layer 1)

A shallow embedding of `layer0/src/patch_interp.c`, `layer0/src/tables.c`,
`layer0/include/opcodes.h` and `layer1/src/voice.c`.

Modelling conventions.

* A C `float` is a rational number and float arithmetic is exact.  Every
  constant of the duration and velocity tables is dyadic.
* Machine integers are natural numbers; the 32-bit generator state and the
  packed instruction words are reduced modulo the word size where the C code
  truncates.
* A fixed-size C array that is only ever indexed inside its bounds is a
  function on indices (`regs`, `state`) or a list holding the entries in use
  (`events[0..n)`, `code[0..n)`).
* The values produced by `powf`, `tanhf` and `expf` (the run-time tables
  `g_freq`, `g_cutoff`, `g_env` and two opcodes) are parameters, collected in
  `Libm`.
* A loop whose trip count is not syntactically bounded gets an explicit bound
  argument; running out of it is the result `none`, and the theorems show that
  the bound used by the entry points is never exhausted.
-/

namespace Synth

/-! ## Layer 0: opcodes and instruction words (`opcodes.h`) -/

/-- A patch instruction word (`uint64_t`). -/
abbrev Instr := Nat

def INSTR_PACK (op dst a b hi lo : Nat) : Instr :=
  ((op % 256) <<< 56) ||| ((dst % 256) <<< 48) ||| ((a % 256) <<< 40) |||
  ((b % 256) <<< 32) ||| ((hi % 65536) <<< 16) ||| (lo % 65536)

def INSTR_OP (i : Instr) : Nat := (i >>> 56) % 256
def INSTR_DST (i : Instr) : Nat := (i >>> 48) % 256
def INSTR_SRC_A (i : Instr) : Nat := (i >>> 40) % 256
def INSTR_SRC_B (i : Instr) : Nat := (i >>> 32) % 256
def INSTR_IMM_HI (i : Instr) : Nat := (i >>> 16) % 65536
def INSTR_IMM_LO (i : Instr) : Nat := i % 65536

def OP_CONST : Nat := 0
def OP_ADD : Nat := 1
def OP_SUB : Nat := 2
def OP_MUL : Nat := 3
def OP_DIV : Nat := 4
def OP_NEG : Nat := 5
def OP_ABS : Nat := 6
def OP_OSC : Nat := 7
def OP_SAW : Nat := 8
def OP_SQUARE : Nat := 9
def OP_TRI : Nat := 10
def OP_PHASE : Nat := 11
def OP_FM : Nat := 12
def OP_PM : Nat := 13
def OP_AM : Nat := 14
def OP_SYNC : Nat := 15
def OP_NOISE : Nat := 16
def OP_LP_NOISE : Nat := 17
def OP_RAND_STEP : Nat := 18
def OP_TANH : Nat := 19
def OP_CLIP : Nat := 20
def OP_FOLD : Nat := 21
def OP_SIGN : Nat := 22
def OP_LPF : Nat := 23
def OP_HPF : Nat := 24
def OP_BPF : Nat := 25
def OP_ONEPOLE : Nat := 26
def OP_ADSR : Nat := 27
def OP_RAMP : Nat := 28
def OP_EXP_DECAY : Nat := 29
def OP_MIN : Nat := 30
def OP_MAX : Nat := 31
def OP_MIXN : Nat := 32
def OP_OUT : Nat := 33
def OP_COUNT : Nat := 34

def MAX_REGS : Nat := 256
def MAX_STATE : Nat := 512
def MAX_INSTRS : Nat := 1024

/-! ## Layer 0: tables and patch data (`patch.h`, `tables.c`) -/

def REG_FREQ : Nat := 0
def REG_VEL : Nat := 1
def REG_TIME : Nat := 2
def REG_ONE : Nat := 3
def REG_FREE : Nat := 4

/-- Values that the C code obtains from the math library: the two
transcendental opcodes and the three tables filled by `tables_init` with
`powf`. -/
structure Libm where
  tanhf : ℚ → ℚ
  expf : ℚ → ℚ
  g_freq : Nat → ℚ
  g_cutoff : Nat → ℚ
  g_env : Nat → ℚ

def g_mod_table : List ℚ :=
  [0.000, 0.032, 0.065, 0.097, 0.129, 0.161, 0.194, 0.226,
   0.258, 0.290, 0.323, 0.355, 0.387, 0.419, 0.452, 0.484,
   0.516, 0.548, 0.581, 0.613, 0.645, 0.677, 0.710, 0.742,
   0.774, 0.806, 0.839, 0.871, 0.903, 0.935, 0.968, 1.000]

/-- The read `g_mod[i]`. -/
def g_mod (i : Nat) : ℚ := g_mod_table.getD i 0

def g_dur_table : List ℚ := [1/64, 1/32, 1/16, 1/8, 1/4, 1/2, 1]

/-- The read `g_dur[i]`. -/
def g_dur (i : Nat) : ℚ := g_dur_table.getD i 0

/-- Clamp of `freq_from_midi`: `if(m<0)m=0; if(m>127)m=127; return g_freq[m]`. -/
def freq_from_midi (lm : Libm) (m : Int) : ℚ :=
  let m1 := if m < 0 then 0 else m
  let m2 := if m1 > 127 then 127 else m1
  lm.g_freq m2.toNat

/-- The program of a patch: `code[0..n_instrs)` and the two counters. -/
structure PatchProgram where
  code : List Instr
  n_regs : Nat
  n_state : Nat

def PatchProgram.n_instrs (p : PatchProgram) : Nat := p.code.length

structure PatchState where
  regs : Nat → ℚ
  state : Nat → ℚ
  note_freq : ℚ
  note_vel : ℚ
  note_time : ℚ
  sr : ℚ
  dt : ℚ
  rng : Nat

/-- A patch: the bound program (`none` is the null pointer) and its state. -/
structure Patch where
  prog : Option PatchProgram
  st : PatchState

/-- The state left by `memset(&st,0,sizeof st)`. -/
def PatchState.zero : PatchState :=
  { regs := fun _ => 0, state := fun _ => 0, note_freq := 0, note_vel := 0,
    note_time := 0, sr := 0, dt := 0, rng := 0 }

/-! ## Layer 0: the interpreter (`patch_interp.c`) -/

def TWO_PI : ℚ := 6.28318530718

/-- The conversion `(int)x` of a float: truncation toward zero. -/
def truncInt (x : ℚ) : Int := if 0 ≤ x then ⌊x⌋ else ⌈x⌉

/-- The three xorshift updates of `rng_f` on a 32-bit word. -/
def xorshift32 (s : Nat) : Nat :=
  let s1 := s ^^^ ((s <<< 13) % 2 ^ 32)
  let s2 := s1 ^^^ (s1 >>> 17)
  s2 ^^^ ((s2 <<< 5) % 2 ^ 32)

/-- The reading `(int32_t)s` of a 32-bit word. -/
def toInt32 (s : Nat) : Int := if s < 2 ^ 31 then (s : Int) else (s : Int) - 2 ^ 32

/-- Result of `rng_f`: the sample and the new generator state. -/
def rng_f (s : Nat) : ℚ × Nat :=
  let s3 := xorshift32 s
  ((toInt32 s3 : ℚ) * (1 / 2147483648), s3)

/-- Result of `osc_tick`: the returned (old) phase and the stored phase. -/
def osc_tick (ph freq dt : ℚ) : ℚ × ℚ :=
  let ph1 := ph + TWO_PI * freq * dt
  (ph, if ph1 ≥ TWO_PI then ph1 - TWO_PI else ph1)

def fsin (x : ℚ) : ℚ :=
  let x1 := x - TWO_PI * (⌊x / TWO_PI + 0.5⌋ : ℚ)
  let s := x1 * x1
  x1 * (1 - s * (1 / 6 - s / 120))

def saw_w (p : ℚ) : ℚ := 2 * (p / TWO_PI) - 1
def sqr_w (p : ℚ) : ℚ := if p < 3.14159265 then 1 else -1
def tri_w (p : ℚ) : ℚ := let t := p / TWO_PI; if t < 0.5 then 4 * t - 1 else 3 - 4 * t

def fold_w (x : ℚ) : ℚ :=
  let x1 := x * 0.5 + 0.5
  let x2 := x1 - (⌊x1⌋ : ℚ)
  |x2 * 2 - 1| * 2 - 1

def lpc (cut dt : ℚ) : ℚ := let w := TWO_PI * cut * dt; w / (1 + w)

/-- The reading `(int16_t)hi` of a 16-bit word. -/
def toInt16 (hi : Nat) : Int := if hi < 2 ^ 15 then (hi : Int) else (hi : Int) - 2 ^ 16

def decode_const (hi lo : Nat) : ℚ :=
  if lo = 0 then (if hi < 32 then g_mod hi else (toInt16 hi : ℚ) / 256)
  else (toInt16 hi : ℚ) / 256

/-- Result of `adsr_tick` on the slots `st[0], st[1], st[2]`: the returned
level and the three slots written back.  The initial read `lv=st[1]` is dead
(every case of the switch assigns `lv`), so the old level is not used. -/
def adsr_tick (lm : Libm) (st0 _st1 st2 : ℚ) (hi lo : Nat) (dt : ℚ) : ℚ × (ℚ × ℚ × ℚ) :=
  let stg : Int := truncInt st0
  let ai := (hi >>> 10) &&& 0x3F
  let di := (hi >>> 5) &&& 0x1F
  let si := hi &&& 0x1F
  let ri := (lo >>> 11) &&& 0x1F
  let att := lm.g_env ai
  let dec := lm.g_env di
  let sus := g_mod si
  let rel := lm.g_env ri
  let tm := st2 + dt
  let r : Int × ℚ × ℚ :=
    if stg = 0 then
      (if tm ≥ att then (1, 1, 0) else (0, tm / att, tm))
    else if stg = 1 then
      (if tm ≥ dec then (2, sus, 0) else (1, 1 - (1 - sus) * (tm / dec), tm))
    else if stg = 2 then (2, sus, tm)
    else if stg = 3 then
      (let lv := sus * (1 - tm / rel)
       if lv < 0 then (4, 0, tm) else (3, lv, tm))
    else (stg, 0, tm)
  (r.2.1, ((r.1 : ℚ), r.2.1, r.2.2))

/-- One non-`OUT` case of the switch in `exec1`: instruction `ins` at position
`i`.  `r` and `s` are the register file and the state array of `ps`. -/
def exec_instr (lm : Libm) (i : Nat) (ins : Instr) (ps : PatchState) : PatchState :=
  let r := ps.regs
  let s := ps.state
  let dt := ps.dt
  let freq := ps.note_freq
  let op := INSTR_OP ins
  let dst := INSTR_DST ins
  let a := INSTR_SRC_A ins
  let b := INSTR_SRC_B ins
  let hi := INSTR_IMM_HI ins
  let lo := INSTR_IMM_LO ins
  let sb := (i * 4) % MAX_STATE
  let mult : ℚ := if r a > 0 then r a else 1
  if op = OP_CONST then { ps with regs := Function.update r dst (decode_const hi lo) }
  else if op = OP_ADD then { ps with regs := Function.update r dst (r a + r b) }
  else if op = OP_SUB then { ps with regs := Function.update r dst (r a - r b) }
  else if op = OP_MUL then { ps with regs := Function.update r dst (r a * r b) }
  else if op = OP_DIV then
    { ps with regs := Function.update r dst (if r b ≠ 0 then r a / r b else 0) }
  else if op = OP_NEG then { ps with regs := Function.update r dst (-(r a)) }
  else if op = OP_ABS then { ps with regs := Function.update r dst |r a| }
  else if op = OP_OSC then
    let t := osc_tick (s sb) (freq * mult) dt
    { ps with state := Function.update s sb t.2, regs := Function.update r dst (fsin t.1) }
  else if op = OP_SAW then
    let t := osc_tick (s sb) (freq * mult) dt
    { ps with state := Function.update s sb t.2, regs := Function.update r dst (saw_w t.1) }
  else if op = OP_SQUARE then
    let t := osc_tick (s sb) (freq * mult) dt
    { ps with state := Function.update s sb t.2, regs := Function.update r dst (sqr_w t.1) }
  else if op = OP_TRI then
    let t := osc_tick (s sb) (freq * mult) dt
    { ps with state := Function.update s sb t.2, regs := Function.update r dst (tri_w t.1) }
  else if op = OP_PHASE then
    let t := osc_tick (s sb) (freq * mult) dt
    { ps with state := Function.update s sb t.2, regs := Function.update r dst t.2 }
  else if op = OP_FM then
    let md : ℚ := if hi < 32 then g_mod hi else 0.5
    let cf := freq * mult
    let p1 := s sb + (TWO_PI * cf * dt + md * r b)
    let p2 := if p1 ≥ TWO_PI then p1 - TWO_PI else p1
    { ps with state := Function.update s sb p2, regs := Function.update r dst (fsin p2) }
  else if op = OP_PM then
    let t := osc_tick (s sb) (freq * mult) dt
    { ps with state := Function.update s sb t.2,
              regs := Function.update r dst (fsin (t.1 + r b)) }
  else if op = OP_AM then
    let md : ℚ := if hi < 32 then g_mod hi else 0.5
    { ps with regs := Function.update r dst (r a * (1 + md * r b)) }
  else if op = OP_SYNC then
    let prev := s sb
    let s1 := Function.update s sb (r a)
    let s2 := if prev ≤ 0 ∧ r a > 0 then Function.update s1 (sb + 1) 0 else s1
    let t := osc_tick (s2 (sb + 1)) (freq * (if r b > 0 then r b else 2)) dt
    { ps with state := Function.update s2 (sb + 1) t.2,
              regs := Function.update r dst (fsin t.1) }
  else if op = OP_NOISE then
    let n := rng_f ps.rng
    { ps with rng := n.2, regs := Function.update r dst n.1 }
  else if op = OP_LP_NOISE then
    let n := rng_f ps.rng
    let c : ℚ := if hi < 64 then lpc (lm.g_cutoff hi) dt else 0.05
    let v := s sb + c * (n.1 - s sb)
    { ps with rng := n.2, state := Function.update s sb v, regs := Function.update r dst v }
  else if op = OP_RAND_STEP then
    let per : Nat := if hi > 0 then hi else 100
    if truncInt (s (sb + 1)) ≤ 0 then
      let n := rng_f ps.rng
      let s1 := Function.update (Function.update s sb n.1) (sb + 1) (per : ℚ)
      let s2 := Function.update s1 (sb + 1) (s1 (sb + 1) - 1)
      { ps with rng := n.2, state := s2, regs := Function.update r dst (s2 sb) }
    else
      let s2 := Function.update s (sb + 1) (s (sb + 1) - 1)
      { ps with state := s2, regs := Function.update r dst (s2 sb) }
  else if op = OP_TANH then { ps with regs := Function.update r dst (lm.tanhf (r a)) }
  else if op = OP_CLIP then { ps with regs := Function.update r dst (max (-1) (min 1 (r a))) }
  else if op = OP_FOLD then { ps with regs := Function.update r dst (fold_w (r a)) }
  else if op = OP_SIGN then
    { ps with regs := Function.update r dst (if r a > 0 then 1 else if r a < 0 then -1 else 0) }
  else if op = OP_LPF then
    let c : ℚ := if hi < 64 then lpc (lm.g_cutoff hi) dt else 0.1
    let v := s sb + c * (r a - s sb)
    { ps with state := Function.update s sb v, regs := Function.update r dst v }
  else if op = OP_HPF then
    let c : ℚ := if hi < 64 then lpc (lm.g_cutoff hi) dt else 0.1
    let lp := s sb + c * (r a - s sb)
    { ps with state := Function.update s sb lp, regs := Function.update r dst (r a - lp) }
  else if op = OP_BPF then
    let c : ℚ := if hi < 64 then lpc (lm.g_cutoff hi) dt else 0.1
    let q : ℚ := if lo < 32 then g_mod lo + 0.1 else 0.5
    let lv := s sb
    let bv := s (sb + 1)
    let hv := r a - lv - q * bv
    let bv1 := bv + c * hv
    let lv1 := lv + c * bv1
    { ps with state := Function.update (Function.update s sb lv1) (sb + 1) bv1,
              regs := Function.update r dst bv1 }
  else if op = OP_ONEPOLE then
    let c : ℚ := (((hi >>> 8) % 256 : Nat) : ℚ) / 255
    let v := c * r a + (1 - c) * s sb
    { ps with state := Function.update s sb v, regs := Function.update r dst v }
  else if op = OP_ADSR then
    let t := adsr_tick lm (s sb) (s (sb + 1)) (s (sb + 2)) hi lo dt
    { ps with state := Function.update (Function.update (Function.update s sb t.2.1)
                (sb + 1) t.2.2.1) (sb + 2) t.2.2.2,
              regs := Function.update r dst t.1 }
  else if op = OP_RAMP then
    let dur : ℚ := if hi < 32 then lm.g_env hi else 0.1
    { ps with regs := Function.update r dst (min 1 (ps.note_time / dur)) }
  else if op = OP_EXP_DECAY then
    let rate : ℚ := if hi < 32 then g_mod hi * 20 else 2
    { ps with regs := Function.update r dst (lm.expf (-rate * ps.note_time)) }
  else if op = OP_MIN then { ps with regs := Function.update r dst (min (r a) (r b)) }
  else if op = OP_MAX then { ps with regs := Function.update r dst (max (r a) (r b)) }
  else if op = OP_MIXN then
    let wa : ℚ := if hi < 32 then g_mod hi else 0.5
    let wb : ℚ := if lo < 32 then g_mod lo else 0.5
    { ps with regs := Function.update r dst (r a * wa + r b * wb) }
  else ps

/-- The loop of `exec1` from instruction position `i` on, over the
instructions `code[i..n_instrs)` still to execute: the sample and the state. -/
def exec1_from (lm : Libm) : List Instr → Nat → PatchState → ℚ × PatchState
  | [], _, ps => (ps.regs 0 * ps.note_vel, { ps with note_time := ps.note_time + ps.dt })
  | ins :: rest, i, ps =>
    if INSTR_OP ins = OP_OUT then
      (ps.regs (INSTR_SRC_A ins) * ps.note_vel, { ps with note_time := ps.note_time + ps.dt })
    else exec1_from lm rest (i + 1) (exec_instr lm i ins ps)

def exec1 (lm : Libm) (ps : PatchState) (prog : PatchProgram) : ℚ × PatchState :=
  exec1_from lm prog.code 0 ps

def patch_reset (p : Patch) : Patch :=
  { p with st := { PatchState.zero with rng := 0xDEADBEEF } }

def patch_note_on (lm : Libm) (p : Patch) (prog : PatchProgram) (sr : ℚ) (midi : Int)
    (vel : ℚ) : Patch :=
  let p1 := patch_reset p
  let f := freq_from_midi lm midi
  { prog := some prog,
    st := { p1.st with
      sr := sr, dt := 1 / sr, note_freq := f, note_vel := vel, note_time := 0,
      regs := Function.update (Function.update (Function.update (Function.update
                p1.st.regs REG_FREQ f) REG_VEL vel) REG_TIME 0) REG_ONE 1 } }

/-- The sample loop of `patch_step`: the samples written, in order, and the
final state. -/
def patch_step_loop (lm : Libm) (prog : PatchProgram) : Nat → PatchState → List ℚ × PatchState
  | 0, st => ([], st)
  | n + 1, st =>
    let st1 := { st with regs := Function.update st.regs REG_TIME st.note_time }
    let r := exec1 lm st1 prog
    let rest := patch_step_loop lm prog n r.2
    (r.1 :: rest.1, rest.2)

/-- Result of `patch_step(p,out,n)`: the status, the samples written to
`out[0..n)` (none when the status is -1) and the patch.  The output pointer is
not null. -/
def patch_step (lm : Libm) (p : Patch) (n : Nat) : Int × List ℚ × Patch :=
  match p.prog with
  | none => (-1, [], p)
  | some prog =>
    let r := patch_step_loop lm prog n p.st
    (0, r.1, { p with st := r.2 })

/-! ## Layer 0: the patch builder (`patch_builder.h`) -/

/-- The builder: the program under construction, the register counter `rc`
and the flag `ok` (0, or -1 once a budget is exceeded). -/
structure PatchBuilder where
  prog : PatchProgram
  rc : Nat
  ok : Int

/-- The cast `(uint8_t)x` of an `int` argument. -/
def u8 (x : Int) : Nat := (x % 256).toNat

/-- The cast `(uint16_t)x` of an `int` argument. -/
def u16 (x : Int) : Nat := (x % 65536).toNat

/-- The masking `x & (2^n - 1)` of an `int` argument in two's complement. -/
def low_bits (x : Int) (n : Nat) : Nat := (x % 2 ^ n).toNat

/-- The state set by `pb_init`; `n_instrs = 0` is the empty code list. -/
def pb_init : PatchBuilder :=
  { prog := { code := [], n_regs := REG_FREE, n_state := 0 }, rc := REG_FREE, ok := 0 }

/-- Result of `pb_reg`: the register returned and the builder. -/
def pb_reg (b : PatchBuilder) : Nat × PatchBuilder :=
  if b.rc ≥ MAX_REGS then (0, { b with ok := -1 }) else (b.rc, { b with rc := b.rc + 1 })

def pb_emit (b : PatchBuilder) (ins : Instr) : PatchBuilder :=
  if b.prog.n_instrs ≥ MAX_INSTRS then { b with ok := -1 }
  else { b with prog := { b.prog with code := b.prog.code ++ [ins] } }

/-- The body shared by the value-producing builder functions:
`int d=pb_reg(b); pb_emit(b,INSTR_PACK(op,d,a,c,hi,lo)); return d;`, with the
source and immediate fields already cast. -/
def pb_value (b : PatchBuilder) (op a c hi lo : Nat) : Nat × PatchBuilder :=
  let r := pb_reg b
  (r.1, pb_emit r.2 (INSTR_PACK op r.1 a c hi lo))

def pb_const_mod (b : PatchBuilder) (mi : Int) : Nat × PatchBuilder :=
  pb_value b OP_CONST 0 0 (u16 mi) 0

/-- The builder call `pb_const_f`: `q = (int16_t)(v*256.f)` truncates toward zero. -/
def pb_const_f (b : PatchBuilder) (v : ℚ) : Nat × PatchBuilder :=
  pb_value b OP_CONST 0 0 (u16 (truncInt (v * 256))) 1

def pb_add (b : PatchBuilder) (a c : Int) : Nat × PatchBuilder :=
  pb_value b OP_ADD (u8 a) (u8 c) 0 0

def pb_sub (b : PatchBuilder) (a c : Int) : Nat × PatchBuilder :=
  pb_value b OP_SUB (u8 a) (u8 c) 0 0

def pb_mul (b : PatchBuilder) (a c : Int) : Nat × PatchBuilder :=
  pb_value b OP_MUL (u8 a) (u8 c) 0 0

def pb_neg (b : PatchBuilder) (a : Int) : Nat × PatchBuilder :=
  pb_value b OP_NEG (u8 a) 0 0 0

def pb_abs (b : PatchBuilder) (a : Int) : Nat × PatchBuilder :=
  pb_value b OP_ABS (u8 a) 0 0 0

def pb_osc (b : PatchBuilder) (rm : Int) : Nat × PatchBuilder :=
  pb_value b OP_OSC (u8 rm) 0 0 0

def pb_saw (b : PatchBuilder) (rm : Int) : Nat × PatchBuilder :=
  pb_value b OP_SAW (u8 rm) 0 0 0

def pb_square (b : PatchBuilder) (rm : Int) : Nat × PatchBuilder :=
  pb_value b OP_SQUARE (u8 rm) 0 0 0

def pb_tri (b : PatchBuilder) (rm : Int) : Nat × PatchBuilder :=
  pb_value b OP_TRI (u8 rm) 0 0 0

def pb_fm (b : PatchBuilder) (rm rmod di : Int) : Nat × PatchBuilder :=
  pb_value b OP_FM (u8 rm) (u8 rmod) (u16 di) 0

def pb_am (b : PatchBuilder) (rcar rmod di : Int) : Nat × PatchBuilder :=
  pb_value b OP_AM (u8 rcar) (u8 rmod) (u16 di) 0

def pb_noise (b : PatchBuilder) : Nat × PatchBuilder :=
  pb_value b OP_NOISE 0 0 0 0

def pb_lp_noise (b : PatchBuilder) (ci : Int) : Nat × PatchBuilder :=
  pb_value b OP_LP_NOISE 0 0 (u16 ci) 0

def pb_tanh (b : PatchBuilder) (a : Int) : Nat × PatchBuilder :=
  pb_value b OP_TANH (u8 a) 0 0 0

def pb_clip (b : PatchBuilder) (a : Int) : Nat × PatchBuilder :=
  pb_value b OP_CLIP (u8 a) 0 0 0

def pb_fold (b : PatchBuilder) (a : Int) : Nat × PatchBuilder :=
  pb_value b OP_FOLD (u8 a) 0 0 0

def pb_lpf (b : PatchBuilder) (a ci : Int) : Nat × PatchBuilder :=
  pb_value b OP_LPF (u8 a) 0 (u16 ci) 0

def pb_hpf (b : PatchBuilder) (a ci : Int) : Nat × PatchBuilder :=
  pb_value b OP_HPF (u8 a) 0 (u16 ci) 0

def pb_bpf (b : PatchBuilder) (a ci qi : Int) : Nat × PatchBuilder :=
  pb_value b OP_BPF (u8 a) 0 (u16 ci) (u16 qi)

/-- The high immediate packed by `pb_adsr`:
`(uint16_t)(((att&0x3F)<<10)|((dec&0x1F)<<5)|(sus&0x1F))`. -/
def adsr_hi (att dec sus : Int) : Nat :=
  (((low_bits att 6) <<< 10) ||| ((low_bits dec 5) <<< 5) ||| (low_bits sus 5)) % 65536

/-- The low immediate packed by `pb_adsr`: `(uint16_t)((rel&0x1F)<<11)`. -/
def adsr_lo (rel : Int) : Nat := ((low_bits rel 5) <<< 11) % 65536

def pb_adsr (b : PatchBuilder) (att dec sus rel : Int) : Nat × PatchBuilder :=
  pb_value b OP_ADSR 0 0 (adsr_hi att dec sus) (adsr_lo rel)

def pb_exp_decay (b : PatchBuilder) (ri : Int) : Nat × PatchBuilder :=
  pb_value b OP_EXP_DECAY 0 0 (u16 ri) 0

def pb_mix (b : PatchBuilder) (a c wa wb : Int) : Nat × PatchBuilder :=
  pb_value b OP_MIXN (u8 a) (u8 c) (u16 wa) (u16 wb)

def pb_out (b : PatchBuilder) (src : Int) : PatchBuilder :=
  pb_emit b (INSTR_PACK OP_OUT 0 (u8 src) 0 0 0)

/-- Result of `pb_finish`: the builder with `n_regs` set; the program returned
is its `prog`. -/
def pb_finish (b : PatchBuilder) : PatchBuilder :=
  { b with prog := { b.prog with n_regs := b.rc } }

/-! ## Layer 1: voice programs and event streams (`voice.h`) -/

def VOICE_MAX_INSTRS : Nat := 4096
def VOICE_MAX_EVENTS : Nat := 8192

def VEL_TABLE_table : List ℚ := [0.125, 0.250, 0.375, 0.500, 0.625, 0.750, 0.875, 1.000]

/-- The read `VEL_TABLE[i]`. -/
def VEL_TABLE (i : Nat) : ℚ := VEL_TABLE_table.getD i 0

def VI_NOTE : Nat := 0
def VI_REST : Nat := 1
def VI_TIE : Nat := 2
def VI_GLIDE : Nat := 3
def VI_REPEAT_BEGIN : Nat := 4
def VI_REPEAT_END : Nat := 5

/-- A voice instruction word (`uint32_t`). -/
abbrev VInstr := Nat

def VI_PACK (op pitch dur vel : Nat) : VInstr :=
  ((op % 256) <<< 24) ||| ((pitch % 256) <<< 16) ||| ((dur % 256) <<< 8) ||| (vel % 256)

def VI_OP (i : VInstr) : Nat := (i >>> 24) % 256
def VI_PITCH (i : VInstr) : Nat := (i >>> 16) % 256
def VI_DUR (i : VInstr) : Nat := (i >>> 8) % 256
def VI_VEL (i : VInstr) : Nat := i % 256

/-- A voice program: the instructions `code[0..n)`. -/
structure VoiceProgram where
  code : List VInstr

def VoiceProgram.n (vp : VoiceProgram) : Nat := vp.code.length

inductive EvType where
  | EV_NOTE_ON
  | EV_NOTE_OFF
  deriving DecidableEq, Repr

structure Event where
  beat : ℚ
  type : EvType
  pitch : Nat
  velocity : ℚ
  deriving DecidableEq

/-- An event stream: the events `events[0..n)` and the total duration. -/
structure EventStream where
  events : List Event
  total_beats : ℚ
  deriving DecidableEq

def EventStream.n (es : EventStream) : Nat := es.events.length

/-! ## Layer 1: the compiler (`voice.c`) -/

/-- Result of `ev_push` on the events in use: status and events. -/
def ev_push (evs : List Event) (beat : ℚ) (type : EvType) (pitch : Nat) (vel : ℚ) :
    Int × List Event :=
  if evs.length ≥ VOICE_MAX_EVENTS then (-1, evs)
  else (0, evs ++ [{ beat := beat, type := type, pitch := pitch, velocity := vel }])

/-- The loop `for(k=es->n-1;k>=0;k--)` of the `VI_TIE` case, with `k+1` given
as third argument: the first `NOTE_OFF` met is shifted and the loop stops. -/
def tie_extend (evs : List Event) (dur_beats : ℚ) : Nat → List Event
  | 0 => evs
  | k + 1 =>
    match evs.get? k with
    | some e =>
      if e.type = EvType.EV_NOTE_OFF then evs.set k { e with beat := e.beat + dur_beats }
      else tie_extend evs dur_beats k
    | none => tie_extend evs dur_beats k

/-- The scan `for(j=i+1;j<hi;j++)` of the `VI_REPEAT_BEGIN` case, from index
`j` with `m = hi - j` iterations left; `none` is `end_i = -1`. -/
def find_end (code : List VInstr) : Nat → Nat → Nat → Option Nat
  | 0, _, _ => none
  | m + 1, j, depth =>
    let jop := VI_OP (code.getD j 0)
    if jop = VI_REPEAT_BEGIN then find_end code m (j + 1) (depth + 1)
    else if jop = VI_REPEAT_END then
      (if depth - 1 = 0 then some j else find_end code m (j + 1) (depth - 1))
    else find_end code m (j + 1) depth

/-- The compiler state threaded through `compile_range`: the events in use
(`es`) and the beat cursor (`*beat`). -/
structure CState where
  evs : List Event
  beat : ℚ
  deriving DecidableEq

/-- The loop `for(r=0;r<count;r++)` around the recursive call: `0` when all
iterations returned 0, `-1` as soon as one fails. -/
def repeat_loop (body : CState → Option (Int × CState)) : Nat → CState → Option (Int × CState)
  | 0, st => some (0, st)
  | r + 1, st =>
    match body st with
    | none => none
    | some (rc, st1) => if rc < 0 then some (-1, st1) else repeat_loop body r st1

/-- The `while(i<hi)` loop of `compile_range`, entered at index `i`;
`compile_range(code,lo,hi,es,beat)` is the loop entered at `i = lo`.  The first
argument bounds the number of loop iterations plus the recursion depth. -/
def compile_range (code : List VInstr) :
    Nat → Nat → Nat → CState → Option (Int × CState)
  | 0, _, _, _ => none
  | fuel + 1, i, hi, st =>
    if i < hi then
      let vi := code.getD i 0
      let op := VI_OP vi
      let pitch := VI_PITCH vi
      let di := VI_DUR vi
      let veli := VI_VEL vi
      let dur_beats : ℚ := if di < 7 then g_dur di else g_dur 4
      let vel : ℚ := if veli < 8 then VEL_TABLE veli else 0.75
      if op = VI_NOTE then
        let p1 := ev_push st.evs st.beat EvType.EV_NOTE_ON pitch vel
        if p1.1 < 0 then some (-1, { st with evs := p1.2 })
        else
          let p2 := ev_push p1.2 (st.beat + dur_beats) EvType.EV_NOTE_OFF pitch vel
          if p2.1 < 0 then some (-1, { st with evs := p2.2 })
          else compile_range code fuel (i + 1) hi { evs := p2.2, beat := st.beat + dur_beats }
      else if op = VI_REST then
        compile_range code fuel (i + 1) hi { st with beat := st.beat + dur_beats }
      else if op = VI_TIE then
        compile_range code fuel (i + 1) hi
          { evs := tie_extend st.evs dur_beats st.evs.length, beat := st.beat + dur_beats }
      else if op = VI_GLIDE then
        let p1 := ev_push st.evs st.beat EvType.EV_NOTE_ON pitch vel
        if p1.1 < 0 then some (-1, { st with evs := p1.2 })
        else
          let p2 := ev_push p1.2 (st.beat + dur_beats) EvType.EV_NOTE_OFF pitch vel
          if p2.1 < 0 then some (-1, { st with evs := p2.2 })
          else compile_range code fuel (i + 1) hi { evs := p2.2, beat := st.beat + dur_beats }
      else if op = VI_REPEAT_BEGIN then
        match find_end code (hi - (i + 1)) (i + 1) 1 with
        | none => some (-1, st)
        | some end_i =>
          let count : Nat := if VI_VEL (code.getD end_i 0) < 1 then 1 else VI_VEL (code.getD end_i 0)
          match repeat_loop (fun s => compile_range code fuel (i + 1) end_i s) count st with
          | none => none
          | some (rc, st1) =>
            if rc < 0 then some (-1, st1) else compile_range code fuel (end_i + 1) hi st1
      else compile_range code fuel (i + 1) hi st
    else some (0, st)

/-- The duration in beats selected by an instruction word, as computed at the
head of the loop body: `(di < 7) ? g_dur[di] : g_dur[4]`. -/
def dur_of (vi : VInstr) : ℚ := if VI_DUR vi < 7 then g_dur (VI_DUR vi) else g_dur 4

/-- The velocity selected by an instruction word, as computed at the head of
the loop body: `(veli < 8) ? VEL_TABLE[veli] : 0.75f`. -/
def vel_of (vi : VInstr) : ℚ := if VI_VEL vi < 8 then VEL_TABLE (VI_VEL vi) else 0.75

/-- The two pushes and the cursor advance shared by the `VI_NOTE` and
`VI_GLIDE` cases, as one state transformer with its status. -/
def note_pair (st : CState) (pitch : Nat) (vel dur : ℚ) : Int × CState :=
  let p1 := ev_push st.evs st.beat EvType.EV_NOTE_ON pitch vel
  if p1.1 < 0 then (-1, { st with evs := p1.2 })
  else
    let p2 := ev_push p1.2 (st.beat + dur) EvType.EV_NOTE_OFF pitch vel
    if p2.1 < 0 then (-1, { st with evs := p2.2 })
    else (0, { evs := p2.2, beat := st.beat + dur })

/-- The effect of one loop iteration of `compile_range` on an instruction
other than `VI_REPEAT_BEGIN`: the status (`-1` is the early return) and the
state.  `compile_range_step` relates it to `compile_range`. -/
def simple_step (vi : VInstr) (st : CState) : Int × CState :=
  if VI_OP vi = VI_NOTE ∨ VI_OP vi = VI_GLIDE then
    note_pair st (VI_PITCH vi) (vel_of vi) (dur_of vi)
  else if VI_OP vi = VI_REST then (0, { st with beat := st.beat + dur_of vi })
  else if VI_OP vi = VI_TIE then
    (0, { evs := tie_extend st.evs (dur_of vi) st.evs.length, beat := st.beat + dur_of vi })
  else (0, st)

/-- The repeat count read from a `VI_REPEAT_END` word: `count<1` becomes 1. -/
def count_of (vi : VInstr) : Nat := if VI_VEL vi < 1 then 1 else VI_VEL vi

/-- Result of `voice_compile`: the returned status and the event stream. -/
def voice_compile (vp : VoiceProgram) : Option (Int × EventStream) :=
  match compile_range vp.code (vp.n + 1) 0 vp.n { evs := [], beat := 0 } with
  | none => none
  | some (r, st) => some (r, { events := st.evs, total_beats := st.beat })

/-! ## Layer 1: the renderer (`voice.c`) -/

structure VoiceRenderer where
  es : EventStream
  patch_prog : PatchProgram
  bpm : ℚ
  sr : ℚ
  beat_time : ℚ
  sample_time : ℚ
  ev_cursor : Nat
  active : Patch
  has_active : Bool
  done : Bool

def voice_renderer_init (es : EventStream) (patch : PatchProgram) (bpm sr : ℚ) :
    VoiceRenderer :=
  { es := es, patch_prog := patch, bpm := bpm, sr := sr, beat_time := 0, sample_time := 0,
    ev_cursor := 0, active := { prog := none, st := PatchState.zero },
    has_active := false, done := false }

/-- The loop `for(k=0;k<pp->n_instrs;k++)` of the `NOTE_OFF` branch, from
position `k` over the instructions `code[k..n_instrs)`, on the state array of
the active patch. -/
def release_scan : List Instr → Nat → (Nat → ℚ) → (Nat → ℚ)
  | [], _, s => s
  | ins :: rest, k, s =>
    if (ins >>> 56) &&& 0xFF = 0x1C then
      let sb := (k * 4) % MAX_STATE
      release_scan rest (k + 1) (Function.update (Function.update s (sb + 0) 3) (sb + 2) 0)
    else release_scan rest (k + 1) s

/-- The body of the drain loop for one due event, before `ev_cursor++`. -/
def apply_event (lm : Libm) (vr : VoiceRenderer) (ev : Event) : VoiceRenderer :=
  if ev.type = EvType.EV_NOTE_ON then
    { vr with active := patch_note_on lm vr.active vr.patch_prog vr.sr (ev.pitch : Int) ev.velocity,
              has_active := true }
  else if vr.has_active then
    { vr with active := { vr.active with st := { vr.active.st with
        state := release_scan vr.patch_prog.code 0 vr.active.st.state } } }
  else vr

/-- The loop `while(vr->ev_cursor < vr->es->n)` of one sample; the second
argument bounds the iterations and is `es->n - ev_cursor` at entry. -/
def drain_events (lm : Libm) (cur_beat : ℚ) : Nat → VoiceRenderer → VoiceRenderer
  | 0, vr => vr
  | m + 1, vr =>
    match vr.es.events.get? vr.ev_cursor with
    | none => vr
    | some ev =>
      if ev.beat > cur_beat then vr
      else
        let vr1 := apply_event lm vr ev
        drain_events lm cur_beat m { vr1 with ev_cursor := vr1.ev_cursor + 1 }

/-- One iteration of the sample loop of `voice_render_block`: the sample
written to `out[s]` and the renderer. -/
def render_sample (lm : Libm) (secs_per_beat dt : ℚ) (vr : VoiceRenderer) : ℚ × VoiceRenderer :=
  let cur_beat := vr.beat_time
  let vr1 := drain_events lm cur_beat (vr.es.n - vr.ev_cursor) vr
  let r : ℚ × VoiceRenderer :=
    if vr1.has_active then
      let q := patch_step lm vr1.active 1
      (q.2.1.getD 0 0, { vr1 with active := q.2.2 })
    else (0, vr1)
  let t := r.2.sample_time + dt
  (r.1, { r.2 with sample_time := t, beat_time := t / secs_per_beat })

/-- The loop `for(s=0;s<n_samples;s++)`: the samples written and the renderer. -/
def render_loop (lm : Libm) (secs_per_beat dt : ℚ) : Nat → VoiceRenderer → List ℚ × VoiceRenderer
  | 0, vr => ([], vr)
  | n + 1, vr =>
    let r := render_sample lm secs_per_beat dt vr
    let rest := render_loop lm secs_per_beat dt n r.2
    (r.1 :: rest.1, rest.2)

/-- Result of `voice_render_block(vr,out,n_samples)`: the returned status, the
contents of `out[0..n_samples)` and the renderer. -/
def voice_render_block (lm : Libm) (vr : VoiceRenderer) (n_samples : Nat) :
    Int × List ℚ × VoiceRenderer :=
  if vr.done then (1, List.replicate n_samples 0, vr)
  else
    let secs_per_beat : ℚ := 60 / vr.bpm
    let dt : ℚ := 1 / vr.sr
    let r := render_loop lm secs_per_beat dt n_samples vr
    let vr1 := r.2
    if vr1.ev_cursor ≥ vr1.es.n then
      if vr1.has_active then
        let q := patch_step lm vr1.active 1
        let vr2 := { vr1 with active := q.2.2 }
        if |q.2.1.getD 0 0| < 1e-5 then (1, r.1, { vr2 with done := true })
        else (0, r.1, vr2)
      else (1, r.1, { vr1 with done := true })
    else (0, r.1, vr1)

/-! ## Quantities used to state the properties of the compiler -/

/-- Two instruction words that `compile_range` cannot tell apart: both or
neither open a block, both or neither close one with the same count, and as
plain instructions they have the same effect on the compiler state. -/
def step_equiv (v w : VInstr) : Prop :=
  (VI_OP v = VI_REPEAT_BEGIN ↔ VI_OP w = VI_REPEAT_BEGIN) ∧
  (VI_OP v = VI_REPEAT_END ↔ VI_OP w = VI_REPEAT_END) ∧
  (VI_OP v = VI_REPEAT_END → count_of v = count_of w) ∧
  (VI_OP v ≠ VI_REPEAT_BEGIN → simple_step v = simple_step w)

/-- The relation between an instruction and its replacement when every `GLIDE`
is replaced by a `NOTE` with the same pitch, duration index and velocity
index, and every other instruction is kept. -/
def glide_replaced (v w : VInstr) : Prop :=
  if VI_OP v = VI_GLIDE then
    VI_OP w = VI_NOTE ∧ VI_PITCH w = VI_PITCH v ∧ VI_DUR w = VI_DUR v ∧ VI_VEL w = VI_VEL v
  else w = v

/-- The replacement of a `GLIDE` word by the `NOTE` word with the same pitch,
duration index and velocity index; other words are kept. -/
def note_of_glide (v : VInstr) : VInstr :=
  if VI_OP v = VI_GLIDE then VI_PACK VI_NOTE (VI_PITCH v) (VI_DUR v) (VI_VEL v) else v

/-- Compilation of an instruction sequence as a whole range, from a given
compiler state: `compile_range(code,0,n,es,&beat)`. -/
def compile_seq (code : List VInstr) (st : CState) : Option (Int × CState) :=
  compile_range code (code.length + 1) 0 code.length st

/-- The events are in non-decreasing order of beat. -/
def beats_sorted (evs : List Event) : Prop :=
  List.Pairwise (fun a b : Event => a.beat ≤ b.beat) evs

/-- The invariant of the compiler state between two loop iterations: the
events are sorted and none lies beyond the cursor, and the last event, if any,
is a `NOTE_OFF`. -/
def compile_inv (st : CState) : Prop :=
  beats_sorted st.evs ∧ (∀ e ∈ st.evs, e.beat ≤ st.beat) ∧
  (∀ e, st.evs.getLast? = some e → e.type = EvType.EV_NOTE_OFF)

/-- The beat at which instruction `j` of a program without repeats starts: the
sum of the durations of all earlier instructions. -/
def onset (code : List VInstr) (j : Nat) : ℚ := ((code.take j).map dur_of).sum

/-- The two events of a `NOTE` word starting at beat `t`; nothing for another
word. -/
def note_events_at (t : ℚ) (v : VInstr) : List Event :=
  if VI_OP v = VI_NOTE then
    [⟨t, EvType.EV_NOTE_ON, VI_PITCH v, vel_of v⟩,
     ⟨t + dur_of v, EvType.EV_NOTE_OFF, VI_PITCH v, vel_of v⟩]
  else []

/-- The events expected from a program of `NOTE` and `REST` instructions: in
program order, for each `NOTE` a `NOTE_ON` at its onset and a `NOTE_OFF` at
its onset plus its duration. -/
def note_rest_events (code : List VInstr) : List Event :=
  (List.range code.length).flatMap (fun j => note_events_at (onset code j) (code.getD j 0))

/-! ## Quantities used to state the properties of the interpreter -/

/-- The state after the instructions `code`, placed at the positions
`i, i+1, …` of a program, have executed in order (none of them ending the pass). -/
def exec_seq (lm : Libm) : List Instr → Nat → PatchState → PatchState
  | [], _, ps => ps
  | ins :: rest, i, ps => exec_seq lm rest (i + 1) (exec_instr lm i ins ps)

/-- The position of the first `OUT` instruction of a program, and the length
of the program when it has none. -/
def first_out (code : List Instr) : Nat :=
  code.findIdx (fun ins => decide (INSTR_OP ins = OP_OUT))

/-- The instruction stores into register `r`: every opcode below `OUT` assigns
`r[dst]`, `OUT` and the opcodes without a case assign no register. -/
def writes_reg (ins : Instr) (r : Nat) : Prop := INSTR_OP ins < OP_OUT ∧ INSTR_DST ins = r

instance (ins : Instr) (r : Nat) : Decidable (writes_reg ins r) := by
  unfold writes_reg; infer_instance

/-- The waveform of the four plain oscillator opcodes at phase `p`. -/
def waveform (op : Nat) (p : ℚ) : ℚ :=
  if op = OP_OSC then fsin p
  else if op = OP_SAW then saw_w p
  else if op = OP_SQUARE then sqr_w p
  else tri_w p

/-- The phase `p` advanced by one sample of an oscillator at `freq * mult`, as
`osc_tick` stores it: one subtraction of `TWO_PI` when it has reached `TWO_PI`. -/
def advanced_phase (p freq mult dt : ℚ) : ℚ :=
  if p + TWO_PI * (freq * mult) * dt ≥ TWO_PI then p + TWO_PI * (freq * mult) * dt - TWO_PI
  else p + TWO_PI * (freq * mult) * dt

/-- The value-producing calls of the builder, with their arguments. -/
inductive BuilderCall where
  | const_mod (mi : Int)
  | const_f (v : ℚ)
  | add (a c : Int)
  | sub (a c : Int)
  | mul (a c : Int)
  | neg (a : Int)
  | abs (a : Int)
  | osc (rm : Int)
  | saw (rm : Int)
  | square (rm : Int)
  | tri (rm : Int)
  | fm (rm rmod di : Int)
  | am (rcar rmod di : Int)
  | noise
  | lp_noise (ci : Int)
  | tanh (a : Int)
  | clip (a : Int)
  | fold (a : Int)
  | lpf (a ci : Int)
  | hpf (a ci : Int)
  | bpf (a ci qi : Int)
  | adsr (att dec sus rel : Int)
  | exp_decay (ri : Int)
  | mix (a c wa wb : Int)

/-- One value-producing call on the builder `b`. -/
def pb_call (b : PatchBuilder) : BuilderCall → Nat × PatchBuilder
  | .const_mod mi => pb_const_mod b mi
  | .const_f v => pb_const_f b v
  | .add a c => pb_add b a c
  | .sub a c => pb_sub b a c
  | .mul a c => pb_mul b a c
  | .neg a => pb_neg b a
  | .abs a => pb_abs b a
  | .osc rm => pb_osc b rm
  | .saw rm => pb_saw b rm
  | .square rm => pb_square b rm
  | .tri rm => pb_tri b rm
  | .fm rm rmod di => pb_fm b rm rmod di
  | .am rcar rmod di => pb_am b rcar rmod di
  | .noise => pb_noise b
  | .lp_noise ci => pb_lp_noise b ci
  | .tanh a => pb_tanh b a
  | .clip a => pb_clip b a
  | .fold a => pb_fold b a
  | .lpf a ci => pb_lpf b a ci
  | .hpf a ci => pb_hpf b a ci
  | .bpf a ci qi => pb_bpf b a ci qi
  | .adsr att dec sus rel => pb_adsr b att dec sus rel
  | .exp_decay ri => pb_exp_decay b ri
  | .mix a c wa wb => pb_mix b a c wa wb

/-- A sequence of value-producing calls: the registers returned, in order, and
the builder. -/
def pb_calls (b : PatchBuilder) : List BuilderCall → List Nat × PatchBuilder
  | [] => ([], b)
  | c :: cs =>
    let r := pb_call b c
    let rest := pb_calls r.2 cs
    (r.1 :: rest.1, rest.2)

/-- The sine-with-envelope patch of the layer-0 tests (`p_sine_adsr`), as the
builder emits it: `ADSR(3,10,22,18)` into register 4, `OSC(ONE)` into 5, their
product into 6, `OUT` of register 6. -/
def p_sine_adsr : PatchProgram :=
  { code := [INSTR_PACK OP_ADSR 4 0 0 ((3 <<< 10) ||| (10 <<< 5) ||| 22) (18 <<< 11),
             INSTR_PACK OP_OSC 5 REG_ONE 0 0 0,
             INSTR_PACK OP_MUL 6 5 4 0 0,
             INSTR_PACK OP_OUT 0 6 0 0 0],
    n_regs := 7, n_state := 0 }

/-- Sample values for the math-library parameters, used to evaluate the
renderer on concrete inputs. -/
def libm_sample : Libm :=
  { tanhf := fun x => x, expf := fun _ => 1, g_freq := fun _ => 440,
    g_cutoff := fun _ => 1000, g_env := fun _ => 1 / 100 }

/-- A renderer playing `p_sine_adsr` whose envelope (instruction 0, state
slots 0..2) is in its sustain stage 2 with timer 1/2. -/
def sustaining_renderer : VoiceRenderer :=
  { voice_renderer_init { events := [⟨0, EvType.EV_NOTE_ON, 60, 1⟩, ⟨1, EvType.EV_NOTE_OFF, 60, 1⟩],
                           total_beats := 1 } p_sine_adsr 120 44100 with
    ev_cursor := 1, has_active := true,
    active := { prog := some p_sine_adsr,
                st := { PatchState.zero with
                  state := Function.update (Function.update (fun _ => 0) 0 2) 2 (1 / 2) } } }

/-- The renderer with its event cursor set to `k`. -/
def set_cursor (vr : VoiceRenderer) (k : Nat) : VoiceRenderer := { vr with ev_cursor := k }

/-- The program of the tie test: `NOTE 60,1/4,f; TIE 1/8; REST 1/8;
NOTE 64,1/4,mf; REST 1/4; NOTE 67,1/2,p`. -/
def tie_prog : VoiceProgram :=
  { code := [VI_PACK VI_NOTE 60 4 6, VI_PACK VI_TIE 0 3 0, VI_PACK VI_REST 0 3 0,
      VI_PACK VI_NOTE 64 4 5, VI_PACK VI_REST 0 4 0, VI_PACK VI_NOTE 67 5 3] }

/-- The program of the structure test: `NOTE 60,1/4,mf; REST 1/8; NOTE 64,1/4,f`. -/
def structure_prog : VoiceProgram :=
  { code := [VI_PACK VI_NOTE 60 4 5, VI_PACK VI_REST 0 3 0, VI_PACK VI_NOTE 64 4 6] }

/-- A two-event stream: a note of a quarter beat. -/
def short_stream : EventStream :=
  { events := [⟨0, EvType.EV_NOTE_ON, 60, 1⟩, ⟨1 / 4, EvType.EV_NOTE_OFF, 60, 1⟩],
    total_beats := 1 / 4 }

/-- A program whose instructions store into the reserved registers:
`FREQ = 2.0; VEL = 2.0; ONE = 2.0; OUT FREQ`. -/
def clobber_prog : PatchProgram :=
  { code := [INSTR_PACK OP_CONST REG_FREQ 0 0 0x0200 1, INSTR_PACK OP_CONST REG_VEL 0 0 0x0200 1,
             INSTR_PACK OP_CONST REG_ONE 0 0 0x0200 1, INSTR_PACK OP_OUT 0 REG_FREQ 0 0 0],
    n_regs := 4, n_state := 0 }

/-- The `ADSR` instruction with attack index 32, decay, sustain and release
index 0, as `pb_adsr(b,32,0,0,0)` emits it into register 4. -/
def adsr_att32 : Instr := INSTR_PACK OP_ADSR 4 0 0 ((32 &&& 0x3F) <<< 10) 0

/-- The sample tables with another value behind the 32 entries of `g_env`. -/
def libm_beyond : Libm :=
  { libm_sample with g_env := fun i => if i < 32 then libm_sample.g_env i else 1 }

/-- The envelope alone: `ADSR(32,0,0,0)` into register 4, then `OUT`. -/
def adsr32_prog : PatchProgram :=
  { code := [adsr_att32, INSTR_PACK OP_OUT 0 4 0 0 0], n_regs := 5, n_state := 0 }

/-- A sawtooth at the note frequency: `SAW(ONE)` into register 4, then `OUT`. -/
def saw_prog : PatchProgram :=
  { code := [INSTR_PACK OP_SAW 4 REG_ONE 0 0 0, INSTR_PACK OP_OUT 0 4 0 0 0],
    n_regs := 5, n_state := 0 }

/-- A phase-modulated sine with a constant offset of 3 radians:
`r4 = 3.0; r5 = PM(ONE, r4); OUT r5`. -/
def pm_prog : PatchProgram :=
  { code := [INSTR_PACK OP_CONST 4 0 0 0x0300 1, INSTR_PACK OP_PM 5 REG_ONE 4 0 0,
             INSTR_PACK OP_OUT 0 5 0 0 0],
    n_regs := 6, n_state := 0 }

/-- A program of 129 noise sources, one more instruction than there are
disjoint slot ranges. -/
def crowded_calls : List BuilderCall := List.replicate 129 BuilderCall.noise

/-- A patch whose output is the note clock: `OUT TIME`. -/
def clock_prog : PatchProgram :=
  { code := [INSTR_PACK OP_OUT 0 REG_TIME 0 0 0], n_regs := 4, n_state := 0 }

/-- A renderer just initialised on `short_stream` with `clock_prog`, at 120
beats per minute and 8 samples per second: the note-on is due at sample 0 and
the note-off, at beat 1/4, at sample 1. -/
def clock_renderer : VoiceRenderer := voice_renderer_init short_stream clock_prog 120 8

/-! # Properties -/

/-! ### Unfolding `compile_range` -/

theorem compile_range_done (code : List VInstr) (f i hi : Nat) (st : CState) (h : ¬ i < hi) :
    compile_range code (f + 1) i hi st = some (0, st) := by
  rw [compile_range, if_neg h]

theorem compile_range_step (code : List VInstr) (f i hi : Nat) (st : CState) (h : i < hi)
    (hop : VI_OP (code.getD i 0) ≠ VI_REPEAT_BEGIN) :
    compile_range code (f + 1) i hi st =
      if (simple_step (code.getD i 0) st).1 < 0 then some (-1, (simple_step (code.getD i 0) st).2)
      else compile_range code f (i + 1) hi (simple_step (code.getD i 0) st).2 := by
  rw [compile_range, if_pos h]
  dsimp only
  generalize code.getD i 0 = vi at hop ⊢
  by_cases h0 : VI_OP vi = VI_NOTE
  · simp only [simple_step, note_pair, dur_of, vel_of, h0, true_or, if_true]
    split_ifs <;> first | rfl | (exfalso; simp_all)
  · by_cases h1 : VI_OP vi = VI_REST
    · simp [simple_step, dur_of, h1, VI_REST, VI_NOTE, VI_GLIDE]
    · by_cases h2 : VI_OP vi = VI_TIE
      · simp [simple_step, dur_of, h2, VI_REST, VI_NOTE, VI_GLIDE, VI_TIE]
      · by_cases h3 : VI_OP vi = VI_GLIDE
        · simp only [simple_step, note_pair, dur_of, vel_of, h3, or_true, if_true]
          have : ¬ VI_GLIDE = VI_NOTE := by decide
          have : ¬ VI_GLIDE = VI_REST := by decide
          have : ¬ VI_GLIDE = VI_TIE := by decide
          split_ifs <;> first | rfl | (exfalso; simp_all)
        · simp [simple_step, h0, h1, h2, h3, hop]

theorem compile_range_begin (code : List VInstr) (f i hi : Nat) (st : CState) (h : i < hi)
    (hop : VI_OP (code.getD i 0) = VI_REPEAT_BEGIN) :
    compile_range code (f + 1) i hi st =
      match find_end code (hi - (i + 1)) (i + 1) 1 with
      | none => some (-1, st)
      | some end_i =>
        match repeat_loop (fun s => compile_range code f (i + 1) end_i s)
            (count_of (code.getD end_i 0)) st with
        | none => none
        | some (rc, st1) =>
          if rc < 0 then some (-1, st1) else compile_range code f (end_i + 1) hi st1 := by
  rw [compile_range, if_pos h]
  dsimp only
  have e0 : ¬ VI_OP (code.getD i 0) = VI_NOTE := by rw [hop]; decide
  have e1 : ¬ VI_OP (code.getD i 0) = VI_REST := by rw [hop]; decide
  have e2 : ¬ VI_OP (code.getD i 0) = VI_TIE := by rw [hop]; decide
  have e3 : ¬ VI_OP (code.getD i 0) = VI_GLIDE := by rw [hop]; decide
  rw [if_neg e0, if_neg e1, if_neg e2, if_neg e3, if_pos hop]
  rfl


/-! ### The scan for the matching `REPEAT_END` -/

theorem find_end_succ (code : List VInstr) (m j d : Nat) :
    find_end code (m + 1) j d =
      if VI_OP (code.getD j 0) = VI_REPEAT_BEGIN then find_end code m (j + 1) (d + 1)
      else if VI_OP (code.getD j 0) = VI_REPEAT_END then
        (if d - 1 = 0 then some j else find_end code m (j + 1) (d - 1))
      else find_end code m (j + 1) d := rfl

theorem find_end_spec (code : List VInstr) :
    ∀ (m j d e : Nat), find_end code m j d = some e →
      j ≤ e ∧ e < j + m ∧ VI_OP (code.getD e 0) = VI_REPEAT_END := by
  intro m
  induction m with
  | zero => intro j d e h; simp [find_end] at h
  | succ m ih =>
    intro j d e h
    rw [find_end_succ] at h
    split_ifs at h with h1 h2 h3
    · have := ih _ _ _ h; omega
    · cases h; exact ⟨le_refl _, by omega, h2⟩
    · have := ih _ _ _ h; omega
    · have := ih _ _ _ h; omega

theorem repeat_loop_mono (b1 b2 : CState → Option (Int × CState))
    (hb : ∀ s r, b1 s = some r → b2 s = some r) :
    ∀ (k : Nat) (st : CState) (r : Int × CState),
      repeat_loop b1 k st = some r → repeat_loop b2 k st = some r := by
  intro k
  induction k with
  | zero => intro st r h; simpa [repeat_loop] using h
  | succ k ih =>
    intro st r h
    rw [repeat_loop] at h ⊢
    cases hb1 : b1 st with
    | none => rw [hb1] at h; simp at h
    | some q =>
      rw [hb1] at h
      rw [hb _ _ hb1]
      obtain ⟨rc, st1⟩ := q
      dsimp only at h ⊢
      split_ifs at h ⊢ with hrc
      · exact h
      · exact ih _ _ h

theorem repeat_loop_total (b : CState → Option (Int × CState))
    (hb : ∀ s, ∃ r, b s = some r) :
    ∀ (k : Nat) (st : CState), ∃ r, repeat_loop b k st = some r := by
  intro k
  induction k with
  | zero => intro st; exact ⟨_, rfl⟩
  | succ k ih =>
    intro st
    obtain ⟨⟨rc, st1⟩, hq⟩ := hb st
    rw [repeat_loop, hq]
    dsimp only
    split_ifs
    · exact ⟨_, rfl⟩
    · exact ih _

theorem compile_range_mono (code : List VInstr) :
    ∀ (f i hi : Nat) (st : CState) (r : Int × CState),
      compile_range code f i hi st = some r →
      ∀ f2, f ≤ f2 → compile_range code f2 i hi st = some r := by
  intro f
  induction f with
  | zero => intro i hi st r h; simp [compile_range] at h
  | succ f ih =>
    intro i hi st r h f2 hf2
    obtain ⟨g, rfl⟩ : ∃ g, f2 = g + 1 := ⟨f2 - 1, by omega⟩
    have hfg : f ≤ g := by omega
    by_cases hlt : i < hi
    · by_cases hop : VI_OP (code.getD i 0) = VI_REPEAT_BEGIN
      · rw [compile_range_begin code _ _ _ _ hlt hop] at h ⊢
        cases hfe : find_end code (hi - (i + 1)) (i + 1) 1 with
        | none => rw [hfe] at h; exact h
        | some e =>
          rw [hfe] at h
          dsimp only at h ⊢
          cases hrl : repeat_loop (fun s => compile_range code f (i + 1) e s)
              (count_of (code.getD e 0)) st with
          | none => rw [hrl] at h; simp at h
          | some q =>
            rw [hrl] at h
            have := repeat_loop_mono _ (fun s => compile_range code g (i + 1) e s)
              (fun s r hs => ih _ _ _ _ hs g hfg) _ _ _ hrl
            rw [this]
            obtain ⟨rc, st1⟩ := q
            dsimp only at h ⊢
            split_ifs at h ⊢ with hrc
            · exact h
            · exact ih _ _ _ _ h g hfg
      · rw [compile_range_step code _ _ _ _ hlt hop] at h ⊢
        split_ifs at h ⊢ with hrc
        · exact h
        · exact ih _ _ _ _ h g hfg
    · rw [compile_range_done code _ _ _ _ hlt] at h ⊢
      exact h

theorem compile_range_total (code : List VInstr) :
    ∀ (f i hi : Nat) (st : CState), hi - i < f →
      ∃ r, compile_range code f i hi st = some r := by
  intro f
  induction f with
  | zero => intro i hi st h; omega
  | succ f ih =>
    intro i hi st hf
    by_cases hlt : i < hi
    · by_cases hop : VI_OP (code.getD i 0) = VI_REPEAT_BEGIN
      · rw [compile_range_begin code _ _ _ _ hlt hop]
        cases hfe : find_end code (hi - (i + 1)) (i + 1) 1 with
        | none => exact ⟨_, rfl⟩
        | some e =>
          have hb := find_end_spec code _ _ _ _ hfe
          dsimp only
          obtain ⟨⟨rc, st1⟩, hq⟩ := repeat_loop_total
            (fun s => compile_range code f (i + 1) e s)
            (fun s => ih (i + 1) e s (by omega)) (count_of (code.getD e 0)) st
          rw [hq]
          dsimp only
          split_ifs
          · exact ⟨_, rfl⟩
          · exact ih _ _ _ (by omega)
      · rw [compile_range_step code _ _ _ _ hlt hop]
        split_ifs
        · exact ⟨_, rfl⟩
        · exact ih _ _ _ (by omega)
    · exact ⟨_, compile_range_done code _ _ _ _ hlt⟩

/-- Any two sufficient bounds give the same result. -/
theorem compile_range_fuel (code : List VInstr) (f g i hi : Nat) (st : CState)
    (hf : hi - i < f) (hg : hi - i < g) :
    compile_range code f i hi st = compile_range code g i hi st := by
  obtain ⟨r, hr⟩ := compile_range_total code f i hi st hf
  rcases le_total f g with h | h
  · rw [hr, compile_range_mono code _ _ _ _ _ hr g h]
  · obtain ⟨r2, hr2⟩ := compile_range_total code g i hi st hg
    rw [hr2, compile_range_mono code _ _ _ _ _ hr2 f h]

/-! ### One loop iteration -/

theorem tie_extend_length (evs : List Event) (d : ℚ) :
    ∀ k, (tie_extend evs d k).length = evs.length := by
  intro k
  induction k with
  | zero => rfl
  | succ k ih =>
    rw [tie_extend]
    split
    · split_ifs
      · simp
      · exact ih
    · exact ih

theorem ev_push_fst (evs : List Event) (b : ℚ) (t : EvType) (p : Nat) (v : ℚ) :
    (ev_push evs b t p v).1 = if evs.length ≥ VOICE_MAX_EVENTS then -1 else 0 := by
  unfold ev_push; split_ifs <;> rfl

theorem ev_push_snd (evs : List Event) (b : ℚ) (t : EvType) (p : Nat) (v : ℚ) :
    (ev_push evs b t p v).2 =
      if evs.length ≥ VOICE_MAX_EVENTS then evs
      else evs ++ [{ beat := b, type := t, pitch := p, velocity := v }] := by
  unfold ev_push; split_ifs <;> rfl

/-- The three outcomes of the two pushes of a note. -/
theorem note_pair_cases (st : CState) (p : Nat) (v d : ℚ) :
    (VOICE_MAX_EVENTS ≤ st.evs.length ∧ note_pair st p v d = (-1, st)) ∨
    (st.evs.length + 1 = VOICE_MAX_EVENTS ∧
      note_pair st p v d = (-1, { st with evs := st.evs ++ [⟨st.beat, EvType.EV_NOTE_ON, p, v⟩] })) ∨
    (st.evs.length + 2 ≤ VOICE_MAX_EVENTS ∧
      note_pair st p v d = (0, { evs := st.evs ++ [⟨st.beat, EvType.EV_NOTE_ON, p, v⟩,
        ⟨st.beat + d, EvType.EV_NOTE_OFF, p, v⟩], beat := st.beat + d })) := by
  unfold note_pair
  simp only [ev_push_fst, ev_push_snd]
  by_cases h1 : st.evs.length ≥ VOICE_MAX_EVENTS
  · left
    simp [h1]
  · right
    by_cases h2 : st.evs.length + 1 = VOICE_MAX_EVENTS
    · left
      refine ⟨h2, ?_⟩
      simp [h1, h2]
    · right
      have h3 : st.evs.length + 2 ≤ VOICE_MAX_EVENTS := by simp only [ge_iff_le, not_le] at h1; omega
      refine ⟨h3, ?_⟩
      have h4 : ¬ (st.evs.length + 1 ≥ VOICE_MAX_EVENTS) := by omega
      simp [h1, h4]

theorem simple_step_status (vi : VInstr) (st : CState) :
    (simple_step vi st).1 = 0 ∨ (simple_step vi st).1 = -1 := by
  unfold simple_step
  split_ifs
  · rcases note_pair_cases st (VI_PITCH vi) (vel_of vi) (dur_of vi) with h | h | h <;>
      rw [h.2] <;> simp
  · simp
  · simp
  · simp

theorem repeat_loop_status (b : CState → Option (Int × CState)) :
    ∀ (k : Nat) (st : CState) (rc : Int) (s2 : CState),
      repeat_loop b k st = some (rc, s2) → rc = 0 ∨ rc = -1 := by
  intro k
  induction k with
  | zero => intro st rc s2 h; simp [repeat_loop] at h; exact Or.inl h.1.symm
  | succ k ih =>
    intro st rc s2 h
    rw [repeat_loop] at h
    cases hq : b st with
    | none => rw [hq] at h; simp at h
    | some q =>
      obtain ⟨rc1, st1⟩ := q
      rw [hq] at h
      dsimp only at h
      split_ifs at h
      · simp at h; exact Or.inr h.1.symm
      · exact ih _ _ _ h

theorem compile_range_status (code : List VInstr) :
    ∀ (f i hi : Nat) (st : CState) (rc : Int) (s2 : CState),
      compile_range code f i hi st = some (rc, s2) → rc = 0 ∨ rc = -1 := by
  intro f
  induction f with
  | zero => intro i hi st rc s2 h; simp [compile_range] at h
  | succ f ih =>
    intro i hi st rc s2 h
    by_cases hlt : i < hi
    · by_cases hop : VI_OP (code.getD i 0) = VI_REPEAT_BEGIN
      · rw [compile_range_begin code _ _ _ _ hlt hop] at h
        cases hfe : find_end code (hi - (i + 1)) (i + 1) 1 with
        | none => rw [hfe] at h; simp at h; exact Or.inr h.1.symm
        | some e =>
          rw [hfe] at h
          dsimp only at h
          cases hrl : repeat_loop (fun s => compile_range code f (i + 1) e s)
              (count_of (code.getD e 0)) st with
          | none => rw [hrl] at h; simp at h
          | some q =>
            obtain ⟨rc1, st1⟩ := q
            rw [hrl] at h
            dsimp only at h
            split_ifs at h
            · simp at h; exact Or.inr h.1.symm
            · exact ih _ _ _ _ _ h
      · rw [compile_range_step code _ _ _ _ hlt hop] at h
        split_ifs at h
        · simp at h; exact Or.inr h.1.symm
        · exact ih _ _ _ _ _ h
    · rw [compile_range_done code _ _ _ _ hlt] at h
      simp at h; exact Or.inl h.1.symm

theorem repeat_loop_inv (P Q : CState → Prop) (b : CState → Option (Int × CState))
    (hPQ : ∀ s, P s → Q s)
    (hs : ∀ s rc s2, b s = some (rc, s2) → rc = 0 ∨ rc = -1)
    (hb : ∀ s rc s2, P s → b s = some (rc, s2) → Q s2 ∧ (rc = 0 → P s2)) :
    ∀ (k : Nat) (st : CState) (rc : Int) (s2 : CState), P st →
      repeat_loop b k st = some (rc, s2) → Q s2 ∧ (rc = 0 → P s2) := by
  intro k
  induction k with
  | zero =>
    intro st rc s2 hP h
    simp [repeat_loop] at h
    rw [← h.2]; exact ⟨hPQ _ hP, fun _ => hP⟩
  | succ k ih =>
    intro st rc s2 hP h
    rw [repeat_loop] at h
    cases hq : b st with
    | none => rw [hq] at h; simp at h
    | some q =>
      obtain ⟨rc1, st1⟩ := q
      rw [hq] at h
      dsimp only at h
      have h1 := hb _ _ _ hP hq
      split_ifs at h with hrc
      · simp at h
        rw [← h.2, ← h.1]
        exact ⟨h1.1, fun h0 => absurd h0 (by decide)⟩
      · have h0 : rc1 = 0 := by rcases hs _ _ _ hq with h0 | h0 <;> omega
        exact ih _ _ _ (h1.2 h0) h

/-- Invariant rule: `P` holds of the states from which the loop continues, `Q`
of every state that `compile_range` can return. -/
theorem compile_range_inv (P Q : CState → Prop) (hPQ : ∀ s, P s → Q s)
    (hok : ∀ vi st, P st → (simple_step vi st).1 = 0 → P (simple_step vi st).2)
    (hfail : ∀ vi st, P st → (simple_step vi st).1 < 0 → Q (simple_step vi st).2)
    (code : List VInstr) :
    ∀ (f i hi : Nat) (st : CState) (rc : Int) (s2 : CState), P st →
      compile_range code f i hi st = some (rc, s2) → Q s2 ∧ (rc = 0 → P s2) := by
  intro f
  induction f with
  | zero => intro i hi st rc s2 _ h; simp [compile_range] at h
  | succ f ih =>
    intro i hi st rc s2 hP h
    by_cases hlt : i < hi
    · by_cases hop : VI_OP (code.getD i 0) = VI_REPEAT_BEGIN
      · rw [compile_range_begin code _ _ _ _ hlt hop] at h
        cases hfe : find_end code (hi - (i + 1)) (i + 1) 1 with
        | none =>
          rw [hfe] at h; simp at h
          rw [← h.2, ← h.1]
          exact ⟨hPQ _ hP, fun h0 => absurd h0 (by decide)⟩
        | some e =>
          rw [hfe] at h
          dsimp only at h
          cases hrl : repeat_loop (fun s => compile_range code f (i + 1) e s)
              (count_of (code.getD e 0)) st with
          | none => rw [hrl] at h; simp at h
          | some q =>
            obtain ⟨rc1, st1⟩ := q
            rw [hrl] at h
            dsimp only at h
            have h1 := repeat_loop_inv P Q _ hPQ
              (fun s rc s2 hh => compile_range_status code _ _ _ _ _ _ hh)
              (fun s rc s2 hs hh => ih _ _ _ _ _ hs hh)
              _ _ _ _ hP hrl
            split_ifs at h with hrc
            · simp at h
              rw [← h.2, ← h.1]
              exact ⟨h1.1, fun h0 => absurd h0 (by decide)⟩
            · have h0 : rc1 = 0 := by
                rcases repeat_loop_status _ _ _ _ _ hrl with h0 | h0 <;> omega
              exact ih _ _ _ _ _ (h1.2 h0) h
      · rw [compile_range_step code _ _ _ _ hlt hop] at h
        split_ifs at h with hrc
        · have h2 := Prod.mk.inj (Option.some.inj h)
          rw [← h2.2, ← h2.1]
          exact ⟨hfail _ _ hP hrc, fun h0 => absurd h0 (by decide)⟩
        · have h0 : (simple_step (code.getD i 0) st).1 = 0 := by
            rcases simple_step_status (code.getD i 0) st with h0 | h0
            · exact h0
            · rw [h0] at hrc; exact absurd (by decide) hrc
          exact ih _ _ _ _ _ (hok _ _ hP h0) h
    · rw [compile_range_done code _ _ _ _ hlt] at h
      simp at h
      rw [← h.2, ← h.1]
      exact ⟨hPQ _ hP, fun _ => hP⟩

theorem step_equiv_refl (v : VInstr) : step_equiv v v :=
  ⟨Iff.rfl, Iff.rfl, fun _ => rfl, fun _ => rfl⟩

theorem find_end_congr (c1 c2 : List VInstr) :
    ∀ (m j1 j2 d : Nat),
      (∀ t, t < m → step_equiv (c1.getD (j1 + t) 0) (c2.getD (j2 + t) 0)) →
      (find_end c1 m j1 d = none → find_end c2 m j2 d = none) ∧
      (∀ t, find_end c1 m j1 d = some (j1 + t) → find_end c2 m j2 d = some (j2 + t)) := by
  intro m
  induction m with
  | zero => intro j1 j2 d _; simp [find_end]
  | succ m ih =>
    intro j1 j2 d hw
    have h0 := hw 0 (by omega)
    simp only [Nat.add_zero] at h0
    have hw2 : ∀ t, t < m → step_equiv (c1.getD (j1 + 1 + t) 0) (c2.getD (j2 + 1 + t) 0) := by
      intro t ht
      have := hw (t + 1) (by omega)
      rw [show j1 + (t + 1) = j1 + 1 + t by omega, show j2 + (t + 1) = j2 + 1 + t by omega] at this
      exact this
    have key : ∀ d2, (find_end c1 m (j1 + 1) d2 = none → find_end c2 m (j2 + 1) d2 = none) ∧
        (∀ t, find_end c1 m (j1 + 1) d2 = some (j1 + t) →
          find_end c2 m (j2 + 1) d2 = some (j2 + t)) := by
      intro d2
      refine ⟨(ih _ _ d2 hw2).1, ?_⟩
      intro t ht
      have hsp := find_end_spec c1 _ _ _ _ ht
      obtain ⟨u, rfl⟩ : ∃ u, t = 1 + u := ⟨t - 1, by omega⟩
      have := (ih _ _ d2 hw2).2 u (by rw [show j1 + 1 + u = j1 + (1 + u) by omega]; exact ht)
      rw [show j2 + (1 + u) = j2 + 1 + u by omega]; exact this
    rw [find_end_succ, find_end_succ]
    by_cases h1 : VI_OP (c1.getD j1 0) = VI_REPEAT_BEGIN
    · rw [if_pos h1, if_pos (h0.1.1 h1)]
      exact key _
    · rw [if_neg h1, if_neg (fun h => h1 (h0.1.2 h))]
      by_cases h2 : VI_OP (c1.getD j1 0) = VI_REPEAT_END
      · rw [if_pos h2, if_pos (h0.2.1.1 h2)]
        by_cases h3 : d - 1 = 0
        · rw [if_pos h3, if_pos h3]
          refine ⟨by simp, ?_⟩
          intro t ht
          have : t = 0 := by simp at ht; omega
          subst this; rfl
        · rw [if_neg h3, if_neg h3]
          exact key _
      · rw [if_neg h2, if_neg (fun h => h2 (h0.2.1.2 h))]
        exact key _

theorem compile_range_congr (c1 c2 : List VInstr) :
    ∀ (f i1 i2 len : Nat) (st : CState),
      (∀ t, t < len → step_equiv (c1.getD (i1 + t) 0) (c2.getD (i2 + t) 0)) →
      compile_range c1 f i1 (i1 + len) st = compile_range c2 f i2 (i2 + len) st := by
  intro f
  induction f with
  | zero => intro i1 i2 len st _; simp [compile_range]
  | succ f ih =>
    intro i1 i2 len st hw
    by_cases hlen : len = 0
    · subst hlen
      rw [compile_range_done c1 _ _ _ _ (by omega), compile_range_done c2 _ _ _ _ (by omega)]
    · have h0 := hw 0 (by omega)
      simp only [Nat.add_zero] at h0
      have hl1 : i1 < i1 + len := by omega
      have hl2 : i2 < i2 + len := by omega
      by_cases hop : VI_OP (c1.getD i1 0) = VI_REPEAT_BEGIN
      · rw [compile_range_begin c1 _ _ _ _ hl1 hop,
          compile_range_begin c2 _ _ _ _ hl2 (h0.1.1 hop)]
        have hm1 : i1 + len - (i1 + 1) = len - 1 := by omega
        have hm2 : i2 + len - (i2 + 1) = len - 1 := by omega
        rw [hm1, hm2]
        have hfc := find_end_congr c1 c2 (len - 1) (i1 + 1) (i2 + 1) 1 (by
          intro t ht
          have := hw (1 + t) (by omega)
          rw [show i1 + (1 + t) = i1 + 1 + t by omega, show i2 + (1 + t) = i2 + 1 + t by omega]
            at this
          exact this)
        cases hfe : find_end c1 (len - 1) (i1 + 1) 1 with
        | none => rw [hfc.1 hfe]
        | some e =>
          have hsp := find_end_spec c1 _ _ _ _ hfe
          obtain ⟨u, rfl⟩ : ∃ u, e = i1 + 1 + u := ⟨e - (i1 + 1), by omega⟩
          rw [hfc.2 u hfe]
          dsimp only
          have hcnt : count_of (c1.getD (i1 + 1 + u) 0) = count_of (c2.getD (i2 + 1 + u) 0) := by
            have := hw (1 + u) (by omega)
            rw [show i1 + (1 + u) = i1 + 1 + u by omega, show i2 + (1 + u) = i2 + 1 + u by omega]
              at this
            exact this.2.2.1 hsp.2.2
          have hbody : (fun s => compile_range c1 f (i1 + 1) (i1 + 1 + u) s) =
              (fun s => compile_range c2 f (i2 + 1) (i2 + 1 + u) s) := by
            funext s
            apply ih
            intro t ht
            have := hw (1 + t) (by omega)
            rw [show i1 + (1 + t) = i1 + 1 + t by omega, show i2 + (1 + t) = i2 + 1 + t by omega]
              at this
            exact this
          rw [hbody, hcnt]
          have hrest : ∀ s, compile_range c1 f (i1 + 1 + u + 1) (i1 + len) s =
              compile_range c2 f (i2 + 1 + u + 1) (i2 + len) s := by
            intro s
            have := ih (i1 + 1 + u + 1) (i2 + 1 + u + 1) (len - (u + 2)) s (by
              intro t ht
              have := hw (u + 2 + t) (by omega)
              rw [show i1 + (u + 2 + t) = i1 + 1 + u + 1 + t by omega,
                show i2 + (u + 2 + t) = i2 + 1 + u + 1 + t by omega] at this
              exact this)
            rw [show i1 + 1 + u + 1 + (len - (u + 2)) = i1 + len by omega,
              show i2 + 1 + u + 1 + (len - (u + 2)) = i2 + len by omega] at this
            exact this
          cases repeat_loop (fun s => compile_range c2 f (i2 + 1) (i2 + 1 + u) s)
              (count_of (c2.getD (i2 + 1 + u) 0)) st with
          | none => rfl
          | some q =>
            obtain ⟨rc1, st1⟩ := q
            dsimp only
            rw [hrest]
      · rw [compile_range_step c1 _ _ _ _ hl1 hop,
          compile_range_step c2 _ _ _ _ hl2 (fun h => hop (h0.1.2 h)), ← h0.2.2.2 hop]
        have := ih (i1 + 1) (i2 + 1) (len - 1) (simple_step (c1.getD i1 0) st).2 (by
          intro t ht
          have := hw (1 + t) (by omega)
          rw [show i1 + (1 + t) = i1 + 1 + t by omega, show i2 + (1 + t) = i2 + 1 + t by omega]
            at this
          exact this)
        rw [show i1 + 1 + (len - 1) = i1 + len by omega,
          show i2 + 1 + (len - 1) = i2 + len by omega] at this
        rw [this]

theorem glide_replaced_equiv (v w : VInstr) (h : glide_replaced v w) : step_equiv v w := by
  unfold glide_replaced at h
  by_cases hg : VI_OP v = VI_GLIDE
  · rw [if_pos hg] at h
    obtain ⟨h1, h2, h3, h4⟩ := h
    refine ⟨?_, ?_, ?_, ?_⟩
    · rw [hg, h1]; decide
    · rw [hg, h1]; decide
    · intro h5; rw [hg] at h5; exact absurd h5 (by decide)
    · intro _
      funext st
      have e1 : ¬ VI_NOTE = VI_GLIDE := by decide
      simp only [simple_step, hg, h1, or_true, true_or, if_true, vel_of, dur_of, h2, h3, h4]
  · rw [if_neg hg] at h
    subst h
    exact step_equiv_refl _

theorem VI_PACK_eq (op pitch dur vel : Nat) :
    VI_PACK op pitch dur vel =
      2 ^ 24 * (op % 256) + 2 ^ 16 * (pitch % 256) + 2 ^ 8 * (dur % 256) + vel % 256 := by
  unfold VI_PACK
  have ha : op % 256 < 256 := Nat.mod_lt _ (by decide)
  have hb : pitch % 256 < 256 := Nat.mod_lt _ (by decide)
  have hc : dur % 256 < 256 := Nat.mod_lt _ (by decide)
  have hd : vel % 256 < 256 := Nat.mod_lt _ (by decide)
  generalize op % 256 = a at *
  generalize pitch % 256 = b at *
  generalize dur % 256 = c at *
  generalize vel % 256 = d at *
  simp only [Nat.shiftLeft_eq]
  have e1 : a * 2 ^ 24 ||| b * 2 ^ 16 = 2 ^ 24 * a + b * 2 ^ 16 := by
    rw [Nat.mul_comm a]; exact (Nat.mul_add_lt_is_or (by omega) a).symm
  have e2 : (2 ^ 24 * a + b * 2 ^ 16) ||| c * 2 ^ 8 = 2 ^ 16 * (2 ^ 8 * a + b) + c * 2 ^ 8 := by
    have : 2 ^ 24 * a + b * 2 ^ 16 = 2 ^ 16 * (2 ^ 8 * a + b) := by ring
    rw [this]; exact (Nat.mul_add_lt_is_or (by omega) _).symm
  have e3 : (2 ^ 16 * (2 ^ 8 * a + b) + c * 2 ^ 8) ||| d =
      2 ^ 8 * (2 ^ 8 * (2 ^ 8 * a + b) + c) + d := by
    have : 2 ^ 16 * (2 ^ 8 * a + b) + c * 2 ^ 8 = 2 ^ 8 * (2 ^ 8 * (2 ^ 8 * a + b) + c) := by ring
    rw [this]; exact (Nat.mul_add_lt_is_or (by omega) _).symm
  rw [e1, e2, e3]; ring

theorem VI_PACK_fields (op pitch dur vel : Nat) :
    VI_OP (VI_PACK op pitch dur vel) = op % 256 ∧
    VI_PITCH (VI_PACK op pitch dur vel) = pitch % 256 ∧
    VI_DUR (VI_PACK op pitch dur vel) = dur % 256 ∧
    VI_VEL (VI_PACK op pitch dur vel) = vel % 256 := by
  rw [VI_PACK_eq]
  simp only [VI_OP, VI_PITCH, VI_DUR, VI_VEL, Nat.shiftRight_eq_div_pow]
  refine ⟨?_, ?_, ?_, ?_⟩ <;> omega

/-! ### `voice_compile` -/

/-- The bound used by `voice_compile` is never exhausted: it always returns,
with status 0 or -1. -/
theorem voice_compile_total (vp : VoiceProgram) :
    ∃ r es, voice_compile vp = some (r, es) ∧ (r = 0 ∨ r = -1) := by
  obtain ⟨⟨r, s2⟩, h⟩ := compile_range_total vp.code (vp.n + 1) 0 vp.n ⟨[], 0⟩ (by omega)
  refine ⟨r, ⟨s2.evs, s2.beat⟩, ?_, compile_range_status vp.code _ _ _ _ _ _ h⟩
  rw [voice_compile, h]

theorem voice_compile_eq (vp : VoiceProgram) (r : Int) (es : EventStream)
    (h : voice_compile vp = some (r, es)) :
    compile_range vp.code (vp.n + 1) 0 vp.n ⟨[], 0⟩ = some (r, ⟨es.events, es.total_beats⟩) := by
  unfold voice_compile at h
  cases hc : compile_range vp.code (vp.n + 1) 0 vp.n ⟨[], 0⟩ with
  | none => rw [hc] at h; simp at h
  | some q =>
    obtain ⟨r1, s1⟩ := q
    rw [hc] at h
    have h2 := Prod.mk.inj (Option.some.inj h)
    rw [← h2.1, ← h2.2]

theorem note_of_glide_replaced (v : VInstr) : glide_replaced v (note_of_glide v) := by
  unfold glide_replaced note_of_glide
  by_cases hg : VI_OP v = VI_GLIDE
  · rw [if_pos hg, if_pos hg]
    have hf := VI_PACK_fields VI_NOTE (VI_PITCH v) (VI_DUR v) (VI_VEL v)
    have h1 : VI_PITCH v % 256 = VI_PITCH v := Nat.mod_eq_of_lt (by unfold VI_PITCH; omega)
    have h2 : VI_DUR v % 256 = VI_DUR v := Nat.mod_eq_of_lt (by unfold VI_DUR; omega)
    have h3 : VI_VEL v % 256 = VI_VEL v := Nat.mod_eq_of_lt (by unfold VI_VEL; omega)
    rw [h1, h2, h3] at hf
    exact ⟨hf.1, hf.2.1, hf.2.2.1, hf.2.2.2⟩
  · rw [if_neg hg, if_neg hg]

/-- Claim C8. Replacing every `GLIDE` instruction of a voice program by the
`NOTE` instruction with the same pitch, duration index and velocity index
leaves the result of `voice_compile` (status, events, `total_beats`)
unchanged. -/
theorem voice_compile_glide_as_note (vp : VoiceProgram) :
    voice_compile { code := vp.code.map note_of_glide } = voice_compile vp := by
  have h := compile_range_congr vp.code (vp.code.map note_of_glide) (vp.n + 1) 0 0 vp.n
    ⟨[], 0⟩ (by
      intro t ht
      simp only [Nat.zero_add]
      have ht2 : t < vp.code.length := ht
      rw [List.getD_eq_getElem _ _ ht2, List.getD_eq_getElem _ _ (by simpa using ht2),
        List.getElem_map]
      exact glide_replaced_equiv _ _ (note_of_glide_replaced _))
  simp only [Nat.zero_add] at h
  unfold voice_compile
  simp only [VoiceProgram.n, List.length_map] at h ⊢
  rw [h]

theorem compile_seq_nil (st : CState) : compile_seq [] st = some (0, st) := rfl

/-- On a range, `compile_range` equals `compile_seq` on the instructions of
the range. -/
theorem compile_range_seq (code L : List VInstr) (f i : Nat) (st : CState)
    (hf : L.length < f) (hw : ∀ t, t < L.length → code.getD (i + t) 0 = L.getD t 0) :
    compile_range code f i (i + L.length) st = compile_seq L st := by
  rw [compile_range_fuel code f (L.length + 1) i (i + L.length) st (by omega) (by omega)]
  have := compile_range_congr code L (L.length + 1) i 0 L.length st (by
    intro t ht
    rw [hw t ht, Nat.zero_add]
    exact step_equiv_refl _)
  rw [this, Nat.zero_add]
  rfl

theorem compile_seq_cons_step (v : VInstr) (L : List VInstr) (st : CState)
    (hop : VI_OP v ≠ VI_REPEAT_BEGIN) :
    compile_seq (v :: L) st =
      if (simple_step v st).1 < 0 then some (-1, (simple_step v st).2)
      else compile_seq L (simple_step v st).2 := by
  unfold compile_seq
  rw [List.length_cons, compile_range_step (v :: L) _ 0 _ st (by omega) (by simpa using hop)]
  have hg : (v :: L).getD 0 0 = v := by simp
  rw [hg]
  split_ifs
  · rfl
  · have := compile_range_seq (v :: L) L (L.length + 1) 1 (simple_step v st).2 (by omega) (by
      intro t _
      rw [Nat.add_comm]; simp)
    rw [Nat.add_comm 1 L.length] at this
    exact this

theorem voice_compile_seq (vp : VoiceProgram) :
    voice_compile vp =
      match compile_seq vp.code ⟨[], 0⟩ with
      | none => none
      | some (r, st) => some (r, { events := st.evs, total_beats := st.beat }) := rfl

theorem dur_of_pos (v : VInstr) : 0 < dur_of v := by
  unfold dur_of
  split_ifs with h
  · have : VI_DUR v = 0 ∨ VI_DUR v = 1 ∨ VI_DUR v = 2 ∨ VI_DUR v = 3 ∨ VI_DUR v = 4 ∨
        VI_DUR v = 5 ∨ VI_DUR v = 6 := by omega
    rcases this with h | h | h | h | h | h | h <;> rw [h] <;> norm_num [g_dur, g_dur_table]
  · norm_num [g_dur, g_dur_table]

/-- The loop of the `TIE` case skips the events after the last `NOTE_OFF`. -/
theorem tie_extend_skip (A C : List Event) (d : ℚ)
    (hC : ∀ c ∈ C, c.type ≠ EvType.EV_NOTE_OFF) :
    ∀ j, j ≤ C.length → tie_extend (A ++ C) d (A.length + j) = tie_extend (A ++ C) d A.length := by
  intro j
  induction j with
  | zero => intro _; rfl
  | succ j ih =>
    intro hj
    rw [← Nat.add_assoc, tie_extend]
    have hget : (A ++ C).get? (A.length + j) = some (C.get ⟨j, by omega⟩) := by
      rw [List.get?_eq_getElem?, List.getElem?_append_right (by omega)]
      simp
    rw [hget]
    dsimp only
    rw [if_neg (hC _ (List.get_mem _ _ _))]
    exact ih (by omega)

/-- The `TIE` loop shifts the `NOTE_OFF` of highest index and nothing else. -/
theorem tie_extend_last_off (A C : List Event) (e : Event) (d : ℚ)
    (he : e.type = EvType.EV_NOTE_OFF) (hC : ∀ c ∈ C, c.type ≠ EvType.EV_NOTE_OFF) :
    tie_extend (A ++ e :: C) d (A ++ e :: C).length =
      A ++ { e with beat := e.beat + d } :: C := by
  have h1 := tie_extend_skip (A ++ [e]) C d hC C.length (le_refl _)
  have e1 : A ++ [e] ++ C = A ++ e :: C := by simp
  have e2 : (A ++ [e]).length + C.length = (A ++ e :: C).length := by simp; omega
  have e3 : (A ++ [e]).length = A.length + 1 := by simp
  rw [e1, e2, e3] at h1
  rw [h1, tie_extend]
  have hget : (A ++ e :: C).get? A.length = some e := by
    rw [List.get?_eq_getElem?, List.getElem?_append_right (le_refl _)]
    simp
  rw [hget]
  dsimp only
  rw [if_pos he]
  simp

/-- Without a `NOTE_OFF` in the stream the `TIE` loop changes nothing. -/
theorem tie_extend_no_off (evs : List Event) (d : ℚ)
    (h : ∀ c ∈ evs, c.type ≠ EvType.EV_NOTE_OFF) :
    tie_extend evs d evs.length = evs := by
  have h1 := tie_extend_skip [] evs d h evs.length (le_refl _)
  simpa [tie_extend] using h1

theorem beats_sorted_append_one (evs : List Event) (e : Event) (h : beats_sorted evs)
    (hb : ∀ a ∈ evs, a.beat ≤ e.beat) : beats_sorted (evs ++ [e]) := by
  unfold beats_sorted at *
  rw [List.pairwise_append]
  refine ⟨h, List.pairwise_singleton _ _, ?_⟩
  intro a ha b hb2
  rw [List.mem_singleton] at hb2
  subst hb2
  exact hb a ha

theorem compile_inv_step_ok (vi : VInstr) (st : CState) (hP : compile_inv st)
    (h : (simple_step vi st).1 = 0) : compile_inv (simple_step vi st).2 := by
  obtain ⟨h1, h2, h3⟩ := hP
  have hd := dur_of_pos vi
  unfold simple_step at h ⊢
  by_cases h0 : VI_OP vi = VI_NOTE ∨ VI_OP vi = VI_GLIDE
  · rw [if_pos h0] at h ⊢
    rcases note_pair_cases st (VI_PITCH vi) (vel_of vi) (dur_of vi) with hc | hc | hc
    · rw [hc.2] at h; simp at h
    · rw [hc.2] at h; simp at h
    · rw [hc.2]
      dsimp only
      refine ⟨?_, ?_, ?_⟩
      · have e1 : st.evs ++ [⟨st.beat, EvType.EV_NOTE_ON, VI_PITCH vi, vel_of vi⟩,
            ⟨st.beat + dur_of vi, EvType.EV_NOTE_OFF, VI_PITCH vi, vel_of vi⟩] =
            (st.evs ++ [⟨st.beat, EvType.EV_NOTE_ON, VI_PITCH vi, vel_of vi⟩]) ++
            [⟨st.beat + dur_of vi, EvType.EV_NOTE_OFF, VI_PITCH vi, vel_of vi⟩] := by simp
        rw [e1]
        apply beats_sorted_append_one
        · exact beats_sorted_append_one _ _ h1 (fun a ha => h2 a ha)
        · intro a ha
          rw [List.mem_append, List.mem_singleton] at ha
          rcases ha with ha | ha
          · have := h2 a ha; dsimp only; linarith
          · subst ha; dsimp only; linarith
      · intro a ha
        simp only [List.mem_append, List.mem_cons, List.mem_singleton, List.not_mem_nil,
          or_false] at ha
        rcases ha with ha | ha | ha
        · have := h2 a ha; dsimp only; linarith
        · subst ha; dsimp only; linarith
        · subst ha; dsimp only; linarith
      · intro a ha
        simp at ha
        rw [← ha]
  · rw [if_neg h0] at h ⊢
    by_cases hr : VI_OP vi = VI_REST
    · rw [if_pos hr]
      exact ⟨h1, fun a ha => by have := h2 a ha; dsimp only; linarith, h3⟩
    · rw [if_neg hr]
      by_cases ht : VI_OP vi = VI_TIE
      · rw [if_pos ht]
        dsimp only
        rcases List.eq_nil_or_concat st.evs with hnil | ⟨A, e, hcat⟩
        · rw [hnil]
          refine ⟨by simp [tie_extend, beats_sorted], by simp [tie_extend], by simp [tie_extend]⟩
        · have he : e.type = EvType.EV_NOTE_OFF := h3 e (by rw [hcat]; simp)
          have hte := tie_extend_last_off A [] e (dur_of vi) he (by simp)
          rw [← List.concat_eq_append] at hte
          rw [hcat, hte]
          rw [hcat, List.concat_eq_append] at h1 h2
          unfold beats_sorted at h1
          rw [List.pairwise_append] at h1
          refine ⟨?_, ?_, ?_⟩
          · apply beats_sorted_append_one _ _ h1.1
            intro a ha
            have := h1.2.2 a ha e (List.mem_singleton_self e)
            dsimp only; linarith
          · intro a ha
            rw [List.mem_append, List.mem_singleton] at ha
            rcases ha with ha | ha
            · have := h2 a (List.mem_append_left _ ha); dsimp only; linarith
            · subst ha
              have := h2 e (List.mem_append_right _ (List.mem_singleton_self e))
              dsimp only; linarith
          · intro a ha
            simp at ha
            rw [← ha]; exact he
      · rw [if_neg ht]
        exact ⟨h1, h2, h3⟩

theorem compile_inv_step_fail (vi : VInstr) (st : CState) (hP : compile_inv st)
    (h : (simple_step vi st).1 < 0) : beats_sorted (simple_step vi st).2.evs := by
  obtain ⟨h1, h2, _⟩ := hP
  unfold simple_step at h ⊢
  by_cases h0 : VI_OP vi = VI_NOTE ∨ VI_OP vi = VI_GLIDE
  · rw [if_pos h0] at h ⊢
    rcases note_pair_cases st (VI_PITCH vi) (vel_of vi) (dur_of vi) with hc | hc | hc
    · rw [hc.2]; exact h1
    · rw [hc.2]
      exact beats_sorted_append_one _ _ h1 (fun a ha => h2 a ha)
    · rw [hc.2] at h; simp at h
  · rw [if_neg h0] at h
    split_ifs at h <;> simp at h

/-- Claim C3. Whether `voice_compile` succeeds or fails, the events it leaves
are sorted by non-decreasing beat, also after `TIE` instructions have shifted
`NOTE_OFF` events. -/
theorem voice_compile_sorted (vp : VoiceProgram) :
    ∃ r es, voice_compile vp = some (r, es) ∧
      List.Sorted (· ≤ ·) (es.events.map Event.beat) := by
  obtain ⟨r, es, h, _⟩ := voice_compile_total vp
  refine ⟨r, es, h, ?_⟩
  have hc := voice_compile_eq vp r es h
  have h1 := (compile_range_inv compile_inv (fun s => beats_sorted s.evs) (fun s hs => hs.1)
    compile_inv_step_ok compile_inv_step_fail vp.code _ _ _ _ _ _
    (by simp [compile_inv, beats_sorted]) hc).1
  dsimp only at h1
  unfold beats_sorted at h1
  unfold List.Sorted
  rw [List.pairwise_map]
  exact h1

/-- Claim C4. The loop iteration on a `TIE` of duration `d` continues with the
cursor advanced by `d` and a stream of the same length in which the
`NOTE_OFF` of highest index has its beat increased by `d` and every other
event is unchanged; without a `NOTE_OFF` the stream is unchanged.  A `NOTE` of
duration `d1` at cursor `t` directly followed by `TIE d2` appends exactly
`NOTE_ON` at `t` and `NOTE_OFF` at `t + d1 + d2`. -/
theorem compile_tie (code : List VInstr) (f i hi : Nat) (st : CState) :
    (i < hi → VI_OP (code.getD i 0) = VI_TIE →
      ∃ evs2, compile_range code (f + 1) i hi st =
          compile_range code f (i + 1) hi
            { evs := evs2, beat := st.beat + dur_of (code.getD i 0) } ∧
        evs2.length = st.evs.length ∧
        (∀ (A C : List Event) (e : Event), st.evs = A ++ e :: C →
          e.type = EvType.EV_NOTE_OFF → (∀ c ∈ C, c.type ≠ EvType.EV_NOTE_OFF) →
          evs2 = A ++ { e with beat := e.beat + dur_of (code.getD i 0) } :: C) ∧
        ((∀ c ∈ st.evs, c.type ≠ EvType.EV_NOTE_OFF) → evs2 = st.evs)) ∧
    (i + 1 < hi → VI_OP (code.getD i 0) = VI_NOTE → VI_OP (code.getD (i + 1) 0) = VI_TIE →
      st.evs.length + 2 ≤ VOICE_MAX_EVENTS →
      compile_range code (f + 2) i hi st =
        compile_range code f (i + 2) hi
          { evs := st.evs ++
              [⟨st.beat, EvType.EV_NOTE_ON, VI_PITCH (code.getD i 0), vel_of (code.getD i 0)⟩,
               ⟨st.beat + dur_of (code.getD i 0) + dur_of (code.getD (i + 1) 0),
                EvType.EV_NOTE_OFF, VI_PITCH (code.getD i 0), vel_of (code.getD i 0)⟩],
            beat := st.beat + dur_of (code.getD i 0) + dur_of (code.getD (i + 1) 0) }) := by
  have htie : ∀ (j : Nat) (s : CState), j < hi → VI_OP (code.getD j 0) = VI_TIE →
      ∀ g, compile_range code (g + 1) j hi s = compile_range code g (j + 1) hi
        { evs := tie_extend s.evs (dur_of (code.getD j 0)) s.evs.length,
          beat := s.beat + dur_of (code.getD j 0) } := by
    intro j s hj hop g
    have hne : VI_OP (code.getD j 0) ≠ VI_REPEAT_BEGIN := by rw [hop]; decide
    have h0 : ¬ (VI_OP (code.getD j 0) = VI_NOTE ∨ VI_OP (code.getD j 0) = VI_GLIDE) := by
      rw [hop]; decide
    have h1 : ¬ VI_OP (code.getD j 0) = VI_REST := by rw [hop]; decide
    rw [compile_range_step code _ _ _ _ hj hne]
    simp only [simple_step, if_neg h0, if_neg h1, if_pos hop]
    rw [if_neg (by decide)]
  constructor
  · intro hlt hop
    refine ⟨tie_extend st.evs (dur_of (code.getD i 0)) st.evs.length, htie i st hlt hop f,
      tie_extend_length _ _ _, ?_, tie_extend_no_off _ _⟩
    intro A C e hcat he hC
    rw [hcat]
    exact tie_extend_last_off A C e _ he hC
  · intro hlt hn ht hroom
    have hne : VI_OP (code.getD i 0) ≠ VI_REPEAT_BEGIN := by rw [hn]; decide
    rw [compile_range_step code _ _ _ _ (by omega) hne]
    have hs : simple_step (code.getD i 0) st =
        (0, { evs := st.evs ++
          [⟨st.beat, EvType.EV_NOTE_ON, VI_PITCH (code.getD i 0), vel_of (code.getD i 0)⟩,
           ⟨st.beat + dur_of (code.getD i 0), EvType.EV_NOTE_OFF, VI_PITCH (code.getD i 0),
            vel_of (code.getD i 0)⟩], beat := st.beat + dur_of (code.getD i 0) }) := by
      simp only [simple_step, hn, true_or, if_true]
      rcases note_pair_cases st (VI_PITCH (code.getD i 0)) (vel_of (code.getD i 0))
        (dur_of (code.getD i 0)) with hc | hc | hc
      · omega
      · omega
      · exact hc.2
    rw [hs]
    dsimp only
    rw [if_neg (by decide), htie (i + 1) _ hlt ht f]
    dsimp only
    have := tie_extend_last_off
      (st.evs ++ [⟨st.beat, EvType.EV_NOTE_ON, VI_PITCH (code.getD i 0), vel_of (code.getD i 0)⟩])
      [] ⟨st.beat + dur_of (code.getD i 0), EvType.EV_NOTE_OFF, VI_PITCH (code.getD i 0),
        vel_of (code.getD i 0)⟩ (dur_of (code.getD (i + 1) 0)) rfl (by simp)
    simp only [List.append_assoc, List.singleton_append] at this
    rw [this]

/-! ### Programs of notes and rests -/

/-- The events of a note-and-rest program whose first instruction starts at
beat `t`, instruction by instruction. -/
theorem note_rest_events_shift (t : ℚ) :
    ∀ (L : List VInstr),
      (List.range L.length).flatMap
          (fun j => note_events_at (t + onset L j) (L.getD j 0)) =
        match L with
        | [] => []
        | v :: L2 => note_events_at t v ++
            (List.range L2.length).flatMap
              (fun j => note_events_at (t + dur_of v + onset L2 j) (L2.getD j 0)) := by
  intro L
  cases L with
  | nil => rfl
  | cons v L2 =>
    dsimp only
    rw [List.length_cons, List.range_succ_eq_map, List.flatMap_cons, List.flatMap_map]
    congr 1
    · simp [onset]
    · apply List.flatMap_congr
      intro j _
      simp [onset, add_assoc]

theorem compile_seq_note_rest :
    ∀ (L : List VInstr) (st : CState),
      (∀ v ∈ L, VI_OP v = VI_NOTE ∨ VI_OP v = VI_REST) →
      st.evs.length + 2 * L.countP (fun v => VI_OP v = VI_NOTE) ≤ VOICE_MAX_EVENTS →
      compile_seq L st = some (0,
        { evs := st.evs ++ (List.range L.length).flatMap
            (fun j => note_events_at (st.beat + onset L j) (L.getD j 0)),
          beat := st.beat + (L.map dur_of).sum }) := by
  intro L
  induction L with
  | nil => intro st _ _; simp [compile_seq_nil]
  | cons v L ih =>
    intro st hops hroom
    have hv := hops v (List.mem_cons_self _ _)
    have hne : VI_OP v ≠ VI_REPEAT_BEGIN := by
      rcases hv with h | h <;> rw [h] <;> decide
    rw [compile_seq_cons_step v L st hne, note_rest_events_shift]
    dsimp only
    by_cases hn : VI_OP v = VI_NOTE
    · have hcount : (v :: L).countP (fun v => VI_OP v = VI_NOTE) =
          L.countP (fun v => VI_OP v = VI_NOTE) + 1 := by
        rw [List.countP_cons_of_pos]; simpa using hn
      rw [hcount] at hroom
      have hs : simple_step v st =
          (0, { evs := st.evs ++
                  [⟨st.beat, EvType.EV_NOTE_ON, VI_PITCH v, vel_of v⟩,
                   ⟨st.beat + dur_of v, EvType.EV_NOTE_OFF, VI_PITCH v, vel_of v⟩],
                beat := st.beat + dur_of v }) := by
        simp only [simple_step, hn, true_or, if_true]
        rcases note_pair_cases st (VI_PITCH v) (vel_of v) (dur_of v) with hc | hc | hc
        · omega
        · omega
        · exact hc.2
      rw [hs]
      dsimp only
      rw [if_neg (by decide), ih _ (fun w hw => hops w (List.mem_cons_of_mem _ hw))
        (by simp only [List.length_append, List.length_cons, List.length_nil]; omega)]
      simp [note_events_at, hn, add_assoc]
    · have hr : VI_OP v = VI_REST := by tauto
      have hcount : (v :: L).countP (fun v => VI_OP v = VI_NOTE) =
          L.countP (fun v => VI_OP v = VI_NOTE) := by
        rw [List.countP_cons_of_neg]; simpa using hn
      rw [hcount] at hroom
      have h0 : ¬ (VI_OP v = VI_NOTE ∨ VI_OP v = VI_GLIDE) := by rw [hr]; decide
      have hs : simple_step v st = (0, { st with beat := st.beat + dur_of v }) := by
        simp only [simple_step, if_neg h0, if_pos hr]
      rw [hs]
      dsimp only
      rw [ih { st with beat := st.beat + dur_of v }
        (fun w hw => hops w (List.mem_cons_of_mem _ hw)) hroom]
      simp [note_events_at, hn, add_assoc]

theorem note_rest_events_length :
    ∀ (L : List VInstr) (t : ℚ),
      ((List.range L.length).flatMap
        (fun j => note_events_at (t + onset L j) (L.getD j 0))).length =
        2 * L.countP (fun v => VI_OP v = VI_NOTE) := by
  intro L
  induction L with
  | nil => intro t; rfl
  | cons v L ih =>
    intro t
    rw [note_rest_events_shift]
    dsimp only
    rw [List.length_append, ih]
    by_cases hn : VI_OP v = VI_NOTE
    · rw [List.countP_cons_of_pos _ _ (by simpa using hn)]
      simp [note_events_at, hn]; omega
    · rw [List.countP_cons_of_neg _ _ (by simpa using hn)]
      simp [note_events_at, hn]

/-- Claim C6. A voice program made only of `NOTE` and `REST` instructions with
at most 4096 notes compiles with status 0 to exactly two events per `NOTE`, in
program order: `NOTE_ON` at the sum of the durations of all earlier
instructions and `NOTE_OFF` at that beat plus the note's duration, both with
the note's pitch and velocity; `REST` emits nothing.  The duration is
`g_dur[d]`, or 1/4 for `d ≥ 7`; the velocity is `VEL_TABLE[v]`, or 0.75 for
`v ≥ 8`. -/
theorem voice_compile_note_rest (vp : VoiceProgram)
    (hops : ∀ v ∈ vp.code, VI_OP v = VI_NOTE ∨ VI_OP v = VI_REST)
    (hn : vp.code.countP (fun v => VI_OP v = VI_NOTE) ≤ 4096) :
    voice_compile vp = some (0,
      { events := note_rest_events vp.code, total_beats := (vp.code.map dur_of).sum }) ∧
    (note_rest_events vp.code).length = 2 * vp.code.countP (fun v => VI_OP v = VI_NOTE) ∧
    (∀ v : VInstr, (VI_DUR v < 7 → dur_of v = g_dur (VI_DUR v)) ∧ (7 ≤ VI_DUR v → dur_of v = 1 / 4) ∧
      (VI_VEL v < 8 → vel_of v = VEL_TABLE (VI_VEL v)) ∧ (8 ≤ VI_VEL v → vel_of v = 0.75)) := by
  have h := compile_seq_note_rest vp.code ⟨[], 0⟩ hops (by
    simp only [List.length_nil, VOICE_MAX_EVENTS]; omega)
  have hev : (List.range vp.code.length).flatMap
      (fun j => note_events_at ((0 : ℚ) + onset vp.code j) (vp.code.getD j 0)) =
      note_rest_events vp.code := by
    unfold note_rest_events
    simp
  refine ⟨?_, ?_, ?_⟩
  · rw [voice_compile_seq, h]
    simp only [List.nil_append, zero_add] at hev ⊢
    rw [hev]
  · rw [← hev]
    exact note_rest_events_length vp.code 0
  · intro v
    refine ⟨fun h => by simp [dur_of, h], fun h => ?_, fun h => by simp [vel_of, h],
      fun h => by simp [vel_of, Nat.not_lt.mpr h]⟩
    simp only [dur_of, if_neg (Nat.not_lt.mpr h)]
    norm_num [g_dur, g_dur_table]

/-! ### The renderer -/

/-- Claim C10. Once the `done` flag is set, a call of `voice_render_block` with
any number of samples writes that many zeros, returns 1 and leaves the
renderer unchanged. -/
theorem render_block_done (lm : Libm) (vr : VoiceRenderer) (n_samples : Nat)
    (h : vr.done = true) :
    voice_render_block lm vr n_samples = (1, List.replicate n_samples 0, vr) := by
  unfold voice_render_block
  rw [if_pos h]

theorem render_block_done_witness :
    ({ sustaining_renderer with done := true } : VoiceRenderer).done = true ∧
    voice_render_block libm_sample { sustaining_renderer with done := true } 3 =
      (1, [0, 0, 0], { sustaining_renderer with done := true }) :=
  ⟨rfl, render_block_done libm_sample { sustaining_renderer with done := true } 3 rfl⟩

/-- The scan of the `NOTE_OFF` branch changes nothing in a program without an
instruction of opcode byte `0x1C`. -/
theorem release_scan_none (code : List Instr) (h : ∀ ins ∈ code, (ins >>> 56) &&& 0xFF ≠ 0x1C) :
    ∀ (k : Nat) (s : Nat → ℚ), release_scan code k s = s := by
  induction code with
  | nil => intro k s; rfl
  | cons ins rest ih =>
    intro k s
    rw [release_scan, if_neg (h ins (List.mem_cons_self _ _))]
    exact ih (fun i hi => h i (List.mem_cons_of_mem _ hi)) _ _

/-- Claim C1, as the code behaves. The scan of the `NOTE_OFF` branch compares the opcode byte
with `0x1C = 28`, which is `OP_RAMP`; `OP_ADSR` is 27.  On the sine-with-envelope
patch, whose instruction 0 is the `ADSR`, a drained `NOTE_OFF` with an active
voice leaves the envelope's stage slot at 2 and its timer at 1/2 and changes no
state slot at all, while on a program whose instruction 0 is a `RAMP` it writes
3 into slot 0 and 0 into slot 2. -/
theorem note_off_misses_adsr :
    OP_ADSR = 27 ∧ OP_RAMP = 0x1C ∧
    INSTR_OP (p_sine_adsr.code.getD 0 0) = OP_ADSR ∧
    sustaining_renderer.has_active = true ∧
    (∀ lm : Libm,
      (apply_event lm sustaining_renderer ⟨1, EvType.EV_NOTE_OFF, 60, 1⟩).active.st.state
        = sustaining_renderer.active.st.state) ∧
    sustaining_renderer.active.st.state 0 = 2 ∧
    sustaining_renderer.active.st.state 2 = 1 / 2 ∧
    release_scan [INSTR_PACK OP_RAMP 4 0 0 5 0] 0 (fun _ => 7) 0 = 3 ∧
    release_scan [INSTR_PACK OP_RAMP 4 0 0 5 0] 0 (fun _ => 7) 2 = 0 := by
  refine ⟨rfl, rfl, by decide, rfl, ?_, by decide!, by decide!, by decide!, by decide!⟩
  intro lm
  have h : ∀ ins ∈ p_sine_adsr.code, (ins >>> 56) &&& 0xFF ≠ 0x1C := by decide
  simp only [apply_event, sustaining_renderer, voice_renderer_init]
  rw [if_pos trivial]
  exact release_scan_none _ h 0 _

/-! ### Sorted event streams -/

theorem set_cursor_es (vr : VoiceRenderer) (k : Nat) : (set_cursor vr k).es = vr.es := rfl

theorem set_cursor_cursor (vr : VoiceRenderer) (k : Nat) : (set_cursor vr k).ev_cursor = k := rfl

theorem set_cursor_twice (vr : VoiceRenderer) (a b : Nat) :
    set_cursor (set_cursor vr a) b = set_cursor vr b := rfl

theorem set_cursor_self (vr : VoiceRenderer) : set_cursor vr vr.ev_cursor = vr := rfl

theorem apply_event_cursor (lm : Libm) (vr : VoiceRenderer) (ev : Event) (k : Nat) :
    apply_event lm (set_cursor vr k) ev = set_cursor (apply_event lm vr ev) k := by
  unfold apply_event set_cursor
  split_ifs <;> rfl

theorem foldl_apply_cursor (lm : Libm) (k : Nat) :
    ∀ (L : List Event) (vr : VoiceRenderer),
      List.foldl (apply_event lm) (set_cursor vr k) L =
        set_cursor (List.foldl (apply_event lm) vr L) k := by
  intro L
  induction L with
  | nil => intro vr; rfl
  | cons e L ih =>
    intro vr
    rw [List.foldl_cons, List.foldl_cons, apply_event_cursor, ih]

theorem apply_event_es (lm : Libm) (vr : VoiceRenderer) (ev : Event) :
    (apply_event lm vr ev).es = vr.es ∧ (apply_event lm vr ev).ev_cursor = vr.ev_cursor := by
  unfold apply_event
  split_ifs <;> exact ⟨rfl, rfl⟩

theorem drain_events_succ (lm : Libm) (c : ℚ) (m : Nat) (vr : VoiceRenderer) :
    drain_events lm c (m + 1) vr =
      match vr.es.events.get? vr.ev_cursor with
      | none => vr
      | some ev =>
        if ev.beat > c then vr
        else drain_events lm c m
          (set_cursor (apply_event lm vr ev) ((apply_event lm vr ev).ev_cursor + 1)) := rfl

/-- The drain loop of one sample applies, in stream order, the maximal run of
events at the cursor whose beat is at most the current beat, and moves the
cursor behind them. -/
theorem drain_events_eq (lm : Libm) (c : ℚ) :
    ∀ (m : Nat) (vr : VoiceRenderer), vr.es.events.length - vr.ev_cursor ≤ m →
      drain_events lm c m vr =
        set_cursor (List.foldl (apply_event lm) vr
            ((vr.es.events.drop vr.ev_cursor).takeWhile (fun e => e.beat ≤ c)))
          (vr.ev_cursor +
            ((vr.es.events.drop vr.ev_cursor).takeWhile (fun e => e.beat ≤ c)).length) := by
  intro m
  induction m with
  | zero =>
    intro vr hm
    have : vr.es.events.drop vr.ev_cursor = [] := List.drop_eq_nil_of_le (by omega)
    rw [this]
    rfl
  | succ m ih =>
    intro vr hm
    rw [drain_events_succ]
    by_cases hlt : vr.ev_cursor < vr.es.events.length
    · have hget : vr.es.events.get? vr.ev_cursor = some (vr.es.events.get ⟨vr.ev_cursor, hlt⟩) := by
        rw [List.get?_eq_get hlt]
      have hdrop : vr.es.events.drop vr.ev_cursor =
          vr.es.events.get ⟨vr.ev_cursor, hlt⟩ :: vr.es.events.drop (vr.ev_cursor + 1) := by
        rw [List.get_eq_getElem, List.drop_eq_getElem_cons hlt]
      rw [hget, hdrop]
      generalize vr.es.events.get ⟨vr.ev_cursor, hlt⟩ = ev
      show (if ev.beat > c then vr else _) = _
      by_cases hb : ev.beat > c
      · rw [if_pos hb, List.takeWhile_cons_of_neg (by simpa using hb)]
        rfl
      · rw [if_neg hb, List.takeWhile_cons_of_pos (by simpa using hb)]
        have hes := apply_event_es lm vr ev
        have h1 := hes.1
        have h2 := hes.2
        rw [ih _ (by rw [set_cursor_es, set_cursor_cursor, h1, h2]; omega)]
        rw [set_cursor_es, set_cursor_cursor, h1, h2, foldl_apply_cursor, set_cursor_twice,
          List.foldl_cons, List.length_cons]
        congr 1
        omega
    · have hget : vr.es.events.get? vr.ev_cursor = none := by
        rw [List.get?_eq_none]; omega
      have : vr.es.events.drop vr.ev_cursor = [] := List.drop_eq_nil_of_le (by omega)
      rw [hget, this]
      rfl

theorem foldl_apply_frame (lm : Libm) :
    ∀ (L : List Event) (vr : VoiceRenderer),
      (List.foldl (apply_event lm) vr L).es = vr.es ∧
      (List.foldl (apply_event lm) vr L).bpm = vr.bpm ∧
      (List.foldl (apply_event lm) vr L).sr = vr.sr ∧
      (List.foldl (apply_event lm) vr L).sample_time = vr.sample_time ∧
      (List.foldl (apply_event lm) vr L).done = vr.done := by
  intro L
  induction L with
  | nil => intro vr; exact ⟨rfl, rfl, rfl, rfl, rfl⟩
  | cons e L ih =>
    intro vr
    rw [List.foldl_cons]
    have h := ih (apply_event lm vr e)
    have h2 : (apply_event lm vr e).es = vr.es ∧ (apply_event lm vr e).bpm = vr.bpm ∧
        (apply_event lm vr e).sr = vr.sr ∧ (apply_event lm vr e).sample_time = vr.sample_time ∧
        (apply_event lm vr e).done = vr.done := by
      unfold apply_event
      split_ifs <;> exact ⟨rfl, rfl, rfl, rfl, rfl⟩
    rw [h.1, h.2.1, h.2.2.1, h.2.2.2.1, h.2.2.2.2]
    exact h2

/-- What one iteration of the sample loop does to the scheduling fields. -/
theorem render_sample_frame (lm : Libm) (spb dt : ℚ) (vr : VoiceRenderer) :
    (render_sample lm spb dt vr).2.es = vr.es ∧
    (render_sample lm spb dt vr).2.bpm = vr.bpm ∧
    (render_sample lm spb dt vr).2.sr = vr.sr ∧
    (render_sample lm spb dt vr).2.done = vr.done ∧
    (render_sample lm spb dt vr).2.sample_time = vr.sample_time + dt ∧
    (render_sample lm spb dt vr).2.beat_time = (vr.sample_time + dt) / spb ∧
    (render_sample lm spb dt vr).2.ev_cursor = vr.ev_cursor +
      ((vr.es.events.drop vr.ev_cursor).takeWhile (fun e => e.beat ≤ vr.beat_time)).length := by
  have hd := drain_events_eq lm vr.beat_time (vr.es.n - vr.ev_cursor) vr (le_refl _)
  have hf := foldl_apply_frame lm
    ((vr.es.events.drop vr.ev_cursor).takeWhile (fun e => e.beat ≤ vr.beat_time)) vr
  unfold render_sample
  dsimp only
  rw [hd]
  split_ifs <;>
    exact ⟨hf.1, hf.2.1, hf.2.2.1, hf.2.2.2.2, by rw [← hf.2.2.2.1]; rfl,
      by rw [← hf.2.2.2.1]; rfl, rfl⟩

theorem compile_tie_witness :
    (0 + 1 < 6 ∧ VI_OP (tie_prog.code.getD 0 0) = VI_NOTE ∧
      VI_OP (tie_prog.code.getD (0 + 1) 0) = VI_TIE ∧
      ({ evs := [], beat := 0 } : CState).evs.length + 2 ≤ VOICE_MAX_EVENTS) ∧
    compile_range tie_prog.code (5 + 2) 0 6 { evs := [], beat := 0 } =
      compile_range tie_prog.code 5 (0 + 2) 6
        { evs := ({ evs := [], beat := 0 } : CState).evs ++
            [⟨({ evs := [], beat := 0 } : CState).beat, EvType.EV_NOTE_ON,
                VI_PITCH (tie_prog.code.getD 0 0), vel_of (tie_prog.code.getD 0 0)⟩,
             ⟨({ evs := [], beat := 0 } : CState).beat + dur_of (tie_prog.code.getD 0 0) +
                dur_of (tie_prog.code.getD (0 + 1) 0),
                EvType.EV_NOTE_OFF, VI_PITCH (tie_prog.code.getD 0 0),
                vel_of (tie_prog.code.getD 0 0)⟩],
          beat := ({ evs := [], beat := 0 } : CState).beat + dur_of (tie_prog.code.getD 0 0) +
            dur_of (tie_prog.code.getD (0 + 1) 0) } :=
  ⟨⟨by decide, by decide, by decide, by decide⟩,
    (compile_tie tie_prog.code 5 0 6 { evs := [], beat := 0 }).2
      (by decide) (by decide) (by decide) (by decide)⟩

theorem voice_compile_note_rest_witness :
    (∀ v ∈ structure_prog.code, VI_OP v = VI_NOTE ∨ VI_OP v = VI_REST) ∧
    structure_prog.code.countP (fun v => VI_OP v = VI_NOTE) ≤ 4096 ∧
    voice_compile structure_prog = some (0,
      { events := note_rest_events structure_prog.code,
        total_beats := (structure_prog.code.map dur_of).sum }) ∧
    note_rest_events structure_prog.code =
      [⟨0, EvType.EV_NOTE_ON, 60, 0.75⟩, ⟨0.25, EvType.EV_NOTE_OFF, 60, 0.75⟩,
       ⟨0.375, EvType.EV_NOTE_ON, 64, 0.875⟩, ⟨0.625, EvType.EV_NOTE_OFF, 64, 0.875⟩] :=
  ⟨by decide, by decide,
    (voice_compile_note_rest structure_prog (by decide) (by decide)).1, by decide!⟩

theorem render_loop_frame (lm : Libm) (spb dt : ℚ) :
    ∀ (n : Nat) (vr : VoiceRenderer),
      (render_loop lm spb dt n vr).2.es = vr.es ∧
      (render_loop lm spb dt n vr).2.done = vr.done ∧
      (render_loop lm spb dt n vr).1.length = n := by
  intro n
  induction n with
  | zero => intro vr; exact ⟨rfl, rfl, rfl⟩
  | succ n ih =>
    intro vr
    obtain ⟨f1, _, _, f4, _⟩ := render_sample_frame lm spb dt vr
    obtain ⟨g1, g2, g3⟩ := ih (render_sample lm spb dt vr).2
    simp only [render_loop]
    exact ⟨g1.trans f1, g2.trans f4, by simp [g3]⟩
theorem ite_prop {α : Type} (P : α → Prop) (c : Prop) [Decidable c] (a b : α)
    (ha : P a) (hb : P b) : P (if c then a else b) := by
  split_ifs <;> assumption

/-- No instruction changes the note parameters, the sample period or the sample rate. -/
theorem exec_instr_note (lm : Libm) (i : Nat) (ins : Instr) (ps : PatchState) :
    (exec_instr lm i ins ps).note_time = ps.note_time ∧
    (exec_instr lm i ins ps).note_vel = ps.note_vel ∧
    (exec_instr lm i ins ps).note_freq = ps.note_freq ∧
    (exec_instr lm i ins ps).dt = ps.dt ∧
    (exec_instr lm i ins ps).sr = ps.sr := by
  unfold exec_instr
  dsimp only
  repeat' apply ite_prop (fun q : PatchState => q.note_time = ps.note_time ∧
    q.note_vel = ps.note_vel ∧ q.note_freq = ps.note_freq ∧ q.dt = ps.dt ∧ q.sr = ps.sr)
  all_goals exact ⟨rfl, rfl, rfl, rfl, rfl⟩

/-- An instruction writes no register other than its destination. -/
theorem exec_instr_regs_frame (lm : Libm) (i : Nat) (ins : Instr) (ps : PatchState) (r : Nat)
    (h : r ≠ INSTR_DST ins) : (exec_instr lm i ins ps).regs r = ps.regs r := by
  unfold exec_instr
  dsimp only
  repeat' apply ite_prop (fun q : PatchState => q.regs r = ps.regs r)
  all_goals first | rfl | exact Function.update_noteq h _ _

/-- An opcode that is not one of the 33 computing opcodes leaves the state as it is. -/
theorem exec_instr_other (lm : Libm) (i : Nat) (ins : Instr) (ps : PatchState)
    (h : OP_OUT ≤ INSTR_OP ins) : exec_instr lm i ins ps = ps := by
  unfold exec_instr
  dsimp only
  simp only [OP_OUT, OP_CONST, OP_ADD, OP_SUB, OP_MUL, OP_DIV, OP_NEG, OP_ABS, OP_OSC, OP_SAW,
    OP_SQUARE, OP_TRI, OP_PHASE, OP_FM, OP_PM, OP_AM, OP_SYNC, OP_NOISE, OP_LP_NOISE,
    OP_RAND_STEP, OP_TANH, OP_CLIP, OP_FOLD, OP_SIGN, OP_LPF, OP_HPF, OP_BPF, OP_ONEPOLE,
    OP_ADSR, OP_RAMP, OP_EXP_DECAY, OP_MIN, OP_MAX, OP_MIXN] at h ⊢
  iterate 33 rw [if_neg (by omega)]

theorem first_out_nil : first_out [] = 0 := rfl

theorem first_out_cons (ins : Instr) (rest : List Instr) :
    first_out (ins :: rest) = if INSTR_OP ins = OP_OUT then 0 else first_out rest + 1 := by
  unfold first_out
  rw [List.findIdx_cons]
  by_cases h : INSTR_OP ins = OP_OUT
  · simp [h]
  · simp [h]

theorem first_out_le (code : List Instr) : first_out code ≤ code.length :=
  List.findIdx_le_length _

theorem first_out_spec (code : List Instr) :
    (∀ j, j < first_out code → INSTR_OP (code.getD j 0) ≠ OP_OUT) ∧
    (first_out code < code.length → INSTR_OP (code.getD (first_out code) 0) = OP_OUT) := by
  induction code with
  | nil => exact ⟨fun j hj => absurd hj (Nat.not_lt_zero _), fun h => absurd h (Nat.not_lt_zero _)⟩
  | cons ins rest ih =>
    rw [first_out_cons]
    by_cases h : INSTR_OP ins = OP_OUT
    · rw [if_pos h]
      exact ⟨fun j hj => absurd hj (Nat.not_lt_zero _), fun _ => by simpa using h⟩
    · rw [if_neg h]
      constructor
      · intro j hj
        cases j with
        | zero => simpa using h
        | succ j => simpa using ih.1 j (by omega)
      · intro hlt
        simpa using ih.2 (by simpa using hlt)

/-- The loop of `exec1` runs the instructions before the first `OUT` and stops
there, or at the end of the program. -/
theorem exec1_from_eq (lm : Libm) :
    ∀ (code : List Instr) (i : Nat) (ps : PatchState),
      exec1_from lm code i ps =
        ((exec_seq lm (code.take (first_out code)) i ps).regs
            (if first_out code < code.length then INSTR_SRC_A (code.getD (first_out code) 0)
             else 0) * ps.note_vel,
          { exec_seq lm (code.take (first_out code)) i ps with
            note_time := ps.note_time + ps.dt }) := by
  intro code
  induction code with
  | nil => intro i ps; rfl
  | cons ins rest ih =>
    intro i ps
    rw [first_out_cons]
    by_cases h : INSTR_OP ins = OP_OUT
    · rw [exec1_from, if_pos h, if_pos h]
      simp [exec_seq]
    · rw [exec1_from, if_neg h, if_neg h, ih]
      obtain ⟨a1, a2, _, a4, _⟩ := exec_instr_note lm i ins ps
      rw [a1, a2, a4]
      simp [exec_seq]
theorem first_out_cut (code tail : List Instr) (h : first_out code < code.length) :
    first_out (code.take (first_out code + 1) ++ tail) = first_out code := by
  induction code with
  | nil => exact absurd h (Nat.not_lt_zero _)
  | cons ins rest ih =>
    rw [first_out_cons] at h ⊢
    by_cases h0 : INSTR_OP ins = OP_OUT
    · rw [if_pos h0] at h ⊢
      simp [first_out_cons, h0]
    · rw [if_neg h0] at h ⊢
      have h1 : first_out rest < rest.length := by simpa using h
      simp only [List.take_succ_cons, List.cons_append]
      rw [first_out_cons, if_neg h0, ih h1]

/-- Claim C12. One pass of the interpreter over any program from any state: the
instructions before the first `OUT` execute in order; the sample is the register
named by the source-A field of that `OUT`, read after them, times `note_vel`,
and register 0 times `note_vel`, read after all instructions, when the program has no
`OUT`.  The state left is the one those instructions produce with `note_time`
advanced by `dt`, so what follows the first `OUT` changes neither the sample
nor registers or state: the program can be cut or continued at will behind it. -/
theorem exec1_sample (lm : Libm) (ps : PatchState) (prog : PatchProgram) :
    first_out prog.code ≤ prog.n_instrs ∧
    (∀ j, j < first_out prog.code → INSTR_OP (prog.code.getD j 0) ≠ OP_OUT) ∧
    (first_out prog.code < prog.n_instrs →
      INSTR_OP (prog.code.getD (first_out prog.code) 0) = OP_OUT ∧
      (exec1 lm ps prog).1 =
        (exec_seq lm (prog.code.take (first_out prog.code)) 0 ps).regs
          (INSTR_SRC_A (prog.code.getD (first_out prog.code) 0)) * ps.note_vel) ∧
    (first_out prog.code = prog.n_instrs →
      (exec1 lm ps prog).1 = (exec_seq lm prog.code 0 ps).regs 0 * ps.note_vel) ∧
    (exec1 lm ps prog).2 =
      { exec_seq lm (prog.code.take (first_out prog.code)) 0 ps with
        note_time := ps.note_time + ps.dt } ∧
    (∀ tail : List Instr, first_out prog.code < prog.n_instrs →
      exec1 lm ps { prog with code := prog.code.take (first_out prog.code + 1) ++ tail } =
        exec1 lm ps prog) := by
  have he := exec1_from_eq lm prog.code 0 ps
  refine ⟨first_out_le _, (first_out_spec _).1, ?_, ?_, ?_, ?_⟩
  · intro h
    refine ⟨(first_out_spec _).2 h, ?_⟩
    unfold exec1
    rw [he]
    simp only [PatchProgram.n_instrs] at h
    rw [if_pos h]
  · intro h
    unfold exec1
    rw [he]
    simp only [PatchProgram.n_instrs] at h
    rw [if_neg (by omega), h, List.take_length]
  · unfold exec1
    rw [he]
  · intro tail h
    simp only [PatchProgram.n_instrs] at h
    unfold exec1
    rw [he, exec1_from_eq lm _ 0 ps]
    dsimp only
    rw [first_out_cut _ tail h]
    have hk : first_out prog.code <
        (List.take (first_out prog.code + 1) prog.code ++ tail).length := by
      rw [List.length_append, List.length_take]
      omega
    rw [if_pos hk, if_pos h]
    have ht : List.take (first_out prog.code) (List.take (first_out prog.code + 1) prog.code ++ tail)
        = List.take (first_out prog.code) prog.code := by
      rw [List.take_append_of_le_length (by rw [List.length_take]; omega), List.take_take]
      congr 1
      omega
    have hg : (List.take (first_out prog.code + 1) prog.code ++ tail).getD (first_out prog.code) 0
        = prog.code.getD (first_out prog.code) 0 := by
      simp only [List.getD_eq_getElem?_getD]
      rw [List.getElem?_append_left (by rw [List.length_take]; omega), List.getElem?_take]
      simp
    rw [ht, hg]

/-! ### The note clock -/

/-- An instruction that does not store into register `r` leaves it as it is. -/
theorem exec_instr_regs_keep (lm : Libm) (i : Nat) (ins : Instr) (ps : PatchState) (r : Nat)
    (h : ¬ writes_reg ins r) : (exec_instr lm i ins ps).regs r = ps.regs r := by
  by_cases h1 : INSTR_OP ins < OP_OUT
  · exact exec_instr_regs_frame lm i ins ps r (fun h2 => h ⟨h1, h2.symm⟩)
  · rw [exec_instr_other lm i ins ps (by omega)]

theorem exec_seq_regs_keep (lm : Libm) (r : Nat) :
    ∀ (code : List Instr) (i : Nat) (ps : PatchState), (∀ ins ∈ code, ¬ writes_reg ins r) →
      (exec_seq lm code i ps).regs r = ps.regs r := by
  intro code
  induction code with
  | nil => intro i ps _; rfl
  | cons ins rest ih =>
    intro i ps h
    simp only [exec_seq]
    rw [ih _ _ (fun x hx => h x (List.mem_cons_of_mem _ hx)),
      exec_instr_regs_keep lm i ins ps r (h ins (List.mem_cons_self _ _))]

theorem patch_step_loop_succ (lm : Libm) (prog : PatchProgram) (n : Nat) (st : PatchState) :
    patch_step_loop lm prog (n + 1) st =
      ((exec1 lm { st with regs := Function.update st.regs REG_TIME st.note_time } prog).1 ::
          (patch_step_loop lm prog n
            (exec1 lm { st with regs := Function.update st.regs REG_TIME st.note_time } prog).2).1,
        (patch_step_loop lm prog n
          (exec1 lm { st with regs := Function.update st.regs REG_TIME st.note_time } prog).2).2) :=
  rfl

theorem ite_rel {α β : Type} (R : α → β → Prop) (c : Prop) [Decidable c] (a b : α) (a' b' : β)
    (ha : R a a') (hb : R b b') : R (if c then a else b) (if c then a' else b') := by
  split_ifs <;> assumption

/-- The slots of instruction `i` lie inside the state array. -/
theorem state_base_lt (i : Nat) : (i * 4) % MAX_STATE + 3 < MAX_STATE := by
  unfold MAX_STATE
  omega

/-- An instruction at position `i` writes no state slot outside its four slots. -/
theorem exec_instr_state_frame (lm : Libm) (i : Nat) (ins : Instr) (ps : PatchState) (j : Nat)
    (h : j < (i * 4) % MAX_STATE ∨ (i * 4) % MAX_STATE + 3 < j) :
    (exec_instr lm i ins ps).state j = ps.state j := by
  unfold exec_instr
  dsimp only
  generalize (i * 4) % MAX_STATE = sb at h ⊢
  have h0 : j ≠ sb := by omega
  have h1 : j ≠ sb + 1 := by omega
  have h2 : j ≠ sb + 2 := by omega
  repeat' apply ite_prop (fun q : PatchState => q.state j = ps.state j)
  all_goals first
    | rfl
    | (simp only [Function.update_apply, if_neg h0, if_neg h1, if_neg h2]; done)
    | (simp only [Function.update_apply, if_neg h0, if_neg h1, if_neg h2]; split_ifs <;>
        simp only [Function.update_apply, if_neg h0, if_neg h1, if_neg h2])
theorem agree_update (P : Nat → Prop) (f g : Nat → ℚ) (k : Nat) (v : ℚ)
    (h : ∀ j, P j → f j = g j) : ∀ j, P j → Function.update f k v j = Function.update g k v j := by
  intro j hj
  simp only [Function.update_apply]
  split_ifs
  · rfl
  · exact h j hj

theorem agree_ite (P : Nat → Prop) (c : Prop) [Decidable c] (f1 f2 g1 g2 : Nat → ℚ)
    (h1 : ∀ j, P j → f1 j = g1 j) (h2 : ∀ j, P j → f2 j = g2 j) :
    ∀ j, P j → (if c then f1 else f2) j = (if c then g1 else g2) j := by
  intro j hj
  split_ifs
  · exact h1 j hj
  · exact h2 j hj

/-- An instruction at position `i` reads no state slot outside its four slots:
on two state arrays that agree on them it computes the same registers, the same
generator state and the same contents of the four slots. -/
theorem exec_instr_state_reads (lm : Libm) (i : Nat) (ins : Instr) (ps : PatchState)
    (s' : Nat → ℚ)
    (h : ∀ j, ((i * 4) % MAX_STATE ≤ j ∧ j ≤ (i * 4) % MAX_STATE + 3) → s' j = ps.state j) :
    (exec_instr lm i ins { ps with state := s' }).regs = (exec_instr lm i ins ps).regs ∧
    (exec_instr lm i ins { ps with state := s' }).rng = (exec_instr lm i ins ps).rng ∧
    ∀ j, ((i * 4) % MAX_STATE ≤ j ∧ j ≤ (i * 4) % MAX_STATE + 3) →
      (exec_instr lm i ins { ps with state := s' }).state j = (exec_instr lm i ins ps).state j := by
  unfold exec_instr
  dsimp only
  generalize (i * 4) % MAX_STATE = sb at h ⊢
  have h0 : s' sb = ps.state sb := h sb ⟨by omega, by omega⟩
  have h1 : s' (sb + 1) = ps.state (sb + 1) := h (sb + 1) ⟨by omega, by omega⟩
  have h2 : s' (sb + 2) = ps.state (sb + 2) := h (sb + 2) ⟨by omega, by omega⟩
  have e1 : sb + 1 ≠ sb := by omega
  have e2 : sb ≠ sb + 1 := by omega
  have k2 : ∀ (c : Prop) [Decidable c] (v : ℚ),
      (if c then Function.update (Function.update s' sb v) (sb + 1) 0
        else Function.update s' sb v) (sb + 1) =
      (if c then Function.update (Function.update ps.state sb v) (sb + 1) 0
        else Function.update ps.state sb v) (sb + 1) := by
    intro c _ v
    exact agree_ite (fun j => sb ≤ j ∧ j ≤ sb + 3) c _ _ _ _
      (agree_update _ _ _ _ _ (agree_update _ _ _ _ _ h))
      (agree_update _ _ _ _ _ h) (sb + 1) ⟨by omega, by omega⟩
  repeat' apply ite_rel (fun q q' : PatchState => q.regs = q'.regs ∧ q.rng = q'.rng ∧
    ∀ j, (sb ≤ j ∧ j ≤ sb + 3) → q.state j = q'.state j)
  all_goals first
    | exact ⟨rfl, rfl, h⟩
    | (refine ⟨?_, rfl, ?_⟩
       · first | rfl | simp only [h0, h1, h2, k2]
       · try simp only [h0, h1, h2, k2]
         repeat (first | exact h | apply agree_update | apply agree_ite))
    | (simp only [h1]
       apply ite_rel (fun q q' : PatchState => q.regs = q'.regs ∧ q.rng = q'.rng ∧
         ∀ j, (sb ≤ j ∧ j ≤ sb + 3) → q.state j = q'.state j)
       all_goals
        (refine ⟨?_, rfl, ?_⟩
         · simp only [h0, Function.update_apply, if_neg e1, if_neg e2, if_true]
         · simp only [h0, Function.update_apply, if_neg e1, if_neg e2, if_true]
           intro j hj
           split_ifs <;> first | rfl | exact h j hj))

theorem exec_seq_append (lm : Libm) :
    ∀ (l1 l2 : List Instr) (p : Nat) (ps : PatchState),
      exec_seq lm (l1 ++ l2) p ps = exec_seq lm l2 (p + l1.length) (exec_seq lm l1 p ps) := by
  intro l1
  induction l1 with
  | nil => intro l2 p ps; rfl
  | cons a l1 ih =>
    intro l2 p ps
    show exec_seq lm (l1 ++ l2) (p + 1) (exec_instr lm p a ps) =
      exec_seq lm l2 (p + (l1.length + 1)) (exec_seq lm l1 (p + 1) (exec_instr lm p a ps))
    rw [ih, show p + 1 + l1.length = p + (l1.length + 1) by omega]

/-- In a pass, the instruction stored at index `i` of the program executes with
position `i`. -/
theorem exec_seq_take_succ (lm : Libm) (code : List Instr) (i : Nat) (ps : PatchState)
    (h : i < code.length) :
    exec_seq lm (code.take (i + 1)) 0 ps =
      exec_instr lm i (code.getD i 0) (exec_seq lm (code.take i) 0 ps) := by
  have h1 : code.take (i + 1) = code.take i ++ [code.getD i 0] := by
    rw [List.take_succ, List.getD_eq_getElem?_getD, List.getElem?_eq_getElem h]
    rfl
  rw [h1, exec_seq_append, List.length_take, Nat.min_eq_left (le_of_lt h), Nat.zero_add]
  rfl

/-- Claim C14. The instruction at position `i` of a program executes on the
state slots `(4i) mod 512 .. (4i) mod 512 + 3` only, whatever its fields: these
four indices are below 512, every slot outside them keeps its value, and the
registers, the generator state and the four slots computed do not depend on
the slots outside them. -/
theorem exec_instr_state_slots (lm : Libm) (i : Nat) (ins : Instr) (ps : PatchState) :
    (i * 4) % MAX_STATE + 3 < MAX_STATE ∧ MAX_STATE = 512 ∧
    (∀ j, (j < (i * 4) % MAX_STATE ∨ (i * 4) % MAX_STATE + 3 < j) →
      (exec_instr lm i ins ps).state j = ps.state j) ∧
    (∀ s' : Nat → ℚ,
      (∀ j, ((i * 4) % MAX_STATE ≤ j ∧ j ≤ (i * 4) % MAX_STATE + 3) → s' j = ps.state j) →
      (exec_instr lm i ins { ps with state := s' }).regs = (exec_instr lm i ins ps).regs ∧
      (exec_instr lm i ins { ps with state := s' }).rng = (exec_instr lm i ins ps).rng ∧
      (∀ j, ((i * 4) % MAX_STATE ≤ j ∧ j ≤ (i * 4) % MAX_STATE + 3) →
        (exec_instr lm i ins { ps with state := s' }).state j =
          (exec_instr lm i ins ps).state j) ∧
      (∀ j, (j < (i * 4) % MAX_STATE ∨ (i * 4) % MAX_STATE + 3 < j) →
        (exec_instr lm i ins { ps with state := s' }).state j = s' j)) ∧
    (∀ prog : PatchProgram, i < prog.n_instrs →
      exec_seq lm (prog.code.take (i + 1)) 0 ps =
        exec_instr lm i (prog.code.getD i 0) (exec_seq lm (prog.code.take i) 0 ps)) := by
  refine ⟨state_base_lt i, rfl, exec_instr_state_frame lm i ins ps, ?_, ?_⟩
  · intro s' h
    obtain ⟨a1, a2, a3⟩ := exec_instr_state_reads lm i ins ps s' h
    exact ⟨a1, a2, a3, exec_instr_state_frame lm i ins { ps with state := s' }⟩
  · intro prog h
    exact exec_seq_take_succ lm prog.code i ps h

/-! ### Registers -/

theorem ite_rel_dep {α β : Type} (R : α → β → Prop) (c : Prop) [Decidable c] (a b : α)
    (a' b' : β) (ha : c → R a a') (hb : ¬ c → R b b') :
    R (if c then a else b) (if c then a' else b') := by
  split_ifs with h
  · exact ha h
  · exact hb h

theorem exec1_regs_keep (lm : Libm) (ps : PatchState) (prog : PatchProgram) (r : Nat)
    (h : ∀ ins ∈ prog.code, ¬ writes_reg ins r) : (exec1 lm ps prog).2.regs r = ps.regs r := by
  unfold exec1
  rw [exec1_from_eq]
  exact exec_seq_regs_keep lm r _ 0 ps (fun ins hi => h ins (List.mem_of_mem_take hi))

theorem patch_step_loop_regs_keep (lm : Libm) (prog : PatchProgram) (r : Nat)
    (hr : r ≠ REG_TIME) (h : ∀ ins ∈ prog.code, ¬ writes_reg ins r) :
    ∀ (k : Nat) (st : PatchState), (patch_step_loop lm prog k st).2.regs r = st.regs r := by
  intro k
  induction k with
  | zero => intro st; rfl
  | succ k ih =>
    intro st
    rw [patch_step_loop_succ]
    dsimp only
    rw [ih, exec1_regs_keep lm _ prog r h]
    exact Function.update_noteq hr _ _

/-- Claim C16, amended. After `patch_note_on`, for every program none of whose
instructions stores into register 0, 1 or 3 (the builder hands out destination
registers from 4 on) and any number of `patch_step` samples, the registers
`FREQ`, `VEL` and `ONE` hold the values set at note-on: the note frequency,
the velocity and 1. -/
theorem reserved_regs_constant (lm : Libm) (p : Patch) (prog : PatchProgram) (sr : ℚ)
    (midi : Int) (vel : ℚ) (k : Nat)
    (h : ∀ ins ∈ prog.code, ¬ writes_reg ins REG_FREQ ∧ ¬ writes_reg ins REG_VEL ∧
      ¬ writes_reg ins REG_ONE) :
    (patch_step lm (patch_note_on lm p prog sr midi vel) k).2.2.st.regs REG_FREQ =
      freq_from_midi lm midi ∧
    (patch_step lm (patch_note_on lm p prog sr midi vel) k).2.2.st.regs REG_VEL = vel ∧
    (patch_step lm (patch_note_on lm p prog sr midi vel) k).2.2.st.regs REG_ONE = 1 ∧
    (patch_note_on lm p prog sr midi vel).st.note_freq = freq_from_midi lm midi ∧
    (patch_note_on lm p prog sr midi vel).st.note_vel = vel := by
  have e : patch_step lm (patch_note_on lm p prog sr midi vel) k =
      (0, (patch_step_loop lm prog k (patch_note_on lm p prog sr midi vel).st).1,
        { patch_note_on lm p prog sr midi vel with
          st := (patch_step_loop lm prog k (patch_note_on lm p prog sr midi vel).st).2 }) := rfl
  rw [e]
  dsimp only
  rw [patch_step_loop_regs_keep lm prog REG_FREQ (by decide) (fun ins hi => (h ins hi).1),
    patch_step_loop_regs_keep lm prog REG_VEL (by decide) (fun ins hi => (h ins hi).2.1),
    patch_step_loop_regs_keep lm prog REG_ONE (by decide) (fun ins hi => (h ins hi).2.2)]
  refine ⟨?_, ?_, ?_, rfl, rfl⟩
  · simp [patch_note_on, Function.update, REG_FREQ, REG_VEL, REG_TIME, REG_ONE]
  · simp [patch_note_on, Function.update, REG_FREQ, REG_VEL, REG_TIME, REG_ONE]
  · simp [patch_note_on, Function.update, REG_FREQ, REG_VEL, REG_TIME, REG_ONE]

theorem reserved_regs_constant_witness :
    (∀ ins ∈ p_sine_adsr.code, ¬ writes_reg ins REG_FREQ ∧ ¬ writes_reg ins REG_VEL ∧
      ¬ writes_reg ins REG_ONE) ∧
    (patch_step libm_sample (patch_note_on libm_sample ⟨none, PatchState.zero⟩ p_sine_adsr
      44100 69 (1 / 2)) 5).2.2.st.regs REG_ONE = 1 :=
  ⟨by decide, (reserved_regs_constant libm_sample ⟨none, PatchState.zero⟩ p_sine_adsr 44100 69
    (1 / 2) 5 (by decide)).2.2.1⟩

/-- Claim C16 as stated fails on a program that stores into the reserved
registers: after a note-on with frequency 440 and velocity 1/2, one sample of
`FREQ = 2; VEL = 2; ONE = 2; OUT FREQ` leaves 2 in `FREQ`, `VEL` and `ONE`. -/
theorem reserved_regs_overwritten :
    (patch_note_on libm_sample ⟨none, PatchState.zero⟩ clobber_prog 4 69 (1 / 2)).st.regs REG_FREQ
      = 440 ∧
    (patch_note_on libm_sample ⟨none, PatchState.zero⟩ clobber_prog 4 69 (1 / 2)).st.regs REG_VEL
      = 1 / 2 ∧
    (patch_note_on libm_sample ⟨none, PatchState.zero⟩ clobber_prog 4 69 (1 / 2)).st.regs REG_ONE
      = 1 ∧
    (patch_step libm_sample (patch_note_on libm_sample ⟨none, PatchState.zero⟩ clobber_prog 4 69
      (1 / 2)) 1).2.2.st.regs REG_FREQ = 2 ∧
    (patch_step libm_sample (patch_note_on libm_sample ⟨none, PatchState.zero⟩ clobber_prog 4 69
      (1 / 2)) 1).2.2.st.regs REG_VEL = 2 ∧
    (patch_step libm_sample (patch_note_on libm_sample ⟨none, PatchState.zero⟩ clobber_prog 4 69
      (1 / 2)) 1).2.2.st.regs REG_ONE = 2 := by
  refine ⟨by decide!, by decide!, by decide!, by decide!, by decide!, by decide!⟩

/-! ### Table lookups -/

theorem adsr_tick_tables (lm lm' : Libm) (st0 st1 st2 : ℚ) (hi lo : Nat) (dt : ℚ)
    (he : ∀ k, k < 32 → lm'.g_env k = lm.g_env k) (ha : (hi >>> 10) &&& 0x3F < 32) :
    adsr_tick lm' st0 st1 st2 hi lo dt = adsr_tick lm st0 st1 st2 hi lo dt := by
  have hd : (hi >>> 5) &&& 0x1F < 32 := Nat.lt_succ_of_le Nat.and_le_right
  have hr : (lo >>> 11) &&& 0x1F < 32 := Nat.lt_succ_of_le Nat.and_le_right
  unfold adsr_tick
  simp only [he _ ha, he _ hd, he _ hr]

/-- Apart from the attack time of `ADSR`, an instruction reads the run-time
tables inside their bounds only: with two sets of tables that agree on the 64
entries of `g_cutoff` and the 32 entries of `g_env` it computes the same
state, provided an `ADSR` instruction has an attack index below 32. -/
theorem exec_instr_tables (lm lm' : Libm) (i : Nat) (ins : Instr) (ps : PatchState)
    (ht : lm'.tanhf = lm.tanhf) (hx : lm'.expf = lm.expf)
    (hc : ∀ k, k < 64 → lm'.g_cutoff k = lm.g_cutoff k)
    (he : ∀ k, k < 32 → lm'.g_env k = lm.g_env k)
    (ha : INSTR_OP ins = OP_ADSR → (INSTR_IMM_HI ins >>> 10) &&& 0x3F < 32) :
    exec_instr lm' i ins ps = exec_instr lm i ins ps := by
  have hc2 : ∀ (k : Nat) (d : ℚ), (if k < 64 then lpc (lm'.g_cutoff k) ps.dt else d) =
      (if k < 64 then lpc (lm.g_cutoff k) ps.dt else d) := by
    intro k d
    split_ifs with h
    · rw [hc k h]
    · rfl
  have he2 : ∀ (k : Nat) (d : ℚ), (if k < 32 then lm'.g_env k else d) =
      (if k < 32 then lm.g_env k else d) := by
    intro k d
    split_ifs with h
    · rw [he k h]
    · rfl
  unfold exec_instr
  dsimp only
  repeat' (first
    | apply ite_rel_dep (fun q q' : PatchState => q = q')
    | intro hop)
  all_goals first
    | rfl
    | rw [ht]
    | rw [hx]
    | simp only [hc2]
    | simp only [he2]
    | rw [adsr_tick_tables lm lm' _ _ _ _ _ _ he (ha hop)]

/-- Claim C17, as the code behaves. `adsr_tick` indexes the 32-entry table
`g_env` with the 6-bit attack field of the high immediate without a range
check: for the instruction `ADSR(32,0,0,0)` the index is 32, and with two sets
of tables that agree on all 32 entries of `g_env` the first sample after a
note-on is 1 with one and 1/4 with the other, so the entry behind the table is
read.  Every other lookup is inside its table: an instruction that is not an
`ADSR` with attack index 32 or more computes the same with any two sets of
tables that agree on the 64 entries of `g_cutoff` and the 32 of `g_env`. -/
theorem adsr_attack_index_unchecked :
    INSTR_OP adsr_att32 = OP_ADSR ∧ INSTR_IMM_HI adsr_att32 = 0x8000 ∧
    (INSTR_IMM_HI adsr_att32 >>> 10) &&& 0x3F = 32 ∧
    (∀ k, k < 32 → libm_beyond.g_env k = libm_sample.g_env k) ∧
    (patch_step libm_sample (patch_note_on libm_sample ⟨none, PatchState.zero⟩ adsr32_prog 4 69 1)
      1).2.1 = [1] ∧
    (patch_step libm_beyond (patch_note_on libm_beyond ⟨none, PatchState.zero⟩ adsr32_prog 4 69 1)
      1).2.1 = [1 / 4] ∧
    (∀ (lm lm' : Libm) (i : Nat) (ins : Instr) (ps : PatchState),
      lm'.tanhf = lm.tanhf → lm'.expf = lm.expf →
      (∀ k, k < 64 → lm'.g_cutoff k = lm.g_cutoff k) →
      (∀ k, k < 32 → lm'.g_env k = lm.g_env k) →
      (INSTR_OP ins = OP_ADSR → (INSTR_IMM_HI ins >>> 10) &&& 0x3F < 32) →
      exec_instr lm' i ins ps = exec_instr lm i ins ps) := by
  refine ⟨by decide, by decide, by decide, ?_, by decide!, by decide!, ?_⟩
  · intro k hk
    simp [libm_beyond, hk]
  · intro lm lm' i ins ps ht hx hc he ha
    exact exec_instr_tables lm lm' i ins ps ht hx hc he ha

/-! ### Oscillators -/

/-- The four plain oscillator cases of `exec1`: the phase slot is advanced and
the waveform of the phase it held before is stored. -/
theorem exec_instr_osc (lm : Libm) (i : Nat) (ins : Instr) (ps : PatchState)
    (h : INSTR_OP ins = OP_OSC ∨ INSTR_OP ins = OP_SAW ∨ INSTR_OP ins = OP_SQUARE ∨
      INSTR_OP ins = OP_TRI) :
    exec_instr lm i ins ps =
      { ps with
        state := Function.update ps.state ((i * 4) % MAX_STATE)
          (advanced_phase (ps.state ((i * 4) % MAX_STATE)) ps.note_freq
            (if ps.regs (INSTR_SRC_A ins) > 0 then ps.regs (INSTR_SRC_A ins) else 1) ps.dt),
        regs := Function.update ps.regs (INSTR_DST ins)
          (waveform (INSTR_OP ins) (ps.state ((i * 4) % MAX_STATE))) } := by
  have w1 : ∀ p, waveform OP_OSC p = fsin p := fun _ => rfl
  have w2 : ∀ p, waveform OP_SAW p = saw_w p := fun _ => rfl
  have w3 : ∀ p, waveform OP_SQUARE p = sqr_w p := fun _ => rfl
  have w4 : ∀ p, waveform OP_TRI p = tri_w p := fun _ => rfl
  unfold exec_instr
  dsimp only
  rcases h with h | h | h | h
  · iterate 7 rw [if_neg (by rw [h]; decide)]
    rw [if_pos h, h, w1]
    rfl
  · iterate 8 rw [if_neg (by rw [h]; decide)]
    rw [if_pos h, h, w2]
    rfl
  · iterate 9 rw [if_neg (by rw [h]; decide)]
    rw [if_pos h, h, w3]
    rfl
  · iterate 10 rw [if_neg (by rw [h]; decide)]
    rw [if_pos h, h, w4]
    rfl
/-- Claim C18, amended. For the opcodes `OSC`, `SAW`, `SQUARE` and `TRI` the
value written to the destination register on a sample is the waveform (sine,
saw, square, triangle) evaluated at the value the phase slot holds before this
sample's advance; the slot is then advanced by `2π · freq · multiplier · dt`,
with `2π` subtracted once when the sum has reached `2π`, where a non-positive
multiplier register is replaced by 1. -/
theorem osc_pre_advance (lm : Libm) (i : Nat) (ins : Instr) (ps : PatchState)
    (h : INSTR_OP ins = OP_OSC ∨ INSTR_OP ins = OP_SAW ∨ INSTR_OP ins = OP_SQUARE ∨
      INSTR_OP ins = OP_TRI) :
    (exec_instr lm i ins ps).regs (INSTR_DST ins) =
      waveform (INSTR_OP ins) (ps.state ((i * 4) % MAX_STATE)) ∧
    (exec_instr lm i ins ps).state ((i * 4) % MAX_STATE) =
      advanced_phase (ps.state ((i * 4) % MAX_STATE)) ps.note_freq
        (if ps.regs (INSTR_SRC_A ins) > 0 then ps.regs (INSTR_SRC_A ins) else 1) ps.dt ∧
    (∀ p, waveform OP_OSC p = fsin p) ∧ (∀ p, waveform OP_SAW p = saw_w p) ∧
    (∀ p, waveform OP_SQUARE p = sqr_w p) ∧ (∀ p, waveform OP_TRI p = tri_w p) ∧
    (∀ p freq mult dt, p + TWO_PI * freq * mult * dt < TWO_PI →
      advanced_phase p freq mult dt = p + TWO_PI * freq * mult * dt) ∧
    (∀ p freq mult dt, TWO_PI ≤ p + TWO_PI * freq * mult * dt →
      advanced_phase p freq mult dt = p + TWO_PI * freq * mult * dt - TWO_PI) := by
  rw [exec_instr_osc lm i ins ps h]
  refine ⟨Function.update_same _ _ _, Function.update_same _ _ _, fun _ => rfl, fun _ => rfl,
    fun _ => rfl, fun _ => rfl, ?_, ?_⟩
  · intro p freq mult dt hlt
    unfold advanced_phase
    rw [if_neg (by rw [← mul_assoc]; exact not_le.mpr hlt), ← mul_assoc]
  · intro p freq mult dt hge
    unfold advanced_phase
    rw [if_pos (by rw [← mul_assoc]; exact hge), ← mul_assoc]

theorem osc_pre_advance_witness :
    (INSTR_OP (INSTR_PACK OP_SAW 4 REG_ONE 0 0 0) = OP_OSC ∨
      INSTR_OP (INSTR_PACK OP_SAW 4 REG_ONE 0 0 0) = OP_SAW ∨
      INSTR_OP (INSTR_PACK OP_SAW 4 REG_ONE 0 0 0) = OP_SQUARE ∨
      INSTR_OP (INSTR_PACK OP_SAW 4 REG_ONE 0 0 0) = OP_TRI) ∧
    (exec_instr libm_sample 0 (INSTR_PACK OP_SAW 4 REG_ONE 0 0 0) PatchState.zero).regs
        (INSTR_DST (INSTR_PACK OP_SAW 4 REG_ONE 0 0 0)) =
      waveform (INSTR_OP (INSTR_PACK OP_SAW 4 REG_ONE 0 0 0))
        (PatchState.zero.state ((0 * 4) % MAX_STATE)) :=
  ⟨by decide, (osc_pre_advance libm_sample 0 (INSTR_PACK OP_SAW 4 REG_ONE 0 0 0) PatchState.zero
    (by decide)).1⟩

/-- Claim C18 as stated fails on the first sample of a sawtooth: after a
note-on at 440 Hz and 3520 samples per second the phase slot holds 0 and is
advanced to `2π/8` by the first sample, whose value is `saw_w 0 = -1` and not
`saw_w (2π/8) = -3/4`. -/
theorem osc_post_advance_fails :
    (patch_note_on libm_sample ⟨none, PatchState.zero⟩ saw_prog 3520 69 1).st.state 0 = 0 ∧
    (patch_step libm_sample (patch_note_on libm_sample ⟨none, PatchState.zero⟩ saw_prog 3520 69 1)
      1).2.2.st.state 0 = TWO_PI / 8 ∧
    (patch_step libm_sample (patch_note_on libm_sample ⟨none, PatchState.zero⟩ saw_prog 3520 69 1)
      1).2.1 = [-1] ∧
    saw_w 0 = -1 ∧ saw_w (TWO_PI / 8) = -3 / 4 := by
  refine ⟨by decide!, by decide!, by decide!, by decide!, by decide!⟩

/-! ### The sine polynomial -/

/-- Claim C19, as the code behaves. `fsin` is the Taylor polynomial of degree 5
on the reduced argument, which ranges over `[-π, π)`: at `x = 3` no reduction
takes place, `fsin 3 = 21/40`, and `sin 3 < 3/20`, so the error exceeds `3/8`,
far above the `0.002` of the comment in the source.  The first sample of a
phase-modulated sine with offset 3 is this value. -/
theorem fsin_error_at_three :
    fsin 3 = 21 / 40 ∧ Real.sin 3 < 3 / 20 ∧
    (3 / 8 : ℝ) < |((fsin 3 : ℚ) : ℝ) - Real.sin 3| ∧
    ¬ (|((fsin 3 : ℚ) : ℝ) - Real.sin 3| < 2e-3) ∧
    (patch_step libm_sample (patch_note_on libm_sample ⟨none, PatchState.zero⟩ pm_prog 44100 69 1)
      1).2.1 = [fsin 3] := by
  have h1 : fsin 3 = 21 / 40 := by decide!
  have h2 : Real.sin 3 < 3 / 20 := by
    have hp : (0 : ℝ) < Real.pi - 3 := by linarith [Real.pi_gt_three]
    have h3 := Real.sin_lt hp
    rw [Real.sin_pi_sub] at h3
    linarith [Real.pi_lt_d2]
  have h4 : (3 / 8 : ℝ) < |((fsin 3 : ℚ) : ℝ) - Real.sin 3| := by
    rw [h1]
    have : (3 / 8 : ℝ) < ((21 / 40 : ℚ) : ℝ) - Real.sin 3 := by
      push_cast
      linarith
    exact lt_of_lt_of_le this (le_abs_self _)
  refine ⟨h1, h2, h4, ?_, by decide!⟩
  intro h5
  have : (2e-3 : ℝ) < 3 / 8 := by norm_num
  linarith

/-! ### The envelope from note-on -/

/-- `INSTR_PACK` as a sum: every field at its bit position. -/
theorem INSTR_PACK_eq (op dst a b hi lo : Nat) :
    INSTR_PACK op dst a b hi lo =
      2 ^ 56 * (op % 256) + 2 ^ 48 * (dst % 256) + 2 ^ 40 * (a % 256) + 2 ^ 32 * (b % 256) +
        2 ^ 16 * (hi % 65536) + lo % 65536 := by
  unfold INSTR_PACK
  have h1 : op % 256 < 256 := Nat.mod_lt _ (by decide)
  have h2 : dst % 256 < 256 := Nat.mod_lt _ (by decide)
  have h3 : a % 256 < 256 := Nat.mod_lt _ (by decide)
  have h4 : b % 256 < 256 := Nat.mod_lt _ (by decide)
  have h5 : hi % 65536 < 65536 := Nat.mod_lt _ (by decide)
  have h6 : lo % 65536 < 65536 := Nat.mod_lt _ (by decide)
  generalize op % 256 = x1 at *
  generalize dst % 256 = x2 at *
  generalize a % 256 = x3 at *
  generalize b % 256 = x4 at *
  generalize hi % 65536 = x5 at *
  generalize lo % 65536 = x6 at *
  simp only [Nat.shiftLeft_eq]
  have e1 : x1 * 2 ^ 56 ||| x2 * 2 ^ 48 = 2 ^ 56 * x1 + x2 * 2 ^ 48 := by
    rw [Nat.mul_comm x1]; exact (Nat.mul_add_lt_is_or (by omega) x1).symm
  have e2 : (2 ^ 56 * x1 + x2 * 2 ^ 48) ||| x3 * 2 ^ 40 =
      2 ^ 48 * (2 ^ 8 * x1 + x2) + x3 * 2 ^ 40 := by
    have : 2 ^ 56 * x1 + x2 * 2 ^ 48 = 2 ^ 48 * (2 ^ 8 * x1 + x2) := by ring
    rw [this]; exact (Nat.mul_add_lt_is_or (by omega) _).symm
  have e3 : (2 ^ 48 * (2 ^ 8 * x1 + x2) + x3 * 2 ^ 40) ||| x4 * 2 ^ 32 =
      2 ^ 40 * (2 ^ 8 * (2 ^ 8 * x1 + x2) + x3) + x4 * 2 ^ 32 := by
    have : 2 ^ 48 * (2 ^ 8 * x1 + x2) + x3 * 2 ^ 40 =
        2 ^ 40 * (2 ^ 8 * (2 ^ 8 * x1 + x2) + x3) := by ring
    rw [this]; exact (Nat.mul_add_lt_is_or (by omega) _).symm
  have e4 : (2 ^ 40 * (2 ^ 8 * (2 ^ 8 * x1 + x2) + x3) + x4 * 2 ^ 32) ||| x5 * 2 ^ 16 =
      2 ^ 32 * (2 ^ 8 * (2 ^ 8 * (2 ^ 8 * x1 + x2) + x3) + x4) + x5 * 2 ^ 16 := by
    have : 2 ^ 40 * (2 ^ 8 * (2 ^ 8 * x1 + x2) + x3) + x4 * 2 ^ 32 =
        2 ^ 32 * (2 ^ 8 * (2 ^ 8 * (2 ^ 8 * x1 + x2) + x3) + x4) := by ring
    rw [this]; exact (Nat.mul_add_lt_is_or (by omega) _).symm
  have e5 : (2 ^ 32 * (2 ^ 8 * (2 ^ 8 * (2 ^ 8 * x1 + x2) + x3) + x4) + x5 * 2 ^ 16) ||| x6 =
      2 ^ 16 * (2 ^ 16 * (2 ^ 8 * (2 ^ 8 * (2 ^ 8 * x1 + x2) + x3) + x4) + x5) + x6 := by
    have : 2 ^ 32 * (2 ^ 8 * (2 ^ 8 * (2 ^ 8 * x1 + x2) + x3) + x4) + x5 * 2 ^ 16 =
        2 ^ 16 * (2 ^ 16 * (2 ^ 8 * (2 ^ 8 * (2 ^ 8 * x1 + x2) + x3) + x4) + x5) := by ring
    rw [this]; exact (Nat.mul_add_lt_is_or (by omega) _).symm
  rw [e1, e2, e3, e4, e5]
  ring

/-- The six extractors on a packed word return the fields, each reduced to its width. -/
theorem INSTR_PACK_fields (op dst a b hi lo : Nat) :
    INSTR_OP (INSTR_PACK op dst a b hi lo) = op % 256 ∧
    INSTR_DST (INSTR_PACK op dst a b hi lo) = dst % 256 ∧
    INSTR_SRC_A (INSTR_PACK op dst a b hi lo) = a % 256 ∧
    INSTR_SRC_B (INSTR_PACK op dst a b hi lo) = b % 256 ∧
    INSTR_IMM_HI (INSTR_PACK op dst a b hi lo) = hi % 65536 ∧
    INSTR_IMM_LO (INSTR_PACK op dst a b hi lo) = lo % 65536 := by
  rw [INSTR_PACK_eq]
  simp only [INSTR_OP, INSTR_DST, INSTR_SRC_A, INSTR_SRC_B, INSTR_IMM_HI, INSTR_IMM_LO,
    Nat.shiftRight_eq_div_pow]
  refine ⟨?_, ?_, ?_, ?_, ?_, ?_⟩ <;> omega

/-- Claim C25. For fields `op, dst, a, b` in `0..255` and `hi, lo` in `0..65535`
the six extractors applied to `INSTR_PACK(op,dst,a,b,hi,lo)` return the fields;
the word is below `2^64` and is the sum of the fields shifted to the bits
`63..56`, `55..48`, `47..40`, `39..32`, `31..16` and `15..0`; distinct field
tuples pack to distinct words. -/
theorem INSTR_PACK_roundtrip (op dst a b hi lo : Nat) (h1 : op < 256) (h2 : dst < 256)
    (h3 : a < 256) (h4 : b < 256) (h5 : hi < 65536) (h6 : lo < 65536) :
    INSTR_OP (INSTR_PACK op dst a b hi lo) = op ∧
    INSTR_DST (INSTR_PACK op dst a b hi lo) = dst ∧
    INSTR_SRC_A (INSTR_PACK op dst a b hi lo) = a ∧
    INSTR_SRC_B (INSTR_PACK op dst a b hi lo) = b ∧
    INSTR_IMM_HI (INSTR_PACK op dst a b hi lo) = hi ∧
    INSTR_IMM_LO (INSTR_PACK op dst a b hi lo) = lo ∧
    INSTR_PACK op dst a b hi lo < 2 ^ 64 ∧
    INSTR_PACK op dst a b hi lo =
      2 ^ 56 * op + 2 ^ 48 * dst + 2 ^ 40 * a + 2 ^ 32 * b + 2 ^ 16 * hi + lo ∧
    (∀ op' dst' a' b' hi' lo' : Nat, op' < 256 → dst' < 256 → a' < 256 → b' < 256 →
      hi' < 65536 → lo' < 65536 →
      INSTR_PACK op' dst' a' b' hi' lo' = INSTR_PACK op dst a b hi lo →
      op' = op ∧ dst' = dst ∧ a' = a ∧ b' = b ∧ hi' = hi ∧ lo' = lo) := by
  have hlt : 2 ^ 56 * op + 2 ^ 48 * dst + 2 ^ 40 * a + 2 ^ 32 * b + 2 ^ 16 * hi + lo < 2 ^ 64 := by
    omega
  obtain ⟨f1, f2, f3, f4, f5, f6⟩ := INSTR_PACK_fields op dst a b hi lo
  rw [Nat.mod_eq_of_lt h1] at f1
  rw [Nat.mod_eq_of_lt h2] at f2
  rw [Nat.mod_eq_of_lt h3] at f3
  rw [Nat.mod_eq_of_lt h4] at f4
  rw [Nat.mod_eq_of_lt h5] at f5
  rw [Nat.mod_eq_of_lt h6] at f6
  have e := INSTR_PACK_eq op dst a b hi lo
  rw [Nat.mod_eq_of_lt h1, Nat.mod_eq_of_lt h2, Nat.mod_eq_of_lt h3, Nat.mod_eq_of_lt h4,
    Nat.mod_eq_of_lt h5, Nat.mod_eq_of_lt h6] at e
  refine ⟨f1, f2, f3, f4, f5, f6, by rw [e]; exact hlt, e, ?_⟩
  intro op' dst' a' b' hi' lo' g1 g2 g3 g4 g5 g6 heq
  obtain ⟨k1, k2, k3, k4, k5, k6⟩ := INSTR_PACK_fields op' dst' a' b' hi' lo'
  rw [heq, f1, Nat.mod_eq_of_lt g1] at k1
  rw [heq, f2, Nat.mod_eq_of_lt g2] at k2
  rw [heq, f3, Nat.mod_eq_of_lt g3] at k3
  rw [heq, f4, Nat.mod_eq_of_lt g4] at k4
  rw [heq, f5, Nat.mod_eq_of_lt g5] at k5
  rw [heq, f6, Nat.mod_eq_of_lt g6] at k6
  exact ⟨k1.symm, k2.symm, k3.symm, k4.symm, k5.symm, k6.symm⟩

theorem INSTR_PACK_roundtrip_witness :
    INSTR_OP (INSTR_PACK 27 4 0 0 0x0D56 0x9000) = 27 ∧
    INSTR_IMM_HI (INSTR_PACK 27 4 0 0 0x0D56 0x9000) = 0x0D56 :=
  ⟨(INSTR_PACK_roundtrip 27 4 0 0 0x0D56 0x9000 (by decide) (by decide) (by decide) (by decide)
      (by decide) (by decide)).1,
    (INSTR_PACK_roundtrip 27 4 0 0 0x0D56 0x9000 (by decide) (by decide) (by decide) (by decide)
      (by decide) (by decide)).2.2.2.2.1⟩

/-! ### The patch builder -/

/-- Every value-producing call is the shared body with some opcode and fields. -/
theorem pb_call_value (c : BuilderCall) :
    ∃ op a s hi lo : Nat, ∀ b : PatchBuilder, pb_call b c = pb_value b op a s hi lo := by
  cases c <;> exact ⟨_, _, _, _, _, fun _ => rfl⟩

/-- The shared body within both budgets. -/
theorem pb_value_ok (b : PatchBuilder) (op a s hi lo : Nat) (hr : b.rc < MAX_REGS)
    (hn : b.prog.n_instrs < MAX_INSTRS) :
    pb_value b op a s hi lo =
      (b.rc, { b with rc := b.rc + 1,
                      prog := { b.prog with
                        code := b.prog.code ++ [INSTR_PACK op b.rc a s hi lo] } }) := by
  unfold pb_value pb_reg
  rw [if_neg (not_le.mpr hr)]
  unfold pb_emit
  dsimp only
  rw [if_neg (not_le.mpr hn)]

/-- The shared body outside a budget latches the flag. -/
theorem pb_value_overflow (b : PatchBuilder) (op a s hi lo : Nat)
    (h : MAX_REGS ≤ b.rc ∨ MAX_INSTRS ≤ b.prog.n_instrs) :
    (pb_value b op a s hi lo).2.ok = -1 := by
  unfold pb_value pb_reg pb_emit
  by_cases hr : b.rc ≥ MAX_REGS
  · rw [if_pos hr]
    dsimp only
    split_ifs <;> rfl
  · rw [if_neg hr]
    dsimp only
    have hn : b.prog.n_instrs ≥ MAX_INSTRS := h.resolve_left hr
    rw [if_pos hn]

/-- No call clears the flag, and no call touches `n_state`. -/
theorem pb_value_latch (b : PatchBuilder) (op a s hi lo : Nat) :
    (b.ok = -1 → (pb_value b op a s hi lo).2.ok = -1) ∧
    (pb_value b op a s hi lo).2.prog.n_state = b.prog.n_state ∧
    (pb_value b op a s hi lo).2.prog.n_regs = b.prog.n_regs := by
  unfold pb_value pb_reg pb_emit
  split_ifs <;> dsimp only <;> split_ifs <;> exact ⟨fun h => by first | exact h | rfl, rfl, rfl⟩

theorem pb_out_latch (b : PatchBuilder) (src : Int) :
    (b.ok = -1 → (pb_out b src).ok = -1) ∧
    (b.prog.n_instrs < MAX_INSTRS → (pb_out b src).ok = b.ok) ∧
    (pb_out b src).prog.n_state = b.prog.n_state ∧ (pb_out b src).rc = b.rc := by
  unfold pb_out pb_emit
  split_ifs with h
  · exact ⟨fun _ => rfl, fun h2 => absurd h (not_le.mpr h2), rfl, rfl⟩
  · exact ⟨fun h => h, fun _ => rfl, rfl, rfl⟩

/-- A sequence of calls within both budgets returns consecutive registers and
appends one instruction per call. -/
theorem pb_calls_ok :
    ∀ (cs : List BuilderCall) (b : PatchBuilder), b.rc + cs.length ≤ MAX_REGS →
      b.prog.n_instrs + cs.length ≤ MAX_INSTRS →
      (pb_calls b cs).1 = List.range' b.rc cs.length ∧
      (pb_calls b cs).2.rc = b.rc + cs.length ∧
      (pb_calls b cs).2.ok = b.ok ∧
      (pb_calls b cs).2.prog.n_state = b.prog.n_state ∧
      (pb_calls b cs).2.prog.n_instrs = b.prog.n_instrs + cs.length ∧
      (pb_calls b cs).2.prog.code.take b.prog.n_instrs = b.prog.code := by
  intro cs
  induction cs with
  | nil =>
    intro b _ _
    refine ⟨rfl, rfl, rfl, rfl, rfl, ?_⟩
    simp [pb_calls, PatchProgram.n_instrs]
  | cons c cs ih =>
    intro b hr hn
    simp only [List.length_cons] at hr hn
    obtain ⟨op, a, s, hi, lo, hc⟩ := pb_call_value c
    have hv := pb_value_ok b op a s hi lo (by omega) (by omega)
    simp only [pb_calls, hc b]
    rw [hv]
    dsimp only
    obtain ⟨i1, i2, i3, i4, i5, i6⟩ := ih
      { b with rc := b.rc + 1,
               prog := { b.prog with code := b.prog.code ++ [INSTR_PACK op b.rc a s hi lo] } }
      (by dsimp only; omega)
      (by simp only [PatchProgram.n_instrs, List.length_append, List.length_singleton] at hn ⊢
          omega)
    simp only [PatchProgram.n_instrs, List.length_append, List.length_singleton] at i5 i6 ⊢
    refine ⟨?_, ?_, i3, i4, ?_, ?_⟩
    · rw [i1]; rfl
    · rw [i2]; simp only [List.length_cons]; omega
    · rw [i5]; simp only [List.length_cons]; omega
    · have h1 := congrArg (List.take b.prog.code.length) i6
      rw [List.take_take, Nat.min_eq_left (by omega)] at h1
      rw [h1]
      simp
/-- Claim C28. A value-producing builder call made with fewer than 256
registers and fewer than 1024 instructions in use returns the register
counter, increments it, appends exactly one instruction, whose destination
field is the register returned, after the earlier instructions, and leaves the
flag alone; a call made with the register counter at 256 or the instruction
count at 1024 sets `ok = -1`; once `ok` is -1 every later call, `pb_out` and
`pb_finish` leave it at -1; `pb_finish` sets `n_regs` to the register counter
and keeps the code.  After `pb_init` the calls return 4, 5, 6, … -/
theorem pb_call_fresh (b : PatchBuilder) (c : BuilderCall) :
    (b.rc < MAX_REGS → b.prog.n_instrs < MAX_INSTRS →
      (pb_call b c).1 = b.rc ∧ (pb_call b c).2.rc = b.rc + 1 ∧ (pb_call b c).2.ok = b.ok ∧
      ∃ ins, (pb_call b c).2.prog.code = b.prog.code ++ [ins] ∧ INSTR_DST ins = b.rc) ∧
    ((b.rc = MAX_REGS ∨ b.prog.n_instrs = MAX_INSTRS) → (pb_call b c).2.ok = -1) ∧
    (b.ok = -1 → (pb_call b c).2.ok = -1 ∧ (pb_finish b).ok = -1 ∧
      ∀ src, (pb_out b src).ok = -1) ∧
    ((pb_finish b).prog.n_regs = b.rc ∧ (pb_finish b).prog.code = b.prog.code) ∧
    (pb_init.rc = 4 ∧ pb_init.ok = 0 ∧ pb_init.prog.n_instrs = 0 ∧ MAX_REGS = 256 ∧
      MAX_INSTRS = 1024) ∧
    (∀ cs : List BuilderCall, cs.length ≤ 252 →
      (pb_calls pb_init cs).1 = List.range' 4 cs.length ∧
      (pb_calls pb_init cs).2.ok = 0 ∧
      (pb_calls pb_init cs).2.prog.n_instrs = cs.length) := by
  obtain ⟨op, a, s, hi, lo, hc⟩ := pb_call_value c
  rw [hc b]
  refine ⟨?_, ?_, ?_, ⟨rfl, rfl⟩, ⟨rfl, rfl, rfl, rfl, rfl⟩, ?_⟩
  · intro hr hn
    rw [pb_value_ok b op a s hi lo hr hn]
    refine ⟨rfl, rfl, rfl, _, rfl, ?_⟩
    rw [(INSTR_PACK_fields _ _ _ _ _ _).2.1]
    exact Nat.mod_eq_of_lt hr
  · intro h
    exact pb_value_overflow b op a s hi lo (h.imp (fun h => le_of_eq h.symm) (fun h => le_of_eq h.symm))
  · intro h
    exact ⟨(pb_value_latch b op a s hi lo).1 h, h, fun src => (pb_out_latch b src).1 h⟩
  · intro cs hl
    obtain ⟨k1, _, k3, _, k5, _⟩ := pb_calls_ok cs pb_init
      (by simp only [pb_init, REG_FREE, MAX_REGS]; omega)
      (by simp only [pb_init, PatchProgram.n_instrs, List.length_nil, MAX_INSTRS]; omega)
    exact ⟨k1, k3, by rw [k5]; simp [pb_init, PatchProgram.n_instrs]⟩

/-- Claim C29, amended. The builder keeps no account of state slots: no call
changes `n_state`, which stays at the 0 set by `pb_init`, and a call within the
register and instruction budgets leaves `ok` as it is, however many
instructions the program has; the slots of instruction `i + 128` are those of
instruction `i`. -/
theorem pb_state_unchecked (b : PatchBuilder) (c : BuilderCall) :
    (pb_call b c).2.prog.n_state = b.prog.n_state ∧
    (∀ src, (pb_out b src).prog.n_state = b.prog.n_state) ∧
    (pb_finish b).prog.n_state = b.prog.n_state ∧
    pb_init.prog.n_state = 0 ∧
    (b.rc < MAX_REGS → b.prog.n_instrs < MAX_INSTRS → (pb_call b c).2.ok = b.ok) ∧
    (∀ src, b.prog.n_instrs < MAX_INSTRS → (pb_out b src).ok = b.ok) ∧
    (pb_finish b).ok = b.ok ∧
    (∀ cs : List BuilderCall, cs.length ≤ 252 →
      (pb_calls pb_init cs).2.ok = 0 ∧ (pb_calls pb_init cs).2.prog.n_state = 0 ∧
      (pb_calls pb_init cs).2.prog.n_instrs = cs.length) ∧
    (∀ i : Nat, ((i + 128) * 4) % MAX_STATE = (i * 4) % MAX_STATE) := by
  obtain ⟨op, a, s, hi, lo, hc⟩ := pb_call_value c
  rw [hc b]
  refine ⟨(pb_value_latch b op a s hi lo).2.1, fun src => (pb_out_latch b src).2.2.1, rfl, rfl,
    ?_, fun src h => (pb_out_latch b src).2.1 h, rfl, ?_, ?_⟩
  · intro hr hn
    rw [pb_value_ok b op a s hi lo hr hn]
  · intro cs hl
    obtain ⟨_, _, k3, k4, k5, _⟩ := pb_calls_ok cs pb_init
      (by simp only [pb_init, REG_FREE, MAX_REGS]; omega)
      (by simp only [pb_init, PatchProgram.n_instrs, List.length_nil, MAX_INSTRS]; omega)
    exact ⟨k3, k4, by rw [k5]; simp [pb_init, PatchProgram.n_instrs]⟩
  · intro i
    unfold MAX_STATE
    omega

/-- Claim C29 as stated fails on a program of 129 noise sources: instruction 128
uses the slots of instruction 0, and the builder ends with `ok = 0` and
`n_state = 0`. -/
theorem pb_state_overflow_unnoticed :
    (pb_finish (pb_calls pb_init crowded_calls).2).prog.n_instrs = 129 ∧
    (pb_finish (pb_calls pb_init crowded_calls).2).ok = 0 ∧
    (pb_finish (pb_calls pb_init crowded_calls).2).prog.n_state = 0 ∧
    (128 * 4) % MAX_STATE = (0 * 4) % MAX_STATE ∧ 128 * 4 + 3 ≥ MAX_STATE := by
  have hl : crowded_calls.length = 129 := List.length_replicate _ _
  have h4 : pb_init.rc = 4 := rfl
  have h0 : pb_init.prog.n_instrs = 0 := rfl
  have hR : MAX_REGS = 256 := rfl
  have hI : MAX_INSTRS = 1024 := rfl
  obtain ⟨_, _, k3, k4, k5, _⟩ := pb_calls_ok crowded_calls pb_init
    (by omega) (by omega)
  rw [h0, hl] at k5
  generalize pb_calls pb_init crowded_calls = r at k3 k4 k5 ⊢
  exact ⟨k5, k3, k4, by decide, by decide⟩

/-! ### Packed immediates -/

theorem low_bits_lt (x : Int) (n : Nat) : low_bits x n < 2 ^ n := by
  unfold low_bits
  have h1 : (0 : Int) < 2 ^ n := by positivity
  have h2 := Int.emod_lt_of_pos x h1
  have h3 := Int.emod_nonneg x (ne_of_gt h1)
  have h4 : ((x % 2 ^ n).toNat : Int) = x % 2 ^ n := Int.toNat_of_nonneg h3
  have h5 : (((x % 2 ^ n).toNat : Nat) : Int) < ((2 ^ n : Nat) : Int) := by
    rw [h4]; push_cast; exact h2
  exact_mod_cast h5

theorem low_bits_of_range (x : Int) (n : Nat) (h0 : 0 ≤ x) (h1 : x < 2 ^ n) :
    ((low_bits x n : Nat) : Int) = x := by
  unfold low_bits
  rw [Int.emod_eq_of_lt h0 h1]
  exact Int.toNat_of_nonneg h0

theorem low_bits_mod (x : Int) (n : Nat) : ((low_bits x n : Nat) : Int) = x % 2 ^ n := by
  unfold low_bits
  exact Int.toNat_of_nonneg (Int.emod_nonneg x (by positivity))

theorem and_mask6 (x : Nat) : x &&& 0x3F = x % 64 :=
  Nat.and_pow_two_sub_one_eq_mod x 6

theorem and_mask5 (x : Nat) : x &&& 0x1F = x % 32 :=
  Nat.and_pow_two_sub_one_eq_mod x 5

/-- The high immediate of `pb_adsr` as a sum. -/
theorem adsr_hi_eq (att dec sus : Int) :
    adsr_hi att dec sus = 1024 * low_bits att 6 + 32 * low_bits dec 5 + low_bits sus 5 := by
  unfold adsr_hi
  have h1 := low_bits_lt att 6
  have h2 := low_bits_lt dec 5
  have h3 := low_bits_lt sus 5
  generalize low_bits att 6 = A at *
  generalize low_bits dec 5 = D at *
  generalize low_bits sus 5 = S at *
  simp only [Nat.shiftLeft_eq]
  have e1 : A * 2 ^ 10 ||| D * 2 ^ 5 = 2 ^ 10 * A + D * 2 ^ 5 := by
    rw [Nat.mul_comm A]; exact (Nat.mul_add_lt_is_or (by omega) A).symm
  have e2 : (2 ^ 10 * A + D * 2 ^ 5) ||| S = 2 ^ 5 * (2 ^ 5 * A + D) + S := by
    have : 2 ^ 10 * A + D * 2 ^ 5 = 2 ^ 5 * (2 ^ 5 * A + D) := by ring
    rw [this]; exact (Nat.mul_add_lt_is_or (by omega) _).symm
  rw [e1, e2]
  omega

theorem adsr_lo_eq (rel : Int) : adsr_lo rel = 2048 * low_bits rel 5 := by
  unfold adsr_lo
  have h1 := low_bits_lt rel 5
  generalize low_bits rel 5 = R at *
  simp only [Nat.shiftLeft_eq]
  omega

/-- Claim C26. The immediates packed by `pb_adsr(att,dec,sus,rel)` are decoded
by `adsr_tick` to the indices `att mod 64`, `dec mod 32`, `sus mod 32` and
`rel mod 32`, hence to `att`, `dec`, `sus`, `rel` themselves for `att` in
`0..63` and the others in `0..31`: the attack index lies in bits 15..10, the
decay index in bits 9..5 and the sustain index in bits 4..0 of the high
immediate, the release index in bits 15..11 of the low immediate.  The
instruction emitted carries these immediates and the opcode `ADSR`. -/
theorem pb_adsr_decoded (att dec sus rel : Int) :
    ((((adsr_hi att dec sus >>> 10) &&& 0x3F : Nat) : Int) = att % 64 ∧
      (((adsr_hi att dec sus >>> 5) &&& 0x1F : Nat) : Int) = dec % 32 ∧
      ((adsr_hi att dec sus &&& 0x1F : Nat) : Int) = sus % 32 ∧
      (((adsr_lo rel >>> 11) &&& 0x1F : Nat) : Int) = rel % 32) ∧
    (0 ≤ att → att < 64 → 0 ≤ dec → dec < 32 → 0 ≤ sus → sus < 32 → 0 ≤ rel → rel < 32 →
      (((adsr_hi att dec sus >>> 10) &&& 0x3F : Nat) : Int) = att ∧
      (((adsr_hi att dec sus >>> 5) &&& 0x1F : Nat) : Int) = dec ∧
      ((adsr_hi att dec sus &&& 0x1F : Nat) : Int) = sus ∧
      (((adsr_lo rel >>> 11) &&& 0x1F : Nat) : Int) = rel) ∧
    (adsr_hi att dec sus =
        2 ^ 10 * low_bits att 6 + 2 ^ 5 * low_bits dec 5 + low_bits sus 5 ∧
      adsr_lo rel = 2 ^ 11 * low_bits rel 5 ∧
      low_bits att 6 < 2 ^ 6 ∧ low_bits dec 5 < 2 ^ 5 ∧ low_bits sus 5 < 2 ^ 5 ∧
      low_bits rel 5 < 2 ^ 5) ∧
    (∀ b : PatchBuilder, b.rc < MAX_REGS → b.prog.n_instrs < MAX_INSTRS →
      ∃ ins, (pb_adsr b att dec sus rel).2.prog.code = b.prog.code ++ [ins] ∧
        INSTR_OP ins = OP_ADSR ∧ INSTR_IMM_HI ins = adsr_hi att dec sus ∧
        INSTR_IMM_LO ins = adsr_lo rel) := by
  have h1 := low_bits_lt att 6
  have h2 := low_bits_lt dec 5
  have h3 := low_bits_lt sus 5
  have h4 := low_bits_lt rel 5
  have eh := adsr_hi_eq att dec sus
  have el := adsr_lo_eq rel
  have d1 : (adsr_hi att dec sus >>> 10) &&& 0x3F = low_bits att 6 := by
    rw [and_mask6, Nat.shiftRight_eq_div_pow, eh]; omega
  have d2 : (adsr_hi att dec sus >>> 5) &&& 0x1F = low_bits dec 5 := by
    rw [and_mask5, Nat.shiftRight_eq_div_pow, eh]; omega
  have d3 : adsr_hi att dec sus &&& 0x1F = low_bits sus 5 := by
    rw [and_mask5, eh]; omega
  have d4 : (adsr_lo rel >>> 11) &&& 0x1F = low_bits rel 5 := by
    rw [and_mask5, Nat.shiftRight_eq_div_pow, el]; omega
  rw [d1, d2, d3, d4]
  refine ⟨⟨low_bits_mod att 6, low_bits_mod dec 5, low_bits_mod sus 5, low_bits_mod rel 5⟩,
    ?_, ⟨by rw [eh]; norm_num, by rw [el]; norm_num, h1, h2, h3, h4⟩, ?_⟩
  · intro a0 a1 b0 b1 c0 c1 e0 e1
    exact ⟨low_bits_of_range att 6 a0 (by norm_num; exact a1),
      low_bits_of_range dec 5 b0 (by norm_num; exact b1),
      low_bits_of_range sus 5 c0 (by norm_num; exact c1),
      low_bits_of_range rel 5 e0 (by norm_num; exact e1)⟩
  · intro b hr hn
    unfold pb_adsr
    rw [pb_value_ok b _ _ _ _ _ hr hn]
    refine ⟨_, rfl, ?_⟩
    obtain ⟨f1, _, _, _, f5, f6⟩ :=
      INSTR_PACK_fields OP_ADSR b.rc 0 0 (adsr_hi att dec sus) (adsr_lo rel)
    refine ⟨f1, ?_, ?_⟩
    · rw [f5]; apply Nat.mod_eq_of_lt; rw [eh]; omega
    · rw [f6]; apply Nat.mod_eq_of_lt; rw [el]; omega

/-! ### Constants -/

/-- The `CONST` case of `exec1`. -/
theorem exec_instr_const (lm : Libm) (i : Nat) (ins : Instr) (ps : PatchState)
    (h : INSTR_OP ins = OP_CONST) :
    exec_instr lm i ins ps =
      { ps with
        regs := Function.update ps.regs (INSTR_DST ins)
                  (decode_const (INSTR_IMM_HI ins) (INSTR_IMM_LO ins)) } := by
  unfold exec_instr
  dsimp only
  rw [if_pos h]

theorem truncInt_abs_sub_lt (x : ℚ) : |(truncInt x : ℚ) - x| < 1 := by
  unfold truncInt
  split_ifs with h
  · rw [abs_lt]
    constructor
    · linarith [Int.lt_floor_add_one x]
    · linarith [Int.floor_le x]
  · rw [abs_lt]
    constructor
    · linarith [Int.le_ceil x]
    · linarith [Int.ceil_lt_add_one x]

theorem truncInt_intCast (k : Int) : truncInt (k : ℚ) = k := by
  unfold truncInt
  split_ifs
  · exact Int.floor_intCast k
  · exact Int.ceil_intCast k

/-- The truncation of `v * 256` fits a signed 16-bit integer for `-128 ≤ v < 128`. -/
theorem truncInt_q88_range (v : ℚ) (h1 : -128 ≤ v) (h2 : v < 128) :
    -32768 ≤ truncInt (v * 256) ∧ truncInt (v * 256) < 32768 := by
  unfold truncInt
  split_ifs with h
  · constructor
    · have : (0 : Int) ≤ ⌊v * 256⌋ := Int.floor_nonneg.mpr h
      omega
    · rw [Int.floor_lt]
      push_cast
      linarith
  · constructor
    · rw [Int.le_ceil_iff]
      push_cast
      linarith
    · have h3 : v * 256 < 0 := not_le.mp h
      have : ⌈v * 256⌉ ≤ 0 := Int.ceil_le.mpr (by push_cast; linarith)
      omega

/-- A signed 16-bit integer survives the casts `(uint16_t)` and `(int16_t)`. -/
theorem toInt16_u16 (q : Int) (h1 : -32768 ≤ q) (h2 : q < 32768) : toInt16 (u16 q) = q := by
  unfold toInt16 u16
  have h3 : (0 : Int) ≤ q % 65536 := Int.emod_nonneg q (by decide)
  have h4 : (((q % 65536).toNat : Nat) : Int) = q % 65536 := Int.toNat_of_nonneg h3
  by_cases hq : 0 ≤ q
  · have e : q % 65536 = q := Int.emod_eq_of_lt hq (by omega)
    rw [e] at h4 ⊢
    rw [if_pos (by omega), h4]
  · have e : q % 65536 = q + 65536 := by omega
    rw [e] at h4 ⊢
    rw [if_neg (by omega), h4]
    omega

theorem u16_of_range (x : Int) (h0 : 0 ≤ x) (h1 : x < 65536) : u16 x = x.toNat := by
  unfold u16
  rw [Int.emod_eq_of_lt h0 h1]
/-- Claim C27. `decode_const` returns `g_mod[hi]` when the low immediate is 0
and the high immediate is below 32, and otherwise the high immediate read as a
signed 16-bit integer, divided by 256.  So the instruction emitted by
`pb_const_mod(i)` for `0 ≤ i < 32` stores `g_mod[i]` into the register
returned, and the instruction emitted by `pb_const_f(v)` for `-128 ≤ v < 128`
stores `trunc(v·256)/256`, which differs from `v` by less than `1/256` and
equals `v` when `v` is a multiple of `1/256`. -/
theorem const_decoding :
    (∀ hi lo : Nat, lo = 0 → hi < 32 → decode_const hi lo = g_mod hi) ∧
    (∀ hi lo : Nat, ¬ (lo = 0 ∧ hi < 32) → decode_const hi lo = (toInt16 hi : ℚ) / 256) ∧
    (∀ (lm : Libm) (b : PatchBuilder) (mi : Int) (pos : Nat) (ps : PatchState),
      b.rc < MAX_REGS → b.prog.n_instrs < MAX_INSTRS → 0 ≤ mi → mi < 32 →
      ∃ ins, (pb_const_mod b mi).2.prog.code = b.prog.code ++ [ins] ∧
        (exec_instr lm pos ins ps).regs (pb_const_mod b mi).1 = g_mod mi.toNat) ∧
    (∀ (lm : Libm) (b : PatchBuilder) (v : ℚ) (pos : Nat) (ps : PatchState),
      b.rc < MAX_REGS → b.prog.n_instrs < MAX_INSTRS → -128 ≤ v → v < 128 →
      (∃ ins, (pb_const_f b v).2.prog.code = b.prog.code ++ [ins] ∧
        (exec_instr lm pos ins ps).regs (pb_const_f b v).1 = (truncInt (v * 256) : ℚ) / 256) ∧
      |(truncInt (v * 256) : ℚ) / 256 - v| < 1 / 256 ∧
      ((∃ k : Int, v = (k : ℚ) / 256) → (truncInt (v * 256) : ℚ) / 256 = v)) := by
  refine ⟨?_, ?_, ?_, ?_⟩
  · intro hi lo h0 h1
    unfold decode_const
    rw [if_pos h0, if_pos h1]
  · intro hi lo h
    unfold decode_const
    by_cases h0 : lo = 0
    · rw [if_pos h0, if_neg (fun h1 => h ⟨h0, h1⟩)]
    · rw [if_neg h0]
  · intro lm b mi pos ps hr hn m0 m1
    unfold pb_const_mod
    rw [pb_value_ok b _ _ _ _ _ hr hn]
    refine ⟨_, rfl, ?_⟩
    obtain ⟨f1, f2, _, _, f5, f6⟩ := INSTR_PACK_fields OP_CONST b.rc 0 0 (u16 mi) 0
    have hu : u16 mi = mi.toNat := u16_of_range mi m0 (by omega)
    have hlt : mi.toNat < 32 := by omega
    have hr2 : b.rc % 256 = b.rc := Nat.mod_eq_of_lt hr
    rw [exec_instr_const lm pos _ ps f1, f2, f5, f6, hr2, hu,
      Nat.mod_eq_of_lt (by omega : mi.toNat < 65536)]
    dsimp only
    rw [Function.update_same]
    unfold decode_const
    rw [if_pos rfl, if_pos hlt]
  · intro lm b v pos ps hr hn v0 v1
    obtain ⟨q0, q1⟩ := truncInt_q88_range v v0 v1
    refine ⟨?_, ?_, ?_⟩
    · unfold pb_const_f
      rw [pb_value_ok b _ _ _ _ _ hr hn]
      refine ⟨_, rfl, ?_⟩
      obtain ⟨f1, f2, _, _, f5, f6⟩ :=
        INSTR_PACK_fields OP_CONST b.rc 0 0 (u16 (truncInt (v * 256))) 1
      have hu : u16 (truncInt (v * 256)) < 65536 := by
        unfold u16
        have := Int.emod_lt_of_pos (truncInt (v * 256)) (by decide : (0 : Int) < 65536)
        have := Int.emod_nonneg (truncInt (v * 256)) (by decide : (65536 : Int) ≠ 0)
        omega
      have hr2 : b.rc % 256 = b.rc := Nat.mod_eq_of_lt hr
      rw [exec_instr_const lm pos _ ps f1, f2, f5, f6, hr2, Nat.mod_eq_of_lt hu]
      dsimp only
      rw [Function.update_same]
      unfold decode_const
      rw [if_neg (by decide), toInt16_u16 _ q0 q1]
    · have h := truncInt_abs_sub_lt (v * 256)
      have e : (truncInt (v * 256) : ℚ) / 256 - v = ((truncInt (v * 256) : ℚ) - v * 256) / 256 := by
        ring
      rw [e, abs_div, abs_of_pos (by norm_num : (0 : ℚ) < 256)]
      exact div_lt_div_of_pos_right h (by norm_num)
    · rintro ⟨k, hk⟩
      have e : v * 256 = (k : ℚ) := by rw [hk]; ring
      rw [e, truncInt_intCast, hk]

/-! ### The envelope after a release trigger -/

/-- Claim C24. The patch left by `patch_note_on` does not depend on what the
patch held before: two patches with any prior registers, state, generator
state, note parameters and program become the same patch under the same
arguments, and `patch_step` then returns the same status, the same samples and
the same patch for every length.  The state is zero, `rng` is `0xDEADBEEF`,
`note_time` is 0, the four reserved registers are set, and the frequency is
the table entry of the pitch clamped to `0..127`. -/
theorem patch_note_on_deterministic (lm : Libm) (p p' : Patch) (prog : PatchProgram) (sr : ℚ)
    (midi : Int) (vel : ℚ) :
    patch_note_on lm p prog sr midi vel = patch_note_on lm p' prog sr midi vel ∧
    (∀ n : Nat, patch_step lm (patch_note_on lm p prog sr midi vel) n =
      patch_step lm (patch_note_on lm p' prog sr midi vel) n) ∧
    ((patch_note_on lm p prog sr midi vel).prog = some prog ∧
      (∀ j, (patch_note_on lm p prog sr midi vel).st.state j = 0) ∧
      (patch_note_on lm p prog sr midi vel).st.rng = 0xDEADBEEF ∧
      (patch_note_on lm p prog sr midi vel).st.note_time = 0 ∧
      (patch_note_on lm p prog sr midi vel).st.note_vel = vel ∧
      (patch_note_on lm p prog sr midi vel).st.sr = sr ∧
      (patch_note_on lm p prog sr midi vel).st.dt = 1 / sr ∧
      (patch_note_on lm p prog sr midi vel).st.note_freq = freq_from_midi lm midi ∧
      (patch_note_on lm p prog sr midi vel).st.regs REG_FREQ = freq_from_midi lm midi ∧
      (patch_note_on lm p prog sr midi vel).st.regs REG_VEL = vel ∧
      (patch_note_on lm p prog sr midi vel).st.regs REG_TIME = 0 ∧
      (patch_note_on lm p prog sr midi vel).st.regs REG_ONE = 1 ∧
      (∀ r, 4 ≤ r → (patch_note_on lm p prog sr midi vel).st.regs r = 0)) ∧
    (freq_from_midi lm midi = lm.g_freq (max 0 (min 127 midi)).toNat ∧
      (max 0 (min 127 midi)).toNat ≤ 127) := by
  have e : patch_note_on lm p prog sr midi vel = patch_note_on lm p' prog sr midi vel := rfl
  refine ⟨e, fun n => by rw [e], ⟨rfl, fun _ => rfl, rfl, rfl, rfl, rfl, rfl, rfl, ?_, ?_, ?_, ?_,
    ?_⟩, ?_, ?_⟩
  · simp [patch_note_on, Function.update, REG_FREQ, REG_VEL, REG_TIME, REG_ONE]
  · simp [patch_note_on, Function.update, REG_FREQ, REG_VEL, REG_TIME, REG_ONE]
  · simp [patch_note_on, Function.update, REG_FREQ, REG_VEL, REG_TIME, REG_ONE]
  · simp [patch_note_on, Function.update, REG_FREQ, REG_VEL, REG_TIME, REG_ONE]
  · intro r hr
    have h0 : r ≠ REG_FREQ := by unfold REG_FREQ; omega
    have h1 : r ≠ REG_VEL := by unfold REG_VEL; omega
    have h2 : r ≠ REG_TIME := by unfold REG_TIME; omega
    have h3 : r ≠ REG_ONE := by unfold REG_ONE; omega
    simp only [patch_note_on]
    rw [Function.update_noteq h3, Function.update_noteq h2, Function.update_noteq h1,
      Function.update_noteq h0]
    rfl
  · unfold freq_from_midi
    dsimp only
    congr 1
    split_ifs <;> omega
  · omega

/-! ### A bound on the sine-with-envelope patch -/

theorem shl_xor (a b k : Nat) : (a ^^^ b) <<< k = a <<< k ^^^ b <<< k := by
  apply Nat.eq_of_testBit_eq
  intro i
  simp only [Nat.testBit_shiftLeft, Nat.testBit_xor]
  by_cases h : k ≤ i <;> simp [h]

theorem shr_xor (a b k : Nat) : (a ^^^ b) >>> k = a >>> k ^^^ b >>> k := by
  apply Nat.eq_of_testBit_eq
  intro i
  simp only [Nat.testBit_shiftRight, Nat.testBit_xor]

theorem xor_mod_pow (a b n : Nat) : (a ^^^ b) % 2 ^ n = a % 2 ^ n ^^^ b % 2 ^ n := by
  apply Nat.eq_of_testBit_eq
  intro i
  simp only [Nat.testBit_mod_two_pow, Nat.testBit_xor]
  by_cases h : i < n <;> simp [h]

/-- A word that is not 0 differs from its left shift by 13 or by 5 places. -/
theorem xor_shl_ne_zero (s : Nat) (h : s ≠ 0) :
    s ^^^ ((s <<< 13) % 2 ^ 32) ≠ 0 ∧ s ^^^ ((s <<< 5) % 2 ^ 32) ≠ 0 := by
  constructor
  · intro h0
    have e := Nat.xor_eq_zero.mp h0
    rw [Nat.shiftLeft_eq] at e
    omega
  · intro h0
    have e := Nat.xor_eq_zero.mp h0
    rw [Nat.shiftLeft_eq] at e
    omega

/-- A word that is not 0 differs from its right shift by 17 places. -/
theorem xor_shr_ne_zero (s : Nat) (h : s ≠ 0) : s ^^^ (s >>> 17) ≠ 0 := by
  intro h0
  have e := Nat.xor_eq_zero.mp h0
  rw [Nat.shiftRight_eq_div_pow] at e
  omega

theorem xorshift32_ne_zero (s : Nat) (h : s ≠ 0) : xorshift32 s ≠ 0 := by
  unfold xorshift32
  exact (xor_shl_ne_zero _ (xor_shr_ne_zero _ (xor_shl_ne_zero s h).1)).2

theorem xorshift32_lt (s : Nat) (h : s < 2 ^ 32) : xorshift32 s < 2 ^ 32 := by
  unfold xorshift32
  have h1 : s ^^^ ((s <<< 13) % 2 ^ 32) < 2 ^ 32 :=
    Nat.xor_lt_two_pow h (Nat.mod_lt _ (by norm_num))
  have h2 : (s ^^^ ((s <<< 13) % 2 ^ 32)) ^^^ ((s ^^^ ((s <<< 13) % 2 ^ 32)) >>> 17) < 2 ^ 32 :=
    Nat.xor_lt_two_pow h1 (lt_of_le_of_lt (by rw [Nat.shiftRight_eq_div_pow]; exact Nat.div_le_self _ _) h1)
  exact Nat.xor_lt_two_pow h2 (Nat.mod_lt _ (by norm_num))

/-- The generator step is linear over exclusive or. -/
theorem xorshift32_xor (a b : Nat) : xorshift32 (a ^^^ b) = xorshift32 a ^^^ xorshift32 b := by
  have k1 : ∀ (x y k : Nat), (x ^^^ y) ^^^ (((x ^^^ y) <<< k) % 2 ^ 32) =
      (x ^^^ ((x <<< k) % 2 ^ 32)) ^^^ (y ^^^ ((y <<< k) % 2 ^ 32)) := by
    intro x y k
    rw [shl_xor, xor_mod_pow]
    simp only [Nat.xor_assoc]
    congr 1
    rw [Nat.xor_comm y, Nat.xor_assoc, Nat.xor_comm _ y]
  have k2 : ∀ (x y : Nat), (x ^^^ y) ^^^ ((x ^^^ y) >>> 17) =
      (x ^^^ (x >>> 17)) ^^^ (y ^^^ (y >>> 17)) := by
    intro x y
    rw [shr_xor]
    simp only [Nat.xor_assoc]
    congr 1
    rw [Nat.xor_comm y, Nat.xor_assoc, Nat.xor_comm _ y]
  unfold xorshift32
  dsimp only
  rw [k1 a b 13, k2, k1]

theorem xorshift32_inj : Function.Injective xorshift32 := by
  intro a b h
  have h1 : xorshift32 (a ^^^ b) = 0 := by
    rw [xorshift32_xor, h, Nat.xor_self]
  by_contra hab
  exact xorshift32_ne_zero (a ^^^ b) (fun h0 => hab (Nat.xor_eq_zero.mp h0)) h1

theorem xorshift32_iterate (k : Nat) :
    ∀ s : Nat, s ≠ 0 → s < 2 ^ 32 → xorshift32^[k] s ≠ 0 ∧ xorshift32^[k] s < 2 ^ 32 := by
  induction k with
  | zero => intro s h1 h2; exact ⟨h1, h2⟩
  | succ k ih =>
    intro s h1 h2
    rw [Function.iterate_succ_apply]
    exact ih _ (xorshift32_ne_zero s h1) (xorshift32_lt s h2)

theorem toInt32_inj (a b : Nat) (ha : a < 2 ^ 32) (hb : b < 2 ^ 32)
    (h : toInt32 a = toInt32 b) : a = b := by
  unfold toInt32 at h
  split_ifs at h <;> omega

theorem rng_f_inj (a b : Nat) (ha : a < 2 ^ 32) (hb : b < 2 ^ 32)
    (h : (rng_f a).1 = (rng_f b).1) : a = b := by
  unfold rng_f at h
  dsimp only at h
  have h2 : ((toInt32 (xorshift32 a) : Int) : ℚ) = (toInt32 (xorshift32 b) : ℚ) := by
    have := mul_right_cancel₀ (by norm_num : (1 / 2147483648 : ℚ) ≠ 0) h
    exact this
  exact xorshift32_inj (toInt32_inj _ _ (xorshift32_lt a ha) (xorshift32_lt b hb)
    (by exact_mod_cast h2))

/-- One instruction leaves the generator alone or draws once. -/
theorem exec_instr_rng (lm : Libm) (i : Nat) (ins : Instr) (ps : PatchState) :
    (exec_instr lm i ins ps).rng = ps.rng ∨ (exec_instr lm i ins ps).rng = xorshift32 ps.rng := by
  unfold exec_instr
  dsimp only
  repeat' apply ite_prop (fun q : PatchState => q.rng = ps.rng ∨ q.rng = xorshift32 ps.rng)
  all_goals first
    | exact Or.inl rfl
    | exact Or.inr rfl

theorem exec1_from_rng (lm : Libm) :
    ∀ (code : List Instr) (i : Nat) (ps : PatchState),
      ∃ k, (exec1_from lm code i ps).2.rng = xorshift32^[k] ps.rng := by
  intro code
  induction code with
  | nil => intro i ps; exact ⟨0, rfl⟩
  | cons ins rest ih =>
    intro i ps
    rw [exec1_from]
    split_ifs with h
    · exact ⟨0, rfl⟩
    · obtain ⟨k, hk⟩ := ih (i + 1) (exec_instr lm i ins ps)
      rcases exec_instr_rng lm i ins ps with e | e
      · exact ⟨k, by rw [hk, e]⟩
      · exact ⟨k + 1, by rw [hk, e, Function.iterate_succ_apply]⟩

theorem patch_step_loop_rng (lm : Libm) (prog : PatchProgram) :
    ∀ (n : Nat) (st : PatchState),
      ∃ k, (patch_step_loop lm prog n st).2.rng = xorshift32^[k] st.rng := by
  intro n
  induction n with
  | zero => intro st; exact ⟨0, rfl⟩
  | succ n ih =>
    intro st
    rw [patch_step_loop]
    dsimp only
    obtain ⟨k1, h1⟩ := exec1_from_rng lm prog.code 0
      { st with regs := Function.update st.regs REG_TIME st.note_time }
    obtain ⟨k2, h2⟩ := ih (exec1 lm
      { st with regs := Function.update st.regs REG_TIME st.note_time } prog).2
    refine ⟨k2 + k1, ?_⟩
    rw [h2, exec1, h1, Function.iterate_add_apply]

/-- Claim C32. The xorshift step of `rng_f` maps a state that is not 0 to a state
that is not 0 (and a 32-bit word to a 32-bit word).  `patch_reset` seeds the
generator with `0xDEADBEEF`; an instruction other than `NOISE`, `LP_NOISE`
and `RAND_STEP` leaves the generator alone and each of these three draws at
most once, so after a note-on and any number of samples of any program the
generator state is the seed after some number of draws, and that is never 0.
Two successive states of the generator always differ, and so do two successive
noise samples: the source is never stuck at a constant. -/
theorem rng_never_zero (lm : Libm) :
    (∀ s : Nat, s ≠ 0 → xorshift32 s ≠ 0 ∧ (rng_f s).2 ≠ 0) ∧
    (∀ s : Nat, s < 2 ^ 32 → xorshift32 s < 2 ^ 32) ∧
    (∀ p : Patch, (patch_reset p).st.rng = 0xDEADBEEF) ∧
    (∀ k : Nat, xorshift32^[k] 0xDEADBEEF ≠ 0 ∧
      xorshift32^[k + 1] 0xDEADBEEF ≠ xorshift32^[k] 0xDEADBEEF ∧
      (rng_f (xorshift32^[k + 1] 0xDEADBEEF)).1 ≠ (rng_f (xorshift32^[k] 0xDEADBEEF)).1) ∧
    (∀ (i : Nat) (ins : Instr) (ps : PatchState),
      ((exec_instr lm i ins ps).rng = ps.rng ∨
        (exec_instr lm i ins ps).rng = (rng_f ps.rng).2) ∧
      (INSTR_OP ins ≠ OP_NOISE → INSTR_OP ins ≠ OP_LP_NOISE → INSTR_OP ins ≠ OP_RAND_STEP →
        (exec_instr lm i ins ps).rng = ps.rng)) ∧
    (∀ (p : Patch) (prog : PatchProgram) (sr : ℚ) (midi : Int) (vel : ℚ) (n : Nat),
      (patch_step lm (patch_note_on lm p prog sr midi vel) n).2.2.st.rng ≠ 0 ∧
      ∃ k, (patch_step lm (patch_note_on lm p prog sr midi vel) n).2.2.st.rng =
        xorshift32^[k] 0xDEADBEEF) := by
  have hseed : (0xDEADBEEF : Nat) ≠ 0 ∧ (0xDEADBEEF : Nat) < 2 ^ 32 := by decide
  have hmove : xorshift32 0xDEADBEEF ≠ 0xDEADBEEF := by decide
  have hstep : ∀ k : Nat, xorshift32^[k + 1] 0xDEADBEEF ≠ xorshift32^[k] 0xDEADBEEF := by
    intro k h
    rw [Function.iterate_succ_apply] at h
    exact hmove (xorshift32_inj.iterate k h)
  refine ⟨fun s h => ⟨xorshift32_ne_zero s h, xorshift32_ne_zero s h⟩, xorshift32_lt,
    fun _ => rfl, ?_, ?_, ?_⟩
  · intro k
    refine ⟨(xorshift32_iterate k _ hseed.1 hseed.2).1, hstep k, ?_⟩
    intro h
    exact hstep k (rng_f_inj _ _ (xorshift32_iterate (k + 1) _ hseed.1 hseed.2).2
      (xorshift32_iterate k _ hseed.1 hseed.2).2 h)
  · intro i ins ps
    refine ⟨exec_instr_rng lm i ins ps, ?_⟩
    intro h1 h2 h3
    unfold exec_instr
    dsimp only
    rw [if_neg h1, if_neg h2, if_neg h3]
    repeat' apply ite_prop (fun q : PatchState => q.rng = ps.rng)
    all_goals rfl
  · intro p prog sr midi vel n
    have hk : ∃ k, (patch_step lm (patch_note_on lm p prog sr midi vel) n).2.2.st.rng =
        xorshift32^[k] 0xDEADBEEF := by
      obtain ⟨k, hk⟩ := patch_step_loop_rng lm prog n (patch_note_on lm p prog sr midi vel).st
      exact ⟨k, hk⟩
    obtain ⟨k, e⟩ := hk
    exact ⟨by rw [e]; exact (xorshift32_iterate k _ hseed.1 hseed.2).1, k, e⟩

/-! ### Termination of the compiler -/

/-- Claim C33. `voice_compile` returns on every voice program, whatever its
length and its `REPEAT_BEGIN` / `REPEAT_END` structure, with status 0 or -1:
the loop of `compile_range` entered at `i` over the range up to `hi` returns
within `hi - i + 1` nested loop iterations and calls, and every larger bound
gives the same result.  The scan for the matching `REPEAT_END` returns an
index `e` with `i < e < hi`, so the recursive calls work on the range
`(i, e)`, strictly shorter than `[i, hi)`, and the loop continues at
`e + 1 > i`, after at most 255 calls; a `REPEAT_BEGIN` without a match returns
-1 at once; in every other iteration the index goes from `i` to `i + 1` or the
function returns. -/
theorem voice_compile_terminates :
    (∀ vp : VoiceProgram, ∃ r es, voice_compile vp = some (r, es) ∧ (r = 0 ∨ r = -1)) ∧
    (∀ (code : List VInstr) (f i hi : Nat) (st : CState), hi - i < f →
      (∃ r, compile_range code f i hi st = some r) ∧
      ∀ g, hi - i < g → compile_range code g i hi st = compile_range code f i hi st) ∧
    (∀ (code : List VInstr) (i hi e : Nat),
      find_end code (hi - (i + 1)) (i + 1) 1 = some e →
        i < e ∧ e < hi ∧ e - (i + 1) < hi - i ∧ hi - (e + 1) < hi - i ∧
        1 ≤ count_of (code.getD e 0) ∧ count_of (code.getD e 0) ≤ 255) ∧
    (∀ (code : List VInstr) (f i hi : Nat) (st : CState), i < hi →
      VI_OP (code.getD i 0) = VI_REPEAT_BEGIN →
      find_end code (hi - (i + 1)) (i + 1) 1 = none →
        compile_range code (f + 1) i hi st = some (-1, st)) ∧
    (∀ (code : List VInstr) (f i hi : Nat) (st : CState), i < hi →
      VI_OP (code.getD i 0) ≠ VI_REPEAT_BEGIN →
      compile_range code (f + 1) i hi st =
        if (simple_step (code.getD i 0) st).1 < 0 then some (-1, (simple_step (code.getD i 0) st).2)
        else compile_range code f (i + 1) hi (simple_step (code.getD i 0) st).2) := by
  refine ⟨voice_compile_total, ?_, ?_, ?_, ?_⟩
  · intro code f i hi st hf
    exact ⟨compile_range_total code f i hi st hf,
      fun g hg => compile_range_fuel code g f i hi st hg hf⟩
  · intro code i hi e h
    have := find_end_spec code _ _ _ _ h
    have hc : 1 ≤ count_of (code.getD e 0) ∧ count_of (code.getD e 0) ≤ 255 := by
      unfold count_of VI_VEL
      split_ifs <;> omega
    omega
  · intro code f i hi st hlt hop hfe
    rw [compile_range_begin code _ _ _ _ hlt hop, hfe]
  · intro code f i hi st hlt hop
    exact compile_range_step code _ _ _ _ hlt hop

/-! ### Splitting a block -/

theorem render_loop_params (lm : Libm) (spb dt : ℚ) :
    ∀ (n : Nat) (vr : VoiceRenderer),
      (render_loop lm spb dt n vr).2.bpm = vr.bpm ∧ (render_loop lm spb dt n vr).2.sr = vr.sr := by
  intro n
  induction n with
  | zero => intro vr; exact ⟨rfl, rfl⟩
  | succ n ih =>
    intro vr
    obtain ⟨_, f2, f3, _⟩ := render_sample_frame lm spb dt vr
    obtain ⟨g1, g2⟩ := ih (render_sample lm spb dt vr).2
    simp only [render_loop]
    exact ⟨g1.trans f2, g2.trans f3⟩

/-- The sample loop over `a + b` samples is the loop over `a` samples followed
by the loop over `b` samples. -/
theorem render_loop_add (lm : Libm) (spb dt : ℚ) (b : Nat) :
    ∀ (a : Nat) (vr : VoiceRenderer),
      render_loop lm spb dt (a + b) vr =
        ((render_loop lm spb dt a vr).1 ++ (render_loop lm spb dt b (render_loop lm spb dt a vr).2).1,
          (render_loop lm spb dt b (render_loop lm spb dt a vr).2).2) := by
  intro a
  induction a with
  | zero => intro vr; simp [render_loop]
  | succ a ih =>
    intro vr
    have e : a + 1 + b = (a + b) + 1 := by omega
    rw [e, render_loop]
    rw [ih]
    simp only [render_loop, List.cons_append]

/-- A block that returns 0 with an event still pending ends right after its
sample loop: nothing but the loop has touched the renderer. -/
theorem render_block_pending (lm : Libm) (vr : VoiceRenderer) (a : Nat)
    (h0 : (voice_render_block lm vr a).1 = 0)
    (hc : (voice_render_block lm vr a).2.2.ev_cursor < vr.es.n) :
    vr.done = false ∧
    voice_render_block lm vr a =
      (0, (render_loop lm (60 / vr.bpm) (1 / vr.sr) a vr).1,
        (render_loop lm (60 / vr.bpm) (1 / vr.sr) a vr).2) := by
  obtain ⟨f1, f2, _⟩ := render_loop_frame lm (60 / vr.bpm) (1 / vr.sr) a vr
  unfold voice_render_block at h0 hc ⊢
  by_cases hd : vr.done = true
  · rw [if_pos hd] at h0
    exact absurd h0 (by simp)
  · rw [if_neg hd] at h0 hc ⊢
    dsimp only at h0 hc ⊢
    refine ⟨by simpa using hd, ?_⟩
    rw [← f1] at hc
    generalize render_loop lm (60 / vr.bpm) (1 / vr.sr) a vr = r at hc h0 ⊢
    by_cases hk : r.2.ev_cursor ≥ r.2.es.n
    · exfalso
      rw [if_pos hk] at hc
      split_ifs at hc <;> exact absurd hc (not_lt.mpr hk)
    · rw [if_neg hk]

/-- Claim C31, amended. When `voice_render_block` over `a` samples returns 0 and
leaves an event of the stream pending, rendering `a` samples and then `b`
samples writes the same `a + b` samples, leaves the same renderer and returns
the same status as one call over `a + b` samples. -/
theorem render_block_split (lm : Libm) (vr : VoiceRenderer) (a b : Nat)
    (h0 : (voice_render_block lm vr a).1 = 0)
    (hc : (voice_render_block lm vr a).2.2.ev_cursor < vr.es.n) :
    (voice_render_block lm vr (a + b)).2.1 =
      (voice_render_block lm vr a).2.1 ++
        (voice_render_block lm (voice_render_block lm vr a).2.2 b).2.1 ∧
    (voice_render_block lm vr (a + b)).2.2 =
      (voice_render_block lm (voice_render_block lm vr a).2.2 b).2.2 ∧
    (voice_render_block lm vr (a + b)).1 =
      (voice_render_block lm (voice_render_block lm vr a).2.2 b).1 := by
  obtain ⟨hd, e⟩ := render_block_pending lm vr a h0 hc
  obtain ⟨f1, f2, _⟩ := render_loop_frame lm (60 / vr.bpm) (1 / vr.sr) a vr
  obtain ⟨p1, p2⟩ := render_loop_params lm (60 / vr.bpm) (1 / vr.sr) a vr
  rw [e]
  dsimp only
  have hnd : ¬ (vr.done = true) := by rw [hd]; decide
  have hnd2 : ¬ ((render_loop lm (60 / vr.bpm) (1 / vr.sr) a vr).2.done = true) := by
    rw [f2]; exact hnd
  unfold voice_render_block
  rw [if_neg hnd, if_neg hnd2]
  dsimp only
  rw [p1, p2, render_loop_add]
  dsimp only
  generalize (render_loop lm (60 / vr.bpm) (1 / vr.sr) b
    (render_loop lm (60 / vr.bpm) (1 / vr.sr) a vr).2) = r2
  generalize (render_loop lm (60 / vr.bpm) (1 / vr.sr) a vr).1 = l1
  split_ifs <;> exact ⟨rfl, rfl, rfl⟩

theorem render_block_split_witness :
    (voice_render_block libm_sample clock_renderer 1).1 = 0 ∧
    (voice_render_block libm_sample clock_renderer 1).2.2.ev_cursor < clock_renderer.es.n ∧
    (voice_render_block libm_sample clock_renderer (1 + 2)).2.1 =
      (voice_render_block libm_sample clock_renderer 1).2.1 ++
        (voice_render_block libm_sample
          (voice_render_block libm_sample clock_renderer 1).2.2 2).2.1 :=
  ⟨by decide!, by decide!,
    (render_block_split libm_sample clock_renderer 1 2 (by decide!) (by decide!)).1⟩

/-- Claim C31 as stated fails when the first block drains the stream: on
`clock_renderer` a block of 2 samples returns 0 after its probe has stepped
the patch, so the third sample is 3/8 when rendered as 2 + 1 samples and 1/4
when rendered as one block of 3. -/
theorem render_block_split_fails :
    (voice_render_block libm_sample clock_renderer 2).1 = 0 ∧
    (voice_render_block libm_sample clock_renderer 2).2.1 ++
      (voice_render_block libm_sample
        (voice_render_block libm_sample clock_renderer 2).2.2 1).2.1 = [0, 1 / 8, 3 / 8] ∧
    (voice_render_block libm_sample clock_renderer (2 + 1)).2.1 = [0, 1 / 8, 1 / 4] := by
  decide!

end Synth
